import Mathlib

/-!
Verification development for the Nyaya.AI GraphRAG legal-question core.

This file gives a shallow embedding, in Lean 4, of the parts of the code
base touched by the frozen claims: the knowledge-graph load step and
multi-hop traversal (`query_engine/graph_traversal.py`), the query parser
(`query_engine/query_parser.py`), the context builder
(`query_engine/context_builder.py`), the confidence scorer
(`llm_integration/confidence_scorer.py`), and the response validator
(`llm_integration/validation.py`).

Modelling conventions:
* Python strings are modelled as `List Char` (`Str`); Python float scores
  are modelled as rationals (the scoring code only ever adds, multiplies
  and compares small decimal constants).
* Python dict records (graph node content) are modelled as a structure
  whose fields default to the empty string, matching `dict.get(k, '')`.
* Regular-expression primitives (`re.search`, `re.findall`, ...) are
  abstracted as oracle parameters that report what the regexes found in a
  given text; all combinator logic around them is translated concretely.
-/

namespace Nyaya

/-- Python strings, modelled as lists of characters. -/
abbrev Str := List Char

/-- Python's `in` on strings (substring containment). -/
def strContains (s pat : Str) : Bool := decide (pat <:+: s)

/-! ### Confidence scorer data model (`llm_integration/confidence_scorer.py`) -/

/-- The six component scores of `ConfidenceComponents`. -/
structure ConfidenceComponents where
  graph_coverage : ℚ
  citation_density : ℚ
  reasoning_chain_score : ℚ
  response_quality : ℚ
  temporal_validity : ℚ
  audience_appropriateness : ℚ

/-- An audience weight dict.  The Python dicts all carry exactly these six
keys, so `weights.get(key, default)` always returns the stored value and is
modelled as plain field access. -/
structure AudienceWeights where
  graph_coverage : ℚ
  citation_density : ℚ
  reasoning_chain : ℚ
  response_quality : ℚ
  temporal_validity : ℚ
  audience_appropriateness : ℚ

/-- Python `sum(weights.values())`. -/
def AudienceWeights.total (w : AudienceWeights) : ℚ :=
  w.graph_coverage + w.citation_density + w.reasoning_chain +
    w.response_quality + w.temporal_validity + w.audience_appropriateness

/-- `ConfidenceComponents.get_weighted_average` from the source: the
weighted sum of the six components divided by the total weight, with an
explicit 0 result when the total weight is 0. -/
def ConfidenceComponents.get_weighted_average
    (c : ConfidenceComponents) (w : AudienceWeights) : ℚ :=
  if w.total = 0 then 0
  else
    (c.graph_coverage * w.graph_coverage +
      c.citation_density * w.citation_density +
      c.reasoning_chain_score * w.reasoning_chain +
      c.response_quality * w.response_quality +
      c.temporal_validity * w.temporal_validity +
      c.audience_appropriateness * w.audience_appropriateness) / w.total

/-- The `citizen` entry of `ConfidenceScorer.audience_weights`. -/
def citizenWeights : AudienceWeights :=
  ⟨0.25, 0.20, 0.15, 0.25, 0.10, 0.05⟩

/-- The `lawyer` entry of `ConfidenceScorer.audience_weights`. -/
def lawyerWeights : AudienceWeights :=
  ⟨0.30, 0.30, 0.20, 0.15, 0.05, 0.00⟩

/-- The `judge` entry of `ConfidenceScorer.audience_weights`. -/
def judgeWeights : AudienceWeights :=
  ⟨0.35, 0.35, 0.25, 0.05, 0.00, 0.00⟩

/-! ### Knowledge-graph data model (`query_engine/graph_traversal.py`) -/

/-- A graph record (a Python dict loaded from the JSON node/edge files).
Fields that a record does not carry are the empty string, matching
`content.get(key, '')`. -/
structure NodeContent where
  section_id : Str := []
  section_number : Str := []
  title : Str := []
  text : Str := []
  chapter : Str := []
  chapter_title : Str := []
  act : Str := []
  clause_id : Str := []
  parent_section : Str := []
  label : Str := []
  term : Str := []
  definition : Str := []
  defined_in : Str := []
  right_id : Str := []
  right_type : Str := []
  description : Str := []
  scope : Str := []
  enforcement_mechanism : Str := []
  granted_by : Str := []
deriving DecidableEq

/-- `GraphNode` from `graph_traversal.py`. -/
structure GraphNode where
  node_id : Str
  node_type : Str
  content : NodeContent
deriving DecidableEq

/-- `GraphEdge` from `graph_traversal.py`. -/
structure GraphEdge where
  from_node : Str
  to_node : Str
  relation_type : Str
deriving DecidableEq

/-- `GraphContext` from `graph_traversal.py`. -/
structure GraphContext where
  nodes : List GraphNode
  edges : List GraphEdge
  citations : List Str
  confidence : ℚ
  traversal_path : List Str

/-- `GraphContext.get_primary_nodes`: nodes whose id is among the first
three entries of the traversal path. -/
def GraphContext.get_primary_nodes (gc : GraphContext) : List GraphNode :=
  gc.nodes.filter (fun n => decide (n.node_id ∈ gc.traversal_path.take 3))

/-- `GraphContext.get_related_nodes`: nodes that are not primary. -/
def GraphContext.get_related_nodes (gc : GraphContext) : List GraphNode :=
  gc.nodes.filter
    (fun n => !((gc.get_primary_nodes.map GraphNode.node_id).contains n.node_id))

/-- The act name of the currently supported legal instrument. -/
def cpa2019 : Str := "Consumer Protection Act, 2019".data

/-- `ConfidenceScorer._calculate_temporal_validity`: 0.5 when no nodes were
retrieved; otherwise 1.0 when some retrieved `section` node's `act` field
contains the supported act name, else 0.8. -/
def calculate_temporal_validity (gc : GraphContext) : ℚ :=
  if gc.nodes = [] then 0.5
  else if gc.nodes.any
      (fun n => n.node_type == "section".data && strContains n.content.act cpa2019)
    then 1.0 else 0.8

/-! ### Query parser (`query_engine/query_parser.py`) -/

/-- The four intent categories of `IntentType`. -/
inductive IntentType where
  | definition_lookup
  | section_retrieval
  | rights_query
  | scenario_analysis
deriving DecidableEq

/-- `QueryIntent` from `query_parser.py`. -/
structure QueryIntent where
  intent_type : IntentType
  entities : List Str
  section_numbers : List Str
  legal_terms : List Str
  confidence : ℚ
  original_query : Str
  temporal_context : Option Str := none

/-- The ordered pattern catalog `QueryParser.intent_patterns`; the regex
sources are carried verbatim, their matching behaviour is an oracle. -/
def intent_patterns : List (IntentType × List String) :=
  [ (.definition_lookup,
      [ r"\b(?:what\s+is|define|definition\s+of|meaning\s+of|explain)\b.*?\b(?:consumer|trader|defect|deficiency|unfair\s+trade|advertisement)\b",
        r"\b(?:consumer|trader|defect|deficiency|unfair\s+trade|advertisement)\b.*?\b(?:means?|definition|defined\s+as)\b",
        r"\b(?:term|word)\b.*?\b(?:consumer|trader|defect|deficiency|unfair\s+trade|advertisement)\b" ]),
    (.section_retrieval,
      [ r"\bsection\s+\d+\b",
        r"\bs\.\s*\d+\b",
        r"\bsec\.\s*\d+\b",
        r"\b(?:show|tell|find|get)\b.*?\bsection\b",
        r"\b(?:chapter|part)\s+\d+\b" ]),
    (.rights_query,
      [ r"\b(?:rights?|entitle[dm]?|protection)\b.*?\b(?:consumer|buyer|customer)\b",
        r"\b(?:consumer|buyer|customer)\b.*?\b(?:rights?|entitle[dm]?|protection)\b",
        r"\b(?:what\s+can|how\s+can)\b.*?\b(?:consumer|buyer|customer)\b.*?\b(?:do|claim|get)\b",
        r"\b(?:remedies|redressal|compensation)\b" ]),
    (.scenario_analysis,
      [ r"\b(?:if|suppose|what\s+happens|scenario|case|situation)\b",
        r"\b(?:can\s+i|should\s+i|may\s+i)\b.*?\b(?:file|complain|sue|claim)\b",
        r"\b(?:defective|faulty|damaged)\b.*?\b(?:product|goods|service)\b",
        r"\b(?:unfair|misleading|false)\b.*?\b(?:advertisement|practice|contract)\b" ]) ]

/-- The per-category body of `_classify_intent`'s scoring loop: count how
many of the category's patterns match (`re.search`, supplied as the oracle
`reSearch`); a category with no match yields no score, one with matches
yields its match ratio (score normalized by the number of patterns). -/
def category_score (reSearch : String → Str → Bool) (query : Str)
    (it_pats : IntentType × List String) : Option (IntentType × ℚ) :=
  let nMatched := (it_pats.2.filter (fun p => reSearch p query)).length
  if nMatched > 0 then
    some (it_pats.1, (nMatched : ℚ) / (it_pats.2.length : ℚ))
  else none

/-- `QueryParser._classify_intent`: score every category; if none matched,
default to `scenario_analysis` with confidence 0.3; otherwise pick the
first category with the highest ratio (Python `max` on insertion order)
and cap the confidence at 1.0. -/
def classify_intent (reSearch : String → Str → Bool) (query : Str) :
    IntentType × ℚ :=
  let intent_scores := intent_patterns.filterMap (category_score reSearch query)
  match intent_scores with
  | [] => (.scenario_analysis, 0.3)
  | s :: rest =>
      let best := rest.foldl (fun acc x => if acc.2 < x.2 then x else acc) s
      (best.1, min best.2 1)

/-- Python `str.lower` on one character. -/
def lowerChar (c : Char) : Char :=
  if 'A' ≤ c ∧ c ≤ 'Z' then Char.ofNat (c.toNat + 32) else c

/-- Python `str.lower`. -/
def toLowerStr (s : Str) : Str := s.map lowerChar

/-- Python `str.strip` (drop leading and trailing whitespace). -/
def stripStr (s : Str) : Str :=
  ((s.dropWhile Char.isWhitespace).reverse.dropWhile Char.isWhitespace).reverse

/-- The fixed vocabulary `QueryParser.legal_terms`. -/
def legal_terms : List Str :=
  [ "consumer".data, "trader".data, "manufacturer".data,
    "service provider".data, "complainant".data, "defect".data,
    "deficiency".data, "unfair trade practice".data,
    "restrictive trade practice".data, "misleading advertisement".data,
    "false advertisement".data, "consumer rights".data,
    "product liability".data, "compensation".data, "redressal".data,
    "complaint".data, "district commission".data, "state commission".data,
    "national commission".data, "central authority".data,
    "consumer protection".data, "goods".data, "services".data,
    "warranty".data, "guarantee".data, "endorsement".data,
    "e-commerce".data, "direct selling".data ]

/-- The three variations `[term, term with '_' for spaces, term without
spaces]` built in `QueryParser._init_legal_terms`. -/
def term_variations (t : Str) : List Str :=
  [t, t.map (fun c => if c = ' ' then '_' else c), t.filter (fun c => c ≠ ' ')]

/-- Oracles for the regex primitives used by `QueryParser.parse_query`:
`quoted`/`capitalized` are the two `re.findall` calls of
`_extract_entities`, `sectionFound` is `re.findall` for one pattern of
`section_patterns`, `wordFound v q` is `re.search(r'\b'+re.escape(v)+r'\b', q)`
from `_extract_legal_terms`, and `temporal` is `_extract_temporal_context`. -/
structure ParseOracles where
  reSearch : String → Str → Bool
  quoted : Str → List Str
  capitalized : Str → List Str
  sectionFound : String → Str → List Str
  wordFound : Str → Str → Bool
  temporal : Str → Option Str

/-- The patterns of `QueryParser.section_patterns`. -/
def section_patterns : List String :=
  [ r"\bsection\s+(\d+(?:\.\d+)*)\b",
    r"\bs\.\s*(\d+(?:\.\d+)*)\b",
    r"\bsec\.\s*(\d+(?:\.\d+)*)\b",
    r"\b(\d+)\s*(?:of|under)\s+(?:cpa|consumer\s+protection\s+act)\b" ]

/-- `QueryParser._extract_entities` (quoted substrings plus capitalized
phrases; `list(set(...))` is modelled as deduplication). -/
def extract_entities (o : ParseOracles) (q : Str) : List Str :=
  (o.quoted q ++ o.capitalized q).dedup

/-- `QueryParser._extract_section_numbers`. -/
def extract_section_numbers (o : ParseOracles) (q : Str) : List Str :=
  (section_patterns.flatMap (fun p => o.sectionFound p q)).dedup

/-- `QueryParser._extract_legal_terms`: a fixed term is reported when one
of its three variations matches as a whole word. -/
def extract_legal_terms (o : ParseOracles) (q : Str) : List Str :=
  (legal_terms.filter
    (fun t => (term_variations t).any (fun v => o.wordFound v q))).dedup

/-- `QueryParser.parse_query`: lowercase and strip the query, extract the
entities, classify the intent, and assemble a `QueryIntent`.  The function
is total: no input can make it fail. -/
def parse_query (o : ParseOracles) (query : Str) : QueryIntent :=
  let query_lower := stripStr (toLowerStr query)
  let entities := extract_entities o query_lower
  let section_numbers := extract_section_numbers o query_lower
  let legal_terms_found := extract_legal_terms o query_lower
  let ic := classify_intent o.reSearch query_lower
  { intent_type := ic.1
    entities := entities
    section_numbers := section_numbers
    legal_terms := legal_terms_found
    confidence := ic.2
    original_query := query
    temporal_context := o.temporal query_lower }

/-! ### Knowledge-graph load step (`GraphTraversal._load_knowledge_graph`,
`GraphTraversal._create_indices`) -/

/-- A record of `edges/contains.data.json` (`{parent, child}`). -/
structure ContainsEdge where
  parent : Str
  child : Str
deriving DecidableEq

/-- A record of `edges/references.data.json` (`{from, to, reference_type}`;
`from` is a Lean keyword, so the fields are `from_id`/`to_id`). -/
structure ReferenceEdge where
  from_id : Str
  to_id : Str
  reference_type : Str
deriving DecidableEq

/-- A record of `edges/defines.data.json` (`{source, target}`). -/
structure DefinesEdge where
  source : Str
  target : Str
deriving DecidableEq

/-- The raw data loaded by `_load_knowledge_graph` from the JSON node and
edge files (an absent file yields `[]`). -/
structure RawGraph where
  sections : List NodeContent
  clauses : List NodeContent
  definitions : List NodeContent
  rights : List NodeContent
  contains_edges : List ContainsEdge
  references_edges : List ReferenceEdge
  defines_edges : List DefinesEdge

/-- Python dict insertion with overwrite (`d[k] = v`): an existing key
keeps its position and gets the new value, a new key goes to the end. -/
def dictPut (m : List (Str × α)) (k : Str) (v : α) : List (Str × α) :=
  if m.any (fun p => p.1 == k) then
    m.map (fun p => if p.1 == k then (k, v) else p)
  else m ++ [(k, v)]

/-- Append `v` to the list stored under `k`, creating the key if needed
(the `if key not in d: d[key] = []; d[key].append(x)` idiom). -/
def dictPush (m : List (Str × List α)) (k : Str) (v : α) : List (Str × List α) :=
  if m.any (fun p => p.1 == k) then
    m.map (fun p => if p.1 == k then (p.1, p.2 ++ [v]) else p)
  else m ++ [(k, [v])]

/-- Python `d.get(k)` / `k in d` lookup on a modelled dict. -/
def dictGet? (m : List (Str × α)) (k : Str) : Option α :=
  (m.find? (fun p => p.1 == k)).map Prod.snd

/-- A dict comprehension `{key(x): x for x in l}`. -/
def dictOfList (key : α → Str) (l : List α) : List (Str × α) :=
  l.foldl (fun m x => dictPut m (key x) x) []

/-- Grouping a list into a dict of lists keyed by `key`. -/
def dictGroup (key : α → Str) (l : List α) : List (Str × List α) :=
  l.foldl (fun m x => dictPush m (key x) x) []

/-- The indices built by `GraphTraversal._create_indices`. -/
structure Indices where
  sections : List NodeContent
  clauses : List NodeContent
  definitions : List NodeContent
  rights : List NodeContent
  section_by_id : List (Str × NodeContent)
  section_by_number : List (Str × NodeContent)
  clause_by_id : List (Str × NodeContent)
  clauses_by_section : List (Str × List NodeContent)
  definition_by_term : List (Str × NodeContent)
  right_by_id : List (Str × NodeContent)
  rights_by_type : List (Str × List NodeContent)
  edges_from : List (Str × List (Str × Str))

/-- The flattened `all_edges` list of `_create_indices`:
`(from, to, relation)` triples from the three edge files. -/
def all_edges (g : RawGraph) : List (Str × Str × Str) :=
  g.contains_edges.map (fun e => (e.parent, e.child, "contains".data)) ++
    g.references_edges.map (fun e => (e.from_id, e.to_id, e.reference_type)) ++
    g.defines_edges.map (fun e => (e.source, e.target, "defines".data))

/-- `GraphTraversal._create_indices`, translated clause by clause.  Note
that no clause inspects whether an edge endpoint resolves to a loaded node:
every edge is recorded in `edges_from` unconditionally. -/
def create_indices (g : RawGraph) : Indices :=
  { sections := g.sections
    clauses := g.clauses
    definitions := g.definitions
    rights := g.rights
    section_by_id := dictOfList NodeContent.section_id g.sections
    section_by_number := dictOfList NodeContent.section_number g.sections
    clause_by_id := dictOfList NodeContent.clause_id g.clauses
    clauses_by_section := dictGroup NodeContent.parent_section g.clauses
    definition_by_term := dictOfList (fun d => toLowerStr d.term) g.definitions
    right_by_id := dictOfList NodeContent.right_id g.rights
    rights_by_type := dictGroup NodeContent.right_type g.rights
    edges_from :=
      (all_edges g).foldl (fun m e => dictPush m e.1 (e.2.1, e.2.2)) [] }

/-- `GraphTraversal._load_knowledge_graph`: the `try` block wraps file
loading and `_create_indices` and re-raises any exception as a
`RuntimeError`.  For well-formed records (the structures above) neither
step can raise, so the load step always succeeds with the built indices;
there is no referential-integrity check anywhere on this path. -/
def load_knowledge_graph (g : RawGraph) : Except Str Indices :=
  Except.ok (create_indices g)

/-- The node ids a loaded graph provides (spec §3: Section, Clause,
Definition and Right nodes; definition nodes get ids `DEF_<term>` as in
`_handle_definition_lookup` / `_get_node_by_id`). -/
def loaded_node_ids (g : RawGraph) : List Str :=
  g.sections.map NodeContent.section_id ++
    g.clauses.map NodeContent.clause_id ++
    g.rights.map NodeContent.right_id ++
    g.definitions.map (fun d => "DEF_".data ++ toLowerStr d.term)

/-- Spec-side notion: the graph has an edge one of whose endpoint ids does
not resolve to any loaded node. -/
def has_dangling_edge (g : RawGraph) : Bool :=
  (all_edges g).any (fun e =>
    !((loaded_node_ids g).contains e.1) || !((loaded_node_ids g).contains e.2.1))

/-! ### Multi-hop traversal (`GraphTraversal.traverse_relationships`) -/

/-- `GraphTraversal._get_node_by_id`: look the id up in the section, clause
and right indices, then try to reconstruct a definition id `DEF_<term>`. -/
def get_node_by_id (idx : Indices) (node_id : Str) : Option GraphNode :=
  match dictGet? idx.section_by_id node_id with
  | some s => some ⟨node_id, "section".data, s⟩
  | none =>
    match dictGet? idx.clause_by_id node_id with
    | some c => some ⟨node_id, "clause".data, c⟩
    | none =>
      match dictGet? idx.right_by_id node_id with
      | some r => some ⟨node_id, "right".data, r⟩
      | none =>
        match idx.definition_by_term.find?
            (fun td => ("DEF_".data ++ td.1) == node_id) with
        | some td => some ⟨"DEF_".data ++ td.1, "definition".data, td.2⟩
        | none => none

/-- All node ids that can ever sit in the BFS queue: the start node and
every edge target recorded in `edges_from`. -/
def traversalUniv (idx : Indices) (start : Str) : List Str :=
  start :: idx.edges_from.flatMap (fun p => p.2.map Prod.fst)

/-- Reachability from `start` following only edges recorded in
`edges_from` whose relation type is in the allow-list, in exactly `d`
hops.  This is the specification-side notion for the claim about
`traverse_relationships`. -/
inductive Reach (idx : Indices) (relation_types : List Str) (start : Str) :
    Str → Nat → Prop where
  | start_node : Reach idx relation_types start start 0
  | step {u d l v r} : Reach idx relation_types start u d →
      dictGet? idx.edges_from u = some l → (v, r) ∈ l →
      r ∈ relation_types → Reach idx relation_types start v (d + 1)

/-- A successful dict lookup names an entry of the dict. -/
theorem dictGet?_eq_some_mem {α : Type _} {m : List (Str × α)} {k : Str}
    {v : α} (h : dictGet? m k = some v) : (k, v) ∈ m := by
  unfold dictGet? at h
  cases hopt : m.find? (fun p => p.1 == k) with
  | none => rw [hopt] at h; simp at h
  | some p =>
      rw [hopt] at h
      have hp : p.1 = k := by
        have := List.find?_some hopt
        simpa using this
      have hm := List.mem_of_find?_eq_some hopt
      have hv : p.2 = v := by simpa using h
      have : p = (k, v) := by
        cases p
        simp only at hp hv
        rw [hp, hv]
      rw [← this]
      exact hm

/-- Every edge target reached through `edges_from` is in the traversal
universe. -/
theorem mem_traversalUniv_of_edge {idx : Indices} {start u : Str}
    {l : List (Str × Str)} (hl : dictGet? idx.edges_from u = some l)
    {tr : Str × Str} (htr : tr ∈ l) : tr.1 ∈ traversalUniv idx start := by
  have hmem := dictGet?_eq_some_mem hl
  exact List.mem_cons_of_mem _
    (List.mem_flatMap.mpr ⟨(u, l), hmem, List.mem_map_of_mem _ htr⟩)

/-- Marking a yet-unvisited member of `l` visited strictly shrinks the
unvisited part of `l`. -/
theorem length_filter_lt {c : Str} {v : List Str} (l : List Str) (hcl : c ∈ l)
    (hcv : c ∉ v) :
    (l.filter (fun x => !decide (x ∈ c :: v))).length <
      (l.filter (fun x => !decide (x ∈ v))).length := by
  induction l with
  | nil => cases hcl
  | cons a t ih =>
    by_cases hac : a = c
    · subst hac
      have hsub : List.Sublist (t.filter (fun x => !decide (x ∈ a :: v)))
          (t.filter (fun x => !decide (x ∈ v))) := by
        apply List.monotone_filter_right
        intro x hx
        simp only [Bool.not_eq_true', decide_eq_false_iff_not, List.mem_cons,
          not_or] at hx ⊢
        exact hx.2
      rw [List.filter_cons, List.filter_cons, if_neg (by simp),
        if_pos (by simp [hcv])]
      exact Nat.lt_succ_of_le hsub.length_le
    · have hct : c ∈ t := by
        cases List.mem_cons.mp hcl with
        | inl h => exact absurd h.symm hac
        | inr h => exact h
      have hsame : (!decide (a ∈ c :: v)) = (!decide (a ∈ v)) := by
        by_cases hav : a ∈ v
        · simp [hav]
        · simp [List.mem_cons, hav, hac]
      rw [List.filter_cons, List.filter_cons, hsame]
      by_cases hav : (!decide (a ∈ v)) = true
      · rw [if_pos hav, if_pos hav]
        simp only [List.length_cons]
        exact Nat.succ_lt_succ (ih hct)
      · rw [if_neg hav, if_neg hav]
        exact ih hct

/-- The body of the `while queue:` loop of `traverse_relationships`.
`hq` records that every queued id is in `traversalUniv`, which makes the
visited-set argument for termination go through: every processed step
either shrinks the queue or marks one more universe node visited. -/
def traverse_loop (idx : Indices) (start : Str) (relation_types : List Str)
    (max_depth : Nat) (queue : List (Str × Nat)) (visited : List Str)
    (hq : ∀ x ∈ queue, x.1 ∈ traversalUniv idx start) : List GraphNode :=
  match queue with
  | [] => []
  | (current, depth) :: rest =>
    if h : current ∈ visited ∨ max_depth < depth then
      traverse_loop idx start relation_types max_depth rest visited
        (fun x hx => hq x (List.mem_cons_of_mem _ hx))
    else
      let found :=
        match get_node_by_id idx current with
        | some n => [n]
        | none => []
      match hl : dictGet? idx.edges_from current with
      | some l =>
          let nexts := (l.filter (fun tr =>
            decide (tr.2 ∈ relation_types) &&
              !decide (tr.1 ∈ current :: visited))).map
              (fun tr => (tr.1, depth + 1))
          found ++ traverse_loop idx start relation_types max_depth
            (rest ++ nexts) (current :: visited)
            (by
              intro x hx
              rcases List.mem_append.mp hx with hx | hx
              · exact hq x (List.mem_cons_of_mem _ hx)
              · rcases List.mem_map.mp hx with ⟨tr, htr, hxeq⟩
                rw [← hxeq]
                exact mem_traversalUniv_of_edge hl (List.mem_of_mem_filter htr))
      | none =>
          found ++ traverse_loop idx start relation_types max_depth
            rest (current :: visited)
            (fun x hx => hq x (List.mem_cons_of_mem _ hx))
  termination_by
    (((traversalUniv idx start).filter (fun u => !decide (u ∈ visited))).length,
      queue.length)
  decreasing_by
  · exact Prod.Lex.right _ (Nat.lt_succ_self _)
  · refine Prod.Lex.left _ _ ?_
    exact length_filter_lt _ (hq (current, depth) (List.mem_cons_self _ _)) (fun hcv => h (Or.inl hcv))
  · refine Prod.Lex.left _ _ ?_
    exact length_filter_lt _ (hq (current, depth) (List.mem_cons_self _ _)) (fun hcv => h (Or.inl hcv))

/-- `GraphTraversal.traverse_relationships`: breadth-first traversal from
`start_node`, following only edges whose relation type is allow-listed,
bounded by `max_depth` (the Python default is 3), with a visited set. -/
def traverse_relationships (idx : Indices) (start_node : Str)
    (relation_types : List Str) (max_depth : Nat) : List GraphNode :=
  traverse_loop idx start_node relation_types max_depth [(start_node, 0)] []
    (by
      intro x hx
      rcases List.mem_cons.mp hx with hx | hx
      · rw [hx]; exact List.mem_cons_self _ _
      · cases hx)

/-- A node returned by `_get_node_by_id` carries the id it was looked up
under. -/
theorem get_node_by_id_eq_some_id {idx : Indices} {i : Str} {n : GraphNode}
    (h : get_node_by_id idx i = some n) : n.node_id = i := by
  unfold get_node_by_id at h
  split at h
  · injection h with h; subst h; rfl
  · split at h
    · injection h with h; subst h; rfl
    · split at h
      · injection h with h; subst h; rfl
      · split at h
        · rename_i td hfind
          injection h with h
          subst h
          have := List.find?_some hfind
          simpa using this
        · cases h

/-- Every node `traverse_loop` returns was unvisited when the loop was
entered. -/
theorem traverse_loop_not_visited (idx : Indices) (start : Str)
    (relation_types : List Str) (max_depth : Nat) :
    ∀ (queue : List (Str × Nat)) (visited : List Str)
      (hq : ∀ x ∈ queue, x.1 ∈ traversalUniv idx start),
      ∀ n ∈ traverse_loop idx start relation_types max_depth queue visited hq,
        n.node_id ∉ visited := by
  apply traverse_loop.induct idx start relation_types max_depth
    (motive := fun queue visited hq =>
      ∀ n ∈ traverse_loop idx start relation_types max_depth queue visited hq,
        n.node_id ∉ visited)
  · intro visited hq _ n hn
    rw [traverse_loop] at hn
    cases hn
  · intro visited current depth rest hq h _ ih n hn
    rw [traverse_loop] at hn
    rw [dif_pos h] at hn
    exact ih n hn
  · intro visited current depth rest hq h l hl nexts _ ih n hn
    rw [traverse_loop] at hn
    rw [dif_neg h] at hn
    split at hn
    · rename_i m hgn
      split at hn
      · rename_i l' hl'
        rw [hl] at hl'
        cases Option.some.inj hl'
        rcases List.mem_append.mp hn with hn | hn
        · rcases List.mem_singleton.mp hn with rfl
          rw [get_node_by_id_eq_some_id hgn]
          exact fun hcv => h (Or.inl hcv)
        · intro hv
          exact ih n hn (List.mem_cons_of_mem _ hv)
      · rename_i hl'
        rw [hl] at hl'
        cases hl'
    · rename_i hgn
      split at hn
      · rename_i l' hl'
        rw [hl] at hl'
        cases Option.some.inj hl'
        rcases List.mem_append.mp hn with hn | hn
        · cases hn
        · intro hv
          exact ih n hn (List.mem_cons_of_mem _ hv)
      · rename_i hl'
        rw [hl] at hl'
        cases hl'
  · intro visited current depth rest hq h hl _ ih n hn
    rw [traverse_loop] at hn
    rw [dif_neg h] at hn
    split at hn
    · rename_i m hgn
      split at hn
      · rename_i l' hl'
        rw [hl] at hl'
        cases hl'
      · rcases List.mem_append.mp hn with hn | hn
        · rcases List.mem_singleton.mp hn with rfl
          rw [get_node_by_id_eq_some_id hgn]
          exact fun hcv => h (Or.inl hcv)
        · intro hv
          exact ih n hn (List.mem_cons_of_mem _ hv)
    · rename_i hgn
      split at hn
      · rename_i l' hl'
        rw [hl] at hl'
        cases hl'
      · rcases List.mem_append.mp hn with hn | hn
        · cases hn
        · intro hv
          exact ih n hn (List.mem_cons_of_mem _ hv)

/-- The node ids `traverse_loop` returns are pairwise distinct. -/
theorem traverse_loop_nodup (idx : Indices) (start : Str)
    (relation_types : List Str) (max_depth : Nat) :
    ∀ (queue : List (Str × Nat)) (visited : List Str)
      (hq : ∀ x ∈ queue, x.1 ∈ traversalUniv idx start),
      ((traverse_loop idx start relation_types max_depth queue visited
        hq).map GraphNode.node_id).Nodup := by
  apply traverse_loop.induct idx start relation_types max_depth
    (motive := fun queue visited hq =>
      ((traverse_loop idx start relation_types max_depth queue visited
        hq).map GraphNode.node_id).Nodup)
  · intro visited hq _
    rw [traverse_loop]
    simp
  · intro visited current depth rest hq h _ ih
    rw [traverse_loop]
    rw [dif_pos h]
    exact ih
  · intro visited current depth rest hq h l hl nexts _ ih
    rw [traverse_loop]
    rw [dif_neg h]
    split
    · rename_i m hgn
      split
      · rename_i l' hl'
        rw [hl] at hl'
        cases Option.some.inj hl'
        simp only [List.singleton_append, List.map_cons, List.nodup_cons]
        constructor
        · intro hmem
          rcases List.mem_map.mp hmem with ⟨n, hn, hid⟩
          have hnv := traverse_loop_not_visited idx start relation_types
            max_depth _ _ _ n hn
          rw [hid, get_node_by_id_eq_some_id hgn] at hnv
          exact hnv (List.mem_cons_self _ _)
        · exact ih
      · rename_i hl'
        rw [hl] at hl'
        cases hl'
    · rename_i hgn
      split
      · rename_i l' hl'
        rw [hl] at hl'
        cases Option.some.inj hl'
        rw [List.nil_append]
        exact ih
      · rename_i hl'
        rw [hl] at hl'
        cases hl'
  · intro visited current depth rest hq h hl _ ih
    rw [traverse_loop]
    rw [dif_neg h]
    split
    · rename_i m hgn
      split
      · rename_i l' hl'
        rw [hl] at hl'
        cases hl'
      · simp only [List.singleton_append, List.map_cons, List.nodup_cons]
        constructor
        · intro hmem
          rcases List.mem_map.mp hmem with ⟨n, hn, hid⟩
          have hnv := traverse_loop_not_visited idx start relation_types
            max_depth _ _ _ n hn
          rw [hid, get_node_by_id_eq_some_id hgn] at hnv
          exact hnv (List.mem_cons_self _ _)
        · exact ih
    · rename_i hgn
      split
      · rename_i l' hl'
        rw [hl] at hl'
        cases hl'
      · simpa using ih

/-- Every node `traverse_loop` returns is reachable within `max_depth`,
provided every queued node is reachable at its queued depth. -/
theorem traverse_loop_reach (idx : Indices) (start : Str)
    (relation_types : List Str) (max_depth : Nat) :
    ∀ (queue : List (Str × Nat)) (visited : List Str)
      (hq : ∀ x ∈ queue, x.1 ∈ traversalUniv idx start),
      (∀ p ∈ queue, Reach idx relation_types start p.1 p.2) →
      ∀ n ∈ traverse_loop idx start relation_types max_depth queue visited hq,
        ∃ d, d ≤ max_depth ∧ Reach idx relation_types start n.node_id d := by
  apply traverse_loop.induct idx start relation_types max_depth
    (motive := fun queue visited hq =>
      (∀ p ∈ queue, Reach idx relation_types start p.1 p.2) →
      ∀ n ∈ traverse_loop idx start relation_types max_depth queue visited hq,
        ∃ d, d ≤ max_depth ∧ Reach idx relation_types start n.node_id d)
  · intro visited hq _ _ n hn
    rw [traverse_loop] at hn
    cases hn
  · intro visited current depth rest hq h _ ih hr n hn
    rw [traverse_loop] at hn
    rw [dif_pos h] at hn
    exact ih (fun p hp => hr p (List.mem_cons_of_mem _ hp)) n hn
  · intro visited current depth rest hq h l hl nexts _ ih hr n hn
    have hdepth : depth ≤ max_depth :=
      Nat.le_of_not_lt (fun hlt => h (Or.inr hlt))
    have hrc : Reach idx relation_types start current depth :=
      hr (current, depth) (List.mem_cons_self _ _)
    have hr' : ∀ p ∈ rest ++ nexts, Reach idx relation_types start p.1 p.2 := by
      intro p hp
      rcases List.mem_append.mp hp with hp | hp
      · exact hr p (List.mem_cons_of_mem _ hp)
      · rcases List.mem_map.mp hp with ⟨tr, htr, hpe⟩
        have hcond := List.of_mem_filter htr
        have hrel : tr.2 ∈ relation_types := by
          have := (Bool.and_eq_true _ _).mp hcond
          exact of_decide_eq_true this.1
        rw [← hpe]
        exact Reach.step hrc hl (List.mem_of_mem_filter htr) hrel
    rw [traverse_loop] at hn
    rw [dif_neg h] at hn
    split at hn
    · rename_i m hgn
      split at hn
      · rename_i l' hl'
        rw [hl] at hl'
        cases Option.some.inj hl'
        rcases List.mem_append.mp hn with hn | hn
        · rcases List.mem_singleton.mp hn with rfl
          rw [get_node_by_id_eq_some_id hgn]
          exact ⟨depth, hdepth, hrc⟩
        · exact ih hr' n hn
      · rename_i hl'
        rw [hl] at hl'
        cases hl'
    · rename_i hgn
      split at hn
      · rename_i l' hl'
        rw [hl] at hl'
        cases Option.some.inj hl'
        rcases List.mem_append.mp hn with hn | hn
        · cases hn
        · exact ih hr' n hn
      · rename_i hl'
        rw [hl] at hl'
        cases hl'
  · intro visited current depth rest hq h hl _ ih hr n hn
    have hdepth : depth ≤ max_depth :=
      Nat.le_of_not_lt (fun hlt => h (Or.inr hlt))
    have hrc : Reach idx relation_types start current depth :=
      hr (current, depth) (List.mem_cons_self _ _)
    have hr' : ∀ p ∈ rest, Reach idx relation_types start p.1 p.2 :=
      fun p hp => hr p (List.mem_cons_of_mem _ hp)
    rw [traverse_loop] at hn
    rw [dif_neg h] at hn
    split at hn
    · rename_i m hgn
      split at hn
      · rename_i l' hl'
        rw [hl] at hl'
        cases hl'
      · rcases List.mem_append.mp hn with hn | hn
        · rcases List.mem_singleton.mp hn with rfl
          rw [get_node_by_id_eq_some_id hgn]
          exact ⟨depth, hdepth, hrc⟩
        · exact ih hr' n hn
    · rename_i hgn
      split at hn
      · rename_i l' hl'
        rw [hl] at hl'
        cases hl'
      · rcases List.mem_append.mp hn with hn | hn
        · cases hn
        · exact ih hr' n hn

/-- C10: for every finite loaded graph (graphs with cyclic edges included),
every start node id, every allow-list of relation types and every
`max_depth`, `traverse_relationships` terminates (it is a total function,
defined by well-founded recursion on the visited set and the queue),
visits each node at most once (the returned node ids are pairwise
distinct), and returns only nodes reachable from the start node within
`max_depth` hops following only edges whose relation type is in the
allow-list. -/
theorem traverse_relationships_spec (idx : Indices) (start_node : Str)
    (relation_types : List Str) (max_depth : Nat) :
    ((traverse_relationships idx start_node relation_types max_depth).map
      GraphNode.node_id).Nodup ∧
    ∀ n ∈ traverse_relationships idx start_node relation_types max_depth,
      ∃ d, d ≤ max_depth ∧ Reach idx relation_types start_node n.node_id d := by
  constructor
  · exact traverse_loop_nodup idx start_node relation_types max_depth _ _ _
  · intro n hn
    refine traverse_loop_reach idx start_node relation_types max_depth
      _ _ _ ?_ n hn
    intro p hp
    rcases List.mem_cons.mp hp with hp | hp
    · rw [hp]
      exact Reach.start_node
    · cases hp

/-- `find?` on a key-preserving value map commutes with the map. -/
theorem find?_map_key {α β : Type _} (m : List (Str × α))
    (f : Str × α → Str × β) (hf : ∀ q, (f q).1 = q.1) (a : Str) :
    (m.map f).find? (fun q => q.1 == a) =
      (m.find? (fun q => q.1 == a)).map f := by
  induction m with
  | nil => simp
  | cons p t ih =>
    simp only [List.map_cons, List.find?_cons]
    rw [hf p]
    cases hpa : (p.1 == a) with
    | true => simp
    | false => simpa using ih

/-- `find?` skips a block in which nothing satisfies the predicate. -/
theorem find?_append_of_none {α : Type _} {l₁ : List α} {p : α → Bool}
    (h : l₁.find? p = none) (l₂ : List α) :
    (l₁ ++ l₂).find? p = l₂.find? p := by
  induction l₁ with
  | nil => simp
  | cons x t ih =>
    by_cases hx : p x = true
    · rw [List.find?_cons_of_pos _ hx] at h
      cases h
    · have hx' : ¬ p x := by simpa using hx
      rw [List.find?_cons_of_neg _ hx'] at h
      rw [List.cons_append, List.find?_cons_of_neg _ hx']
      exact ih h

/-- `find?` keeps a hit of the first block in an append. -/
theorem find?_append_of_some {α : Type _} {l₁ : List α} {p : α → Bool}
    {a : α} (h : l₁.find? p = some a) (l₂ : List α) :
    (l₁ ++ l₂).find? p = some a := by
  induction l₁ with
  | nil => cases h
  | cons x t ih =>
    by_cases hx : p x = true
    · rw [List.find?_cons_of_pos _ hx] at h
      rw [List.cons_append, List.find?_cons_of_pos _ hx]
      exact h
    · have hx' : ¬ p x := by simpa using hx
      rw [List.find?_cons_of_neg _ hx'] at h
      rw [List.cons_append, List.find?_cons_of_neg _ hx']
      exact ih h

/-- The bucket-extending map of `dictPush` keeps every key. -/
theorem push_map_fst {α : Type _} (k : Str) (v : α) (q : Str × List α) :
    (if q.1 == k then (q.1, q.2 ++ [v]) else q).1 = q.1 := by
  split <;> rfl

/-- Looking up the pushed key finds the old bucket with the value
appended. -/
theorem dictGet?_dictPush_self {α : Type _} (m : List (Str × List α))
    (k : Str) (v : α) :
    dictGet? (dictPush m k v) k = some ((dictGet? m k).getD [] ++ [v]) := by
  by_cases hany : (m.any fun q => q.1 == k) = true
  · rcases hfind : m.find? (fun q => q.1 == k) with _ | p
    · exfalso
      rcases List.any_eq_true.mp hany with ⟨q, hq, hqk⟩
      exact List.find?_eq_none.mp hfind q hq hqk
    · have hp1 : (p.1 == k) = true := by
        have := List.find?_some hfind
        simpa using this
      unfold dictPush dictGet?
      rw [if_pos hany, find?_map_key m _ (push_map_fst k v) k, hfind]
      have hp1' : p.1 = k := by simpa using hp1
      simp [hp1, hp1']
  · have hnone : m.find? (fun q => q.1 == k) = none := by
      rw [List.find?_eq_none]
      intro q hq hqk
      exact hany (List.any_eq_true.mpr ⟨q, hq, hqk⟩)
    unfold dictPush dictGet?
    rw [if_neg hany, find?_append_of_none hnone]
    simp [List.find?_cons, hnone]

/-- Pushing under another key leaves a lookup unchanged. -/
theorem dictGet?_dictPush_ne {α : Type _} (m : List (Str × List α))
    {k f : Str} (v : α) (hfk : f ≠ k) :
    dictGet? (dictPush m k v) f = dictGet? m f := by
  by_cases hany : (m.any fun q => q.1 == k) = true
  · unfold dictPush dictGet?
    rw [if_pos hany, find?_map_key m _ (push_map_fst k v) f]
    rcases hfind : m.find? (fun q => q.1 == f) with _ | p
    · rw [hfind]
      simp
    · rw [hfind]
      have hp1 : p.1 = f := by
        have := List.find?_some hfind
        simpa using this
      have hp1' : p.1 ≠ k := by
        rw [hp1]
        exact hfk
      simp [hp1']
  · unfold dictPush dictGet?
    rw [if_neg hany]
    rcases hfind : m.find? (fun q => q.1 == f) with _ | p
    · rw [find?_append_of_none hfind]
      have : ((k, ([v] : List α)).1 == f) = false :=
        beq_eq_false_iff_ne.mpr (Ne.symm hfk)
      simp [List.find?_cons, this, hfind]
    · rw [find?_append_of_some hfind, hfind]

/-- Every edge of the flattened edge list ends up in its source node's
bucket of the `edges_from` index built by the fold in `_create_indices`. -/
theorem mem_edges_from_fold :
    ∀ (es : List (Str × Str × Str)) (m : List (Str × List (Str × Str)))
      (f : Str) (x : Str × Str),
      ((∃ l, dictGet? m f = some l ∧ x ∈ l) ∨ (f, x.1, x.2) ∈ es) →
      ∃ l, dictGet? (es.foldl (fun m e => dictPush m e.1 (e.2.1, e.2.2)) m) f
        = some l ∧ x ∈ l := by
  intro es
  induction es with
  | nil =>
    intro m f x h
    rcases h with h | h
    · exact h
    · cases h
  | cons e t ih =>
    intro m f x h
    simp only [List.foldl_cons]
    apply ih
    rcases h with ⟨l, hget, hmem⟩ | h
    · left
      by_cases hef : f = e.1
      · subst hef
        refine ⟨(dictGet? m e.1).getD [] ++ [(e.2.1, e.2.2)],
          dictGet?_dictPush_self m e.1 _, ?_⟩
        rw [hget]
        exact List.mem_append_left _ hmem
      · exact ⟨l, by rw [dictGet?_dictPush_ne m _ hef]; exact hget, hmem⟩
    · rcases List.mem_cons.mp h with h | h
      · left
        have he1 : e.1 = f := by rw [← h]
        refine ⟨(dictGet? m e.1).getD [] ++ [(e.2.1, e.2.2)], ?_, ?_⟩
        · rw [← he1]
          exact dictGet?_dictPush_self m e.1 _
        · apply List.mem_append_right
          have he2 : e.2.1 = x.1 := by rw [← h]
          have he3 : e.2.2 = x.2 := by rw [← h]
          rw [he2, he3]
          simp
      · right
        exact h

/-- C1 (amended): the load step of `GraphTraversal` performs no
referential-integrity check at all.  For every raw graph — graphs with
dangling edges included — `_load_knowledge_graph` succeeds (the only
exceptions its `try` re-raises come from unreadable files or malformed
records, never from a dangling endpoint), and every edge of the input,
dangling or not, is kept in the `edges_from` index: it is neither rejected
by an error nor dropped. -/
theorem load_knowledge_graph_no_integrity_check (g : RawGraph) :
    load_knowledge_graph g = Except.ok (create_indices g) ∧
    ∀ e ∈ all_edges g,
      ∃ l, dictGet? (create_indices g).edges_from e.1 = some l ∧
        (e.2.1, e.2.2) ∈ l := by
  constructor
  · rfl
  · intro e he
    apply mem_edges_from_fold (all_edges g) [] e.1 (e.2.1, e.2.2)
    right
    simpa using he

/-- A one-section graph with a `contains` edge whose child id resolves to
no loaded node. -/
def danglingGraph : RawGraph :=
  { sections := [{ section_id := "S1".data, section_number := "1".data }]
    clauses := []
    definitions := []
    rights := []
    contains_edges := [⟨"S1".data, "MISSING".data⟩]
    references_edges := []
    defines_edges := [] }

/-- C1 counterexample: `danglingGraph` has a dangling edge, yet the load
step completes without a load-time error and silently keeps the dangling
edge in the `edges_from` index — the claimed load failure does not
happen. -/
theorem load_knowledge_graph_dangling_loads :
    has_dangling_edge danglingGraph = true ∧
    load_knowledge_graph danglingGraph =
      Except.ok (create_indices danglingGraph) ∧
    dictGet? (create_indices danglingGraph).edges_from "S1".data =
      some [("MISSING".data, "contains".data)] := by
  refine ⟨by decide, rfl, by decide⟩

/-- A retrieval context holding one section of the supported act and one
section of another act. -/
def mixedActContext : GraphContext :=
  { nodes := [⟨"S1".data, "section".data, { act := cpa2019 }⟩,
      ⟨"S2".data, "section".data,
        { act := "Sale of Goods Act, 1930".data }⟩]
    edges := []
    citations := []
    confidence := 0
    traversal_path := [] }

/-- C6 counterexample: on `mixedActContext` not every retrieved section
belongs to the supported instrument, yet `_calculate_temporal_validity`
still returns 1.0 — the code tests `any`, not `all`, so the claimed
"1.0 exactly when all sections belong" is false at this input. -/
theorem calculate_temporal_validity_mixed :
    calculate_temporal_validity mixedActContext = 1 ∧
    ¬ (∀ n ∈ mixedActContext.nodes, n.node_type = "section".data →
        cpa2019 <:+: n.content.act) := by
  constructor
  · unfold calculate_temporal_validity
    rw [if_neg (by decide), if_pos (by decide)]
    norm_num
  · intro h
    have := h ⟨"S2".data, "section".data,
      { act := "Sale of Goods Act, 1930".data }⟩ (by decide) (by decide)
    revert this
    decide

/-- C6 (amended): `_calculate_temporal_validity` returns 0.5 when no nodes
were retrieved; on a non-empty context it returns 1.0 exactly when at
least one retrieved section node's `act` field contains the supported
instrument name (Consumer Protection Act, 2019), and the fixed penalty
0.8 otherwise. -/
theorem calculate_temporal_validity_spec (gc : GraphContext) :
    (gc.nodes = [] → calculate_temporal_validity gc = 0.5) ∧
    (gc.nodes ≠ [] →
      (calculate_temporal_validity gc = 1 ↔
        ∃ n ∈ gc.nodes, n.node_type = "section".data ∧
          cpa2019 <:+: n.content.act) ∧
      (¬ (∃ n ∈ gc.nodes, n.node_type = "section".data ∧
          cpa2019 <:+: n.content.act) →
        calculate_temporal_validity gc = 0.8)) := by
  have hbridge :
      (gc.nodes.any (fun n =>
        n.node_type == "section".data && strContains n.content.act cpa2019))
        = true ↔
      ∃ n ∈ gc.nodes, n.node_type = "section".data ∧
        cpa2019 <:+: n.content.act := by
    rw [List.any_eq_true]
    constructor
    · rintro ⟨n, hn, hcond⟩
      rcases (Bool.and_eq_true _ _).mp hcond with ⟨h1, h2⟩
      exact ⟨n, hn, by simpa using h1, of_decide_eq_true h2⟩
    · rintro ⟨n, hn, h1, h2⟩
      refine ⟨n, hn, ?_⟩
      rw [Bool.and_eq_true]
      exact ⟨by simpa using h1, decide_eq_true h2⟩
  constructor
  · intro hnil
    unfold calculate_temporal_validity
    rw [if_pos hnil]
  · intro hne
    constructor
    · unfold calculate_temporal_validity
      rw [if_neg hne]
      constructor
      · intro hval
        by_contra hno
        rw [← hbridge] at hno
        rw [if_neg (by simpa using hno)] at hval
        norm_num at hval
      · intro hex
        rw [if_pos (hbridge.mpr hex)]
        norm_num
    · intro hno
      unfold calculate_temporal_validity
      rw [if_neg hne, if_neg (by rw [← hbridge] at hno; simpa using hno)]

/-- C7: for a weight vector with a non-negative `citation_density` weight
and positive total weight — as all three audience vectors of
`ConfidenceScorer.audience_weights` are — increasing only the
`citation_density` component never decreases
`ConfidenceComponents.get_weighted_average`. -/
theorem get_weighted_average_mono_citation_density
    (w : AudienceWeights) (c : ConfidenceComponents) (x y : ℚ)
    (hw : 0 ≤ w.citation_density) (ht : 0 < w.total) (hxy : x ≤ y) :
    ConfidenceComponents.get_weighted_average
        { c with citation_density := x } w ≤
      ConfidenceComponents.get_weighted_average
        { c with citation_density := y } w := by
  unfold ConfidenceComponents.get_weighted_average
  rw [if_neg (ne_of_gt ht), if_neg (ne_of_gt ht)]
  gcongr

/-- A fixed assignment of the six component scores used by the
monotonicity witness. -/
def witnessComponents : ConfidenceComponents :=
  ⟨0.5, 0.5, 0.5, 0.5, 0.5, 0.5⟩

/-- C7 witness: the monotonicity theorem applied to the citizen audience
weight vector with `citation_density` raised from 0.2 to 0.9. -/
theorem get_weighted_average_mono_witness :
    ConfidenceComponents.get_weighted_average
        { witnessComponents with citation_density := 0.2 } citizenWeights ≤
      ConfidenceComponents.get_weighted_average
        { witnessComponents with citation_density := 0.9 } citizenWeights :=
  get_weighted_average_mono_citation_density citizenWeights
    witnessComponents 0.2 0.9 (by norm_num [citizenWeights])
    (by norm_num [citizenWeights, AudienceWeights.total]) (by norm_num)

/-- The match ratio of one category: patterns matched over patterns
defined. -/
def match_ratio (reSearch : String → Str → Bool) (q : Str)
    (pats : List String) : ℚ :=
  ((pats.filter (fun p => reSearch p q)).length : ℚ) / (pats.length : ℚ)

/-- A filter is non-empty exactly when some element satisfies the
predicate. -/
theorem filter_length_pos_iff {α : Type _} (l : List α) (p : α → Bool) :
    0 < (l.filter p).length ↔ ∃ x ∈ l, p x = true := by
  constructor
  · intro h
    rcases List.exists_mem_of_length_pos h with ⟨a, ha⟩
    rcases List.mem_filter.mp ha with ⟨h1, h2⟩
    exact ⟨a, h1, h2⟩
  · rintro ⟨x, hx, hpx⟩
    exact List.length_pos_of_mem (List.mem_filter.mpr ⟨hx, hpx⟩)

/-- The `max`-by-score fold of `_classify_intent` returns an element of
its input (or the seed) whose score dominates the seed and all inputs. -/
theorem foldl_best_spec (t : List (IntentType × ℚ)) (s : IntentType × ℚ) :
    (t.foldl (fun acc x => if acc.2 < x.2 then x else acc) s = s ∨
      t.foldl (fun acc x => if acc.2 < x.2 then x else acc) s ∈ t) ∧
    s.2 ≤ (t.foldl (fun acc x => if acc.2 < x.2 then x else acc) s).2 ∧
    ∀ x ∈ t, x.2 ≤ (t.foldl (fun acc x => if acc.2 < x.2 then x else acc) s).2 := by
  induction t generalizing s with
  | nil =>
    refine ⟨Or.inl rfl, le_refl _, ?_⟩
    intro x hx
    cases hx
  | cons a t ih =>
    simp only [List.foldl_cons]
    rcases ih (if s.2 < a.2 then a else s) with ⟨hmem, hle, hall⟩
    have hs' : s.2 ≤ (if s.2 < a.2 then a else s).2 := by
      split
      · rename_i hlt
        exact le_of_lt hlt
      · exact le_refl _
    have ha' : a.2 ≤ (if s.2 < a.2 then a else s).2 := by
      split
      · exact le_refl _
      · rename_i hnlt
        exact le_of_not_lt hnlt
    refine ⟨?_, le_trans hs' hle, ?_⟩
    · rcases hmem with h | h
      · rw [h]
        split
        · right
          exact List.mem_cons_self _ _
        · left
          rfl
      · right
        exact List.mem_cons_of_mem _ h
    · intro x hx
      rcases List.mem_cons.mp hx with hxa | hxt
      · rw [hxa]
        exact le_trans ha' hle
      · exact hall x hxt

/-- A category with a matching pattern scores its match ratio. -/
theorem category_score_pos (reSearch : String → Str → Bool) (q : Str)
    (itp : IntentType × List String)
    (h : ∃ p ∈ itp.2, reSearch p q = true) :
    category_score reSearch q itp =
      some (itp.1, match_ratio reSearch q itp.2) := by
  unfold category_score
  rw [if_pos ((filter_length_pos_iff _ _).mpr h)]
  rfl

/-- A category with no matching pattern scores nothing. -/
theorem category_score_none (reSearch : String → Str → Bool) (q : Str)
    (itp : IntentType × List String)
    (h : ¬ ∃ p ∈ itp.2, reSearch p q = true) :
    category_score reSearch q itp = none := by
  unfold category_score
  rw [if_neg]
  intro hpos
  exact h ((filter_length_pos_iff _ _).mp hpos)

/-- What a produced category score must be. -/
theorem category_score_some_inv {reSearch : String → Str → Bool} {q : Str}
    {itp : IntentType × List String} {v : IntentType × ℚ}
    (h : category_score reSearch q itp = some v) :
    v = (itp.1, match_ratio reSearch q itp.2) ∧
      ∃ p ∈ itp.2, reSearch p q = true := by
  by_cases hex : ∃ p ∈ itp.2, reSearch p q = true
  · rw [category_score_pos reSearch q itp hex] at h
    exact ⟨(Option.some.inj h).symm, hex⟩
  · rw [category_score_none reSearch q itp hex] at h
    cases h

/-- Match ratios are never negative. -/
theorem match_ratio_nonneg (reSearch : String → Str → Bool) (q : Str)
    (pats : List String) : 0 ≤ match_ratio reSearch q pats := by
  unfold match_ratio
  positivity

/-- C9 behaviour of `_classify_intent`: with no pattern match anywhere the
result is the `scenario_analysis` catch-all with confidence exactly 0.3;
otherwise the winning category is one with at least one match whose
match ratio dominates every category's ratio, and the confidence is that
winning ratio capped at 1.0. -/
theorem classify_intent_spec (reSearch : String → Str → Bool) (q : Str) :
    ((∀ itp ∈ intent_patterns, ¬ ∃ p ∈ itp.2, reSearch p q = true) →
      classify_intent reSearch q = (.scenario_analysis, 0.3)) ∧
    ((∃ itp ∈ intent_patterns, ∃ p ∈ itp.2, reSearch p q = true) →
      ∃ itp ∈ intent_patterns,
        (classify_intent reSearch q).1 = itp.1 ∧
        (∃ p ∈ itp.2, reSearch p q = true) ∧
        (classify_intent reSearch q).2 =
          min (match_ratio reSearch q itp.2) 1 ∧
        ∀ itp' ∈ intent_patterns,
          match_ratio reSearch q itp'.2 ≤ match_ratio reSearch q itp.2) := by
  constructor
  · intro hno
    have hnil : intent_patterns.filterMap (category_score reSearch q) = [] := by
      rw [List.filterMap_eq_nil_iff]
      intro itp hitp
      exact category_score_none reSearch q itp (hno itp hitp)
    simp only [classify_intent]
    rw [hnil]
  · rintro ⟨itw, hitw, hpw⟩
    rcases hsc : intent_patterns.filterMap (category_score reSearch q)
      with _ | ⟨s, rest⟩
    · exfalso
      have : (itw.1, match_ratio reSearch q itw.2) ∈
          intent_patterns.filterMap (category_score reSearch q) :=
        List.mem_filterMap.mpr ⟨itw, hitw, category_score_pos reSearch q itw hpw⟩
      rw [hsc] at this
      cases this
    · have hcl : classify_intent reSearch q =
          ((rest.foldl (fun acc x => if acc.2 < x.2 then x else acc) s).1,
            min (rest.foldl (fun acc x => if acc.2 < x.2 then x else acc) s).2 1) := by
        simp only [classify_intent]
        rw [hsc]
      rcases foldl_best_spec rest s with ⟨hmem, hle, hall⟩
      have hbestsc : (rest.foldl (fun acc x => if acc.2 < x.2 then x else acc) s) ∈
          intent_patterns.filterMap (category_score reSearch q) := by
        rw [hsc]
        rcases hmem with h | h
        · rw [h]
          exact List.mem_cons_self _ _
        · exact List.mem_cons_of_mem _ h
      rcases List.mem_filterMap.mp hbestsc with ⟨itb, hitb, hfb⟩
      rcases category_score_some_inv hfb with ⟨hbv, hbex⟩
      refine ⟨itb, hitb, ?_, hbex, ?_, ?_⟩
      · rw [hcl]
        simp only
        rw [hbv]
      · rw [hcl]
        simp only
        rw [hbv]
      · intro itp' hitp'
        have hbr : match_ratio reSearch q itb.2 =
            (rest.foldl (fun acc x => if acc.2 < x.2 then x else acc) s).2 := by
          rw [hbv]
        by_cases hpos' : ∃ p ∈ itp'.2, reSearch p q = true
        · have hmem' : (itp'.1, match_ratio reSearch q itp'.2) ∈
              intent_patterns.filterMap (category_score reSearch q) :=
            List.mem_filterMap.mpr
              ⟨itp', hitp', category_score_pos reSearch q itp' hpos'⟩
          rw [hsc] at hmem'
          rw [hbr]
          rcases List.mem_cons.mp hmem' with h | h
          · have hs2 : match_ratio reSearch q itp'.2 = s.2 := by rw [← h]
            rw [hs2]
            exact hle
          · exact hall _ h
        · have hz : (itp'.2.filter (fun p => reSearch p q)).length = 0 := by
            by_contra hnz
            exact hpos' ((filter_length_pos_iff _ _).mp (Nat.pos_of_ne_zero hnz))
          have hzero : match_ratio reSearch q itp'.2 = 0 := by
            unfold match_ratio
            rw [hz]
            simp
          rw [hzero]
          exact match_ratio_nonneg reSearch q itb.2

/-- C9: `parse_query` is a total function — every input string, empty and
nonsense text included, yields a well-formed `QueryIntent` and no failure
path exists — whose intent and confidence come from `_classify_intent` on
the lowercased, stripped query: when none of the four categories' patterns
match, the intent defaults to `scenario_analysis` with confidence exactly
0.3; otherwise the winning category has a maximal match ratio (patterns
matched over patterns defined) and the confidence is that ratio capped
at 1.0. -/
theorem parse_query_spec (o : ParseOracles) (query : Str) :
    (parse_query o query).intent_type =
      (classify_intent o.reSearch (stripStr (toLowerStr query))).1 ∧
    (parse_query o query).confidence =
      (classify_intent o.reSearch (stripStr (toLowerStr query))).2 ∧
    ((∀ itp ∈ intent_patterns,
        ¬ ∃ p ∈ itp.2, o.reSearch p (stripStr (toLowerStr query)) = true) →
      (parse_query o query).intent_type = .scenario_analysis ∧
      (parse_query o query).confidence = 0.3) ∧
    ((∃ itp ∈ intent_patterns,
        ∃ p ∈ itp.2, o.reSearch p (stripStr (toLowerStr query)) = true) →
      ∃ itp ∈ intent_patterns,
        (parse_query o query).intent_type = itp.1 ∧
        (∃ p ∈ itp.2, o.reSearch p (stripStr (toLowerStr query)) = true) ∧
        (parse_query o query).confidence =
          min (match_ratio o.reSearch (stripStr (toLowerStr query)) itp.2) 1 ∧
        ∀ itp' ∈ intent_patterns,
          match_ratio o.reSearch (stripStr (toLowerStr query)) itp'.2 ≤
            match_ratio o.reSearch (stripStr (toLowerStr query)) itp.2) := by
  have hit : (parse_query o query).intent_type =
      (classify_intent o.reSearch (stripStr (toLowerStr query))).1 := rfl
  have hcf : (parse_query o query).confidence =
      (classify_intent o.reSearch (stripStr (toLowerStr query))).2 := rfl
  rcases classify_intent_spec o.reSearch (stripStr (toLowerStr query))
    with ⟨hnone, hsome⟩
  refine ⟨hit, hcf, ?_, ?_⟩
  · intro hno
    rw [hit, hcf, hnone hno]
    exact ⟨rfl, rfl⟩
  · intro hex
    rcases hsome hex with ⟨itp, hitp, h1, h2, h3, h4⟩
    exact ⟨itp, hitp, by rw [hit]; exact h1, h2, by rw [hcf]; exact h3, h4⟩

/-! ### Context builder text model (`query_engine/context_builder.py`)

The builder manufactures one flat Python string.  To reason about the
citation tokens `[Citation-k]` inside it, the model builds the text as a
list of atoms — ordinary text chunks and whole citation tokens — and
renders it to a flat `Str` by concatenation, exactly mirroring the string
concatenations of the source. -/

/-- One decimal digit character. -/
def digitChar (d : Nat) : Char :=
  match d with
  | 0 => '0'
  | 1 => '1'
  | 2 => '2'
  | 3 => '3'
  | 4 => '4'
  | 5 => '5'
  | 6 => '6'
  | 7 => '7'
  | 8 => '8'
  | _ => '9'

/-- Fuelled decimal printer (most significant digit first). -/
def natStrGo (fuel : Nat) (n : Nat) : Str :=
  match fuel with
  | 0 => []
  | fuel + 1 =>
    if n < 10 then [digitChar n]
    else natStrGo fuel (n / 10) ++ [digitChar (n % 10)]

/-- Python `str(n)` for a natural number. -/
def natStr (n : Nat) : Str := natStrGo (n + 1) n

/-- The citation key string `Citation-<k>` handed out by
`_get_next_citation_key`. -/
def citationKey (k : Nat) : Str := "Citation-".data ++ natStr k

/-- The citation token `[Citation-<k>]` as it appears in formatted text. -/
def tokenStr (k : Nat) : Str := '[' :: citationKey k ++ [']']

/-- An atom of built text: an ordinary chunk, or one whole citation
token. -/
inductive Atom where
  | chunk (s : Str)
  | tok (k : Nat)
deriving DecidableEq

/-- Built text. -/
abbrev Doc := List Atom

/-- Flatten one atom to the string it stands for. -/
def renderAtom (a : Atom) : Str :=
  match a with
  | .chunk s => s
  | .tok k => tokenStr k

/-- Flatten built text to the flat Python string. -/
def render (d : Doc) : Str := (d.map renderAtom).flatten

/-- All ordinary chunks of the document are free of `'['` (every bracket
of the rendered text belongs to a citation token). -/
def chunksBracketFree (d : Doc) : Prop :=
  ∀ s : Str, Atom.chunk s ∈ d → '[' ∉ s

/-- Python `'\n'.join` / `'==='.join` on strings. -/
def joinSep (sep : Str) : List Str → Str
  | [] => []
  | [p] => p
  | p :: ps => p ++ sep ++ joinSep sep ps

/-- The same join at the document level. -/
def joinDoc (sep : Str) : List Doc → Doc
  | [] => []
  | [d] => d
  | d :: ds => d ++ [Atom.chunk sep] ++ joinDoc sep ds

/-- Fuelled body of Python `str.split(sep)` for a non-empty separator. -/
def splitOnGo (sep : Str) : Nat → Str → Str → List Str
  | 0, s, acc => [acc.reverse ++ s]
  | fuel + 1, s, acc =>
    match s with
    | [] => [acc.reverse]
    | c :: rest =>
        if sep <+: (c :: rest) then
          acc.reverse :: splitOnGo sep fuel ((c :: rest).drop sep.length) []
        else splitOnGo sep fuel rest (c :: acc)

/-- Python `s.split(sep)` (the builder only splits on `"==="`). -/
def splitOnStr (sep s : Str) : List Str :=
  if sep = [] then [s] else splitOnGo sep s.length s []

/-- Python `s.replace(needle, repl)`, via the `split`/`join` identity
`s.replace(n, r) == r.join(s.split(n))`. -/
def replaceStr (needle repl s : Str) : Str :=
  joinSep repl (splitOnStr needle s)

/-- The section separator of `_truncate_context`. -/
def sectionSep : Str := "===".data

/-- The truncation marker appended by `_truncate_context`. -/
def truncMarker : Str := "\n\n[Context truncated due to length limits]".data

/-- The `for i, section in enumerate(sections)` loop of
`_truncate_context`: keep the first three split parts unconditionally,
then keep parts while they fit, and at the first part that does not fit
attach its clipped front plus the truncation marker when at least 101
characters of budget remain, then stop. -/
def truncate_go (maxLen : Nat) : List Str → Nat → Nat → List Str
  | [], _, _ => []
  | sec :: rest, i, current =>
      if i ≤ 2 then
        sec :: truncate_go maxLen rest (i + 1) (current + sec.length)
      else if current + sec.length < maxLen then
        sec :: truncate_go maxLen rest (i + 1) (current + sec.length)
      else if current + 100 < maxLen then
        [sec.take (maxLen - current - 100) ++ truncMarker]
      else []

/-- `ContextBuilder._truncate_context`. -/
def truncate_context (maxLen : Nat) (text : Str) : Str :=
  if text.length ≤ maxLen then text
  else joinSep sectionSep (truncate_go maxLen (splitOnStr sectionSep text) 0 0)

/-- Python `str.upper` on one character (ASCII, as the legal terms are). -/
def upperChar (c : Char) : Char :=
  match c with
  | 'a' => 'A'
  | 'b' => 'B'
  | 'c' => 'C'
  | 'd' => 'D'
  | 'e' => 'E'
  | 'f' => 'F'
  | 'g' => 'G'
  | 'h' => 'H'
  | 'i' => 'I'
  | 'j' => 'J'
  | 'k' => 'K'
  | 'l' => 'L'
  | 'm' => 'M'
  | 'n' => 'N'
  | 'o' => 'O'
  | 'p' => 'P'
  | 'q' => 'Q'
  | 'r' => 'R'
  | 's' => 'S'
  | 't' => 'T'
  | 'u' => 'U'
  | 'v' => 'V'
  | 'w' => 'W'
  | 'x' => 'X'
  | 'y' => 'Y'
  | 'z' => 'Z'
  | c => c

/-- Python `str.upper`. -/
def upperStr (s : Str) : Str := s.map upperChar

/-- Python `str.lower` on one ASCII letter, by cases (mirrors
`upperChar`). -/
def lowerCharM (c : Char) : Char :=
  match c with
  | 'A' => 'a'
  | 'B' => 'b'
  | 'C' => 'c'
  | 'D' => 'd'
  | 'E' => 'e'
  | 'F' => 'f'
  | 'G' => 'g'
  | 'H' => 'h'
  | 'I' => 'i'
  | 'J' => 'j'
  | 'K' => 'k'
  | 'L' => 'l'
  | 'M' => 'm'
  | 'N' => 'n'
  | 'O' => 'o'
  | 'P' => 'p'
  | 'Q' => 'q'
  | 'R' => 'r'
  | 'S' => 's'
  | 'T' => 't'
  | 'U' => 'u'
  | 'V' => 'v'
  | 'W' => 'w'
  | 'X' => 'x'
  | 'Y' => 'y'
  | 'Z' => 'z'
  | c => c

/-- Python `str.title()` (uppercase at word starts, lowercase inside
words), used on right-type names in `_build_rights_section`. -/
def titleCaseGo : Bool → Str → Str
  | _, [] => []
  | atStart, c :: rest =>
      (if atStart then upperChar c else lowerCharM c) ::
        titleCaseGo (!c.isAlpha) rest

/-- Python `str.title()`. -/
def titleCase (s : Str) : Str := titleCaseGo true s

/-- `GraphNode.get_text` from `graph_traversal.py`. -/
def GraphNode.get_text (n : GraphNode) : Str :=
  if n.node_type = "section".data then n.content.text
  else if n.node_type = "clause".data then n.content.text
  else if n.node_type = "definition".data then n.content.definition
  else if n.node_type = "right".data then n.content.description
  else []

/-- `GraphNode.get_citation` from `graph_traversal.py`. -/
def GraphNode.get_citation (n : GraphNode) : Str :=
  if n.node_type = "section".data then
    "Section ".data ++ n.content.section_number ++ ", ".data ++ n.content.act
  else if n.node_type = "clause".data then
    n.content.parent_section ++ ", Clause ".data ++ n.content.label
  else if n.node_type = "definition".data then
    "Definition of '".data ++ n.content.term ++ "' in ".data ++
      n.content.defined_in
  else if n.node_type = "right".data then
    "Right granted by ".data ++ n.content.granted_by
  else n.node_id

/-- `ContextBuilder._get_next_citation_key`: bump the counter and hand out
`Citation-<counter>`. -/
def get_next_citation_key (c : Nat) : Str × Nat := (citationKey (c + 1), c + 1)

/-- The `metadata` dict of `LLMContext` (plus the `audience` entry that
`format_for_audience` adds). -/
structure Metadata where
  intent_type : IntentType
  confidence : ℚ
  node_count : Nat
  edge_count : Nat
  audience : Option Str := none

/-- `LLMContext` from `context_builder.py`. -/
structure LLMContext where
  formatted_text : Str
  citations : List (Str × Str)
  metadata : Metadata
  primary_provisions : List Str
  related_provisions : List Str
  definitions : List Str
  hierarchical_context : List Str

/-- `ContextBuilder._format_section_node` (full and brief forms). -/
def format_section_node (n : GraphNode) (k : Nat) (brief : Bool) : Doc :=
  if brief then
    [Atom.chunk ("**Section ".data ++ n.content.section_number ++
        "**: ".data ++ n.content.title ++ " ".data),
      Atom.tok k,
      Atom.chunk ('\n' ::
        (if 200 < n.content.text.length then
          n.content.text.take 200 ++ "...".data
        else n.content.text))]
  else
    [Atom.chunk ("**Section ".data ++ n.content.section_number ++
        ": ".data ++ n.content.title ++ "** ".data),
      Atom.tok k,
      Atom.chunk ("\n\n".data ++ n.content.text)]

/-- `ContextBuilder._format_definition_node`. -/
def format_definition_node (n : GraphNode) (k : Nat) : Doc :=
  [Atom.chunk ("**Definition of '".data ++ n.content.term ++ "'** ".data),
    Atom.tok k,
    Atom.chunk ("\n\n".data ++ n.content.definition)]

/-- `ContextBuilder._format_right_node`. -/
def format_right_node (n : GraphNode) (k : Nat) : Doc :=
  [Atom.chunk "**Consumer Right** ".data,
    Atom.tok k,
    Atom.chunk ("\n\n".data ++ n.content.description ++
      (if n.content.scope ≠ [] then
        "\n\n**Scope**: ".data ++ n.content.scope
      else []) ++
      (if n.content.enforcement_mechanism ≠ [] then
        "\n\n**Enforcement**: ".data ++ n.content.enforcement_mechanism
      else []))]

/-- The loop of `_build_primary_provisions`: every node gets a fresh key
and a citation entry; only section, definition and right nodes contribute
a text part. -/
def build_primary_go (nodes : List GraphNode) (c : Nat) :
    List Doc × List (Str × Str) × Nat :=
  match nodes with
  | [] => ([], [], c)
  | n :: rest =>
      let k := c + 1
      let part : List Doc :=
        if n.node_type = "section".data then [format_section_node n k false]
        else if n.node_type = "definition".data then
          [format_definition_node n k]
        else if n.node_type = "right".data then [format_right_node n k]
        else []
      let r := build_primary_go rest k
      (part ++ r.1, (citationKey k, n.get_citation) :: r.2.1, r.2.2)

/-- `ContextBuilder._build_primary_provisions`. -/
def build_primary_provisions (nodes : List GraphNode) (c : Nat) :
    Doc × List (Str × Str) × Nat :=
  if nodes = [] then ([], [], c)
  else
    let r := build_primary_go nodes c
    (joinDoc "\n\n".data r.1, r.2.1, r.2.2)

/-- The loop of `_build_definitions_section`. -/
def build_definitions_go (defs : List GraphNode) (c : Nat) :
    List Doc × List (Str × Str) × Nat :=
  match defs with
  | [] => ([], [], c)
  | n :: rest =>
      let k := c + 1
      let line : Doc :=
        [Atom.chunk ("**".data ++ upperStr n.content.term ++ "**: ".data ++
            n.content.definition ++ " ".data),
          Atom.tok k]
      let r := build_definitions_go rest k
      (line :: r.1, (citationKey k, n.get_citation) :: r.2.1, r.2.2)

/-- `ContextBuilder._build_definitions_section`. -/
def build_definitions_section (defs : List GraphNode) (c : Nat) :
    Doc × List (Str × Str) × Nat :=
  if defs = [] then ([], [], c)
  else
    let r := build_definitions_go defs c
    (joinDoc "\n\n".data r.1, r.2.1, r.2.2)

/-- The fixed six-right catalog hard-coded in `_build_rights_section`
(title and description of each fundamental right; every one is cited as
"Section 2, Consumer Protection Act, 2019"). -/
def fundamental_rights : List (Str × Str) :=
  [ ("Right to Safety".data,
      "Protection against goods and services which are hazardous to life and property".data),
    ("Right to be Informed".data,
      "Right to be informed about the quality, quantity, potency, purity, standard and price of goods or services".data),
    ("Right to Choose".data,
      "Right to be assured of access to a variety of goods and services at competitive prices".data),
    ("Right to be Heard".data,
      "Right to be heard and to be assured that consumer interests will receive due consideration".data),
    ("Right to Seek Redressal".data,
      "Right to seek redressal against unfair trade practices or restrictive trade practices or unscrupulous exploitation of consumers".data),
    ("Right to Consumer Education".data,
      "Right to consumer education and to be informed about consumer rights and remedies".data) ]

/-- The citation string shared by the six fundamental rights. -/
def section2Citation : Str := "Section 2, Consumer Protection Act, 2019".data

/-- The `for i, right in enumerate(fundamental_rights, 1)` loop: one
numbered line and one citation entry per fundamental right. -/
def fundamental_lines (frs : List (Str × Str)) (i : Nat) (c : Nat) :
    List Doc × List (Str × Str) × Nat :=
  match frs with
  | [] => ([], [], c)
  | fr :: rest =>
      let k := c + 1
      let line : Doc :=
        [Atom.chunk (natStr i ++ ". **".data ++ fr.1 ++ "**: ".data ++
            fr.2 ++ " ".data),
          Atom.tok k]
      let r := fundamental_lines rest (i + 1) k
      (line :: r.1, (citationKey k, section2Citation) :: r.2.1, r.2.2)

/-- One bullet of the additional-rights part of `_build_rights_section`. -/
def build_right_bullets (rs : List GraphNode) (c : Nat) :
    List Doc × List (Str × Str) × Nat :=
  match rs with
  | [] => ([], [], c)
  | n :: rest =>
      let k := c + 1
      let bullet : Doc :=
        [Atom.chunk ("• ".data ++ n.content.description ++
            (if n.content.scope ≠ [] then
              " (Scope: ".data ++ n.content.scope ++ ")".data
            else []) ++ " ".data),
          Atom.tok k]
      let r := build_right_bullets rest k
      (bullet :: r.1, (citationKey k, n.get_citation) :: r.2.1, r.2.2)

/-- The per-group header of the additional-rights part. -/
def rightGroupHeader (rt : Str) : Doc :=
  if rt = "procedural_right".data then
    [Atom.chunk "**Procedural Rights:**".data]
  else if rt = "remedy_right".data then
    [Atom.chunk "**Remedy Rights:**".data]
  else
    [Atom.chunk ("**".data ++
      titleCase (rt.map (fun ch => if ch = '_' then ' ' else ch)) ++
      " Rights:**".data)]

/-- The `for right_type, type_rights in rights_by_type.items()` loop:
`consumer_right` groups are skipped entirely, every other group emits a
header, its bullets and a blank spacing line. -/
def build_rights_groups (groups : List (Str × List GraphNode)) (c : Nat) :
    List Doc × List (Str × Str) × Nat :=
  match groups with
  | [] => ([], [], c)
  | g :: rest =>
      if g.1 = "consumer_right".data then build_rights_groups rest c
      else
        let b := build_right_bullets g.2 c
        let r := build_rights_groups rest b.2.2
        (rightGroupHeader g.1 :: b.1 ++ [[]] ++ r.1, b.2.1 ++ r.2.1, r.2.2)

/-- `ContextBuilder._build_rights_section`: empty for an empty rights
list; otherwise the fixed header, the six fundamental-right lines (each
with its own fresh citation key), a blank line, and the grouped
procedurally-retrieved rights. -/
def build_rights_section (rights : List GraphNode) (c : Nat) :
    Doc × List (Str × Str) × Nat :=
  if rights = [] then ([], [], c)
  else
    let f := fundamental_lines fundamental_rights 1 c
    let groups := dictGroup (fun n => n.content.right_type) rights
    let g := build_rights_groups groups f.2.2
    (joinDoc "\n".data
      ([[Atom.chunk "**Fundamental Consumer Rights (Section 2(9) of Consumer Protection Act, 2019):**".data],
        []] ++ f.1 ++ [[]] ++ g.1),
      f.2.1 ++ g.2.1, g.2.2)

/-- The loop of `_build_related_provisions`: every related node whose id
is an edge target gets a key and a citation entry; only sections
contribute text (in brief form). -/
def build_related_go (nodes : List GraphNode) (referenced : List Str)
    (c : Nat) : List Doc × List (Str × Str) × Nat :=
  match nodes with
  | [] => ([], [], c)
  | n :: rest =>
      if n.node_id ∈ referenced then
        let k := c + 1
        let part : List Doc :=
          if n.node_type = "section".data then [format_section_node n k true]
          else []
        let r := build_related_go rest referenced k
        (part ++ r.1, (citationKey k, n.get_citation) :: r.2.1, r.2.2)
      else build_related_go rest referenced c

/-- `ContextBuilder._build_related_provisions`. -/
def build_related_provisions (nodes : List GraphNode)
    (edges : List GraphEdge) (c : Nat) : Doc × List (Str × Str) × Nat :=
  if nodes = [] then ([], [], c)
  else
    let r := build_related_go nodes (edges.map GraphEdge.to_node) c
    (joinDoc "\n\n".data r.1, r.2.1, r.2.2)

/-- One "• Section <num>: <title>" line of the hierarchical context. -/
def hier_section_line (s : GraphNode) : Doc :=
  [Atom.chunk ("• Section ".data ++ s.content.section_number ++ ": ".data ++
    s.content.title)]

/-- The chapter loop of `_build_hierarchical_context`: only chapters with
more than one section are shown, at most three sections each; no citation
keys are issued here. -/
def build_hier_groups (groups : List (Str × List GraphNode)) : List Doc :=
  match groups with
  | [] => []
  | g :: rest =>
      if 1 < g.2.length then
        ([Atom.chunk ("**".data ++ g.1 ++ ":**".data)] ::
          (g.2.take 3).map hier_section_line) ++ [[]] ++
          build_hier_groups rest
      else build_hier_groups rest

/-- `ContextBuilder._build_hierarchical_context`. -/
def build_hierarchical_context (sections : List GraphNode) : Doc :=
  if sections = [] then []
  else
    joinDoc "\n".data
      (build_hier_groups
        (dictGroup (fun s => s.content.chapter_title) sections))

/-- `ContextBuilder._extract_provision_list`. -/
def extract_provision_list (nodes : List GraphNode) : List Str :=
  nodes.filterMap (fun n =>
    if n.node_type = "section".data then
      some ("Section ".data ++ n.content.section_number)
    else if n.node_type = "clause".data then
      some (n.content.parent_section ++ ", Clause ".data ++ n.content.label)
    else none)

/-- `ContextBuilder._extract_hierarchical_list`. -/
def extract_hierarchical_list (sections : List GraphNode) : List Str :=
  ((sections.map (fun s => s.content.chapter_title)).filter
    (fun ch => ch ≠ [])).dedup

/-- `ContextBuilder.build_context`, with `maxLen` the configured
`max_context_length` (Python default 8000).  The citation counter is
reset to 0 on entry; each block is built in order, its citations merged
only when its text is non-empty (exactly as the `if <text>:` guards do);
the flat text is the newline join of the emitted blocks, truncated when
it exceeds `maxLen`. -/
def build_context (maxLen : Nat) (gc : GraphContext)
    (intent : QueryIntent) : LLMContext :=
  let primary_nodes := gc.get_primary_nodes
  let related_nodes := gc.get_related_nodes
  let sections := gc.nodes.filter (fun n => n.node_type = "section".data)
  let defNodes := gc.nodes.filter (fun n => n.node_type = "definition".data)
  let rights := gc.nodes.filter (fun n => n.node_type = "right".data)
  let p := build_primary_provisions primary_nodes 0
  let parts1 : List Doc :=
    if render p.1 ≠ [] then
      [[Atom.chunk "=== PRIMARY LEGAL PROVISIONS ===".data], p.1]
    else []
  let cits1 := if render p.1 ≠ [] then p.2.1 else []
  let d := build_definitions_section defNodes p.2.2
  let parts2 : List Doc :=
    if render d.1 ≠ [] then
      [[Atom.chunk "\n=== LEGAL DEFINITIONS ===".data], d.1]
    else []
  let cits2 := if render d.1 ≠ [] then d.2.1 else []
  let r :=
    if intent.intent_type = IntentType.rights_query ∧ rights ≠ [] then
      build_rights_section rights d.2.2
    else ([], [], d.2.2)
  let parts3 : List Doc :=
    if intent.intent_type = IntentType.rights_query ∧ rights ≠ [] ∧
        render r.1 ≠ [] then
      [[Atom.chunk "\n=== CONSUMER RIGHTS ===".data], r.1]
    else []
  let cits3 :=
    if intent.intent_type = IntentType.rights_query ∧ rights ≠ [] ∧
        render r.1 ≠ [] then r.2.1
    else []
  let rel := build_related_provisions related_nodes gc.edges r.2.2
  let parts4 : List Doc :=
    if render rel.1 ≠ [] then
      [[Atom.chunk "\n=== RELATED PROVISIONS ===".data], rel.1]
    else []
  let cits4 := if render rel.1 ≠ [] then rel.2.1 else []
  let hier := build_hierarchical_context sections
  let parts5 : List Doc :=
    if render hier ≠ [] then
      [[Atom.chunk "\n=== CONTEXTUAL INFORMATION ===".data], hier]
    else []
  let text0 := render (joinDoc "\n".data
    (parts1 ++ parts2 ++ parts3 ++ parts4 ++ parts5))
  { formatted_text :=
      if maxLen < text0.length then truncate_context maxLen text0 else text0
    citations := cits1 ++ cits2 ++ cits3 ++ cits4
    metadata :=
      { intent_type := intent.intent_type
        confidence := gc.confidence
        node_count := gc.nodes.length
        edge_count := gc.edges.length }
    primary_provisions := extract_provision_list primary_nodes
    related_provisions := extract_provision_list related_nodes
    definitions := defNodes.map (fun n => n.content.term)
    hierarchical_context := extract_hierarchical_list sections }

/-- `ContextBuilder._simplify_for_citizens`: three header replacements. -/
def simplify_for_citizens (text : Str) : Str :=
  replaceStr "=== CONSUMER RIGHTS ===".data
    "=== YOUR RIGHTS AS A CONSUMER ===".data
    (replaceStr "=== LEGAL DEFINITIONS ===".data
      "=== WHAT THESE LEGAL TERMS MEAN ===".data
      (replaceStr "=== PRIMARY LEGAL PROVISIONS ===".data
        "=== RELEVANT LAWS THAT APPLY TO YOUR SITUATION ===".data text))

/-- `ContextBuilder._enhance_for_lawyers`: append the citation summary. -/
def enhance_for_lawyers (text : Str) (cits : List (Str × Str)) : Str :=
  if cits = [] then text
  else
    text ++ "\n\n=== CITATION SUMMARY ===\n".data ++
      (cits.map (fun kc => kc.1 ++ ": ".data ++ kc.2 ++ "\n".data)).flatten

/-- `ContextBuilder._enhance_for_judges`: prepend the judicial framing. -/
def enhance_for_judges (text : Str) : Str :=
  "=== JUDICIAL CONTEXT ===\nThe following provisions are relevant for judicial consideration:\n\n".data
    ++ text

/-- `ContextBuilder.format_for_audience`: rewrite the text per audience,
keep the citation map untouched, record the audience in the metadata. -/
def format_for_audience (ctx : LLMContext) (audience : Str) : LLMContext :=
  { formatted_text :=
      if audience = "citizen".data then
        simplify_for_citizens ctx.formatted_text
      else if audience = "lawyer".data then
        enhance_for_lawyers ctx.formatted_text ctx.citations
      else if audience = "judge".data then
        enhance_for_judges ctx.formatted_text
      else ctx.formatted_text
    citations := ctx.citations
    metadata := { ctx.metadata with audience := some audience }
    primary_provisions := ctx.primary_provisions
    related_provisions := ctx.related_provisions
    definitions := ctx.definitions
    hierarchical_context := ctx.hierarchical_context }

/-! ### Character facts about citation tokens -/

/-- The decimal digit characters. -/
def digitsStr : Str := "0123456789".data

/-- `digitChar` always yields a digit character. -/
theorem digitChar_mem (d : Nat) : digitChar d ∈ digitsStr := by
  unfold digitChar
  split <;> decide

/-- Every character of a printed natural number is a digit. -/
theorem natStrGo_chars (fuel : Nat) :
    ∀ n c, c ∈ natStrGo fuel n → c ∈ digitsStr := by
  induction fuel with
  | zero =>
    intro n c hc
    cases hc
  | succ fuel ih =>
    intro n c hc
    unfold natStrGo at hc
    split at hc
    · rcases List.mem_singleton.mp hc with rfl
      exact digitChar_mem n
    · rcases List.mem_append.mp hc with hc | hc
      · exact ih _ _ hc
      · rcases List.mem_singleton.mp hc with rfl
        exact digitChar_mem _

/-- Every character of `natStr n` is a digit. -/
theorem natStr_chars {n : Nat} {c : Char} (hc : c ∈ natStr n) :
    c ∈ digitsStr := natStrGo_chars _ _ _ hc

/-- `natStr` never prints the empty string. -/
theorem natStr_ne_nil (n : Nat) : natStr n ≠ [] := by
  unfold natStr natStrGo
  split
  · simp
  · simp

/-- Digit strings contain no bracket, no newline, no equals sign. -/
theorem digit_char_cases {c : Char} (h : c ∈ digitsStr) :
    c ≠ '[' ∧ c ≠ ']' ∧ c ≠ '\n' ∧ c ≠ '=' := by
  have h' : c ∈ ['0', '1', '2', '3', '4', '5', '6', '7', '8', '9'] := h
  simp only [List.mem_cons, List.not_mem_nil, or_false] at h'
  rcases h' with rfl | rfl | rfl | rfl | rfl | rfl | rfl | rfl | rfl | rfl <;>
    refine ⟨by decide, by decide, by decide, by decide⟩

/-- The opening bracket occurs in a citation token only as its first
character. -/
theorem bracket_not_mem_tokenTail (k : Nat) :
    '[' ∉ citationKey k ++ [']'] := by
  intro hmem
  rcases List.mem_append.mp hmem with h | h
  · rcases List.mem_append.mp h with h | h
    · revert h
      decide
    · exact (digit_char_cases (natStr_chars h)).1 rfl
  · rcases List.mem_singleton.mp h with h
    cases h

/-- The closing bracket occurs in a citation token only as its last
character. -/
theorem rbracket_not_mem_tokenFront (k : Nat) :
    ']' ∉ '[' :: citationKey k := by
  intro hmem
  rcases List.mem_cons.mp hmem with h | h
  · cases h
  · rcases List.mem_append.mp h with h | h
    · revert h
      decide
    · exact (digit_char_cases (natStr_chars h)).2.1 rfl

/-- No newline inside a citation token. -/
theorem newline_not_mem_token (k : Nat) : '\n' ∉ tokenStr k := by
  intro hmem
  rcases List.mem_cons.mp hmem with h | h
  · cases h
  · rcases List.mem_append.mp h with h | h
    · rcases List.mem_append.mp h with h | h
      · revert h
        decide
      · exact (digit_char_cases (natStr_chars h)).2.2.1 rfl
    · rcases List.mem_singleton.mp h with h
      cases h

/-- No equals sign inside a citation token. -/
theorem eqsign_not_mem_token (k : Nat) : '=' ∉ tokenStr k := by
  intro hmem
  rcases List.mem_cons.mp hmem with h | h
  · cases h
  · rcases List.mem_append.mp h with h | h
    · rcases List.mem_append.mp h with h | h
      · revert h
        decide
      · exact (digit_char_cases (natStr_chars h)).2.2.2 rfl
    · rcases List.mem_singleton.mp h with h
      cases h

/-- The citation key itself holds no bracket. -/
theorem bracket_not_mem_citationKey (k : Nat) : '[' ∉ citationKey k := by
  intro hmem
  exact bracket_not_mem_tokenTail k (List.mem_append_left _ hmem)

/-- Decimal value of a digit string (proof-side inverse of `natStr`). -/
def natVal (s : Str) : Nat :=
  s.foldl (fun a c => a * 10 + (c.toNat - 48)) 0

/-- `natVal` as a fold admits a closing-digit step. -/
theorem natVal_append (xs : Str) (c : Char) :
    natVal (xs ++ [c]) = natVal xs * 10 + (c.toNat - 48) := by
  unfold natVal
  rw [List.foldl_append]
  rfl

/-- `digitChar` round-trips through the character code. -/
theorem digitChar_val {d : Nat} (hd : d < 10) :
    (digitChar d).toNat - 48 = d := by
  interval_cases d <;> decide

/-- The fuelled printer is correct below its fuel. -/
theorem natVal_natStrGo (fuel : Nat) :
    ∀ n, n < fuel → natVal (natStrGo fuel n) = n := by
  induction fuel with
  | zero =>
    intro n hn
    cases hn
  | succ fuel ih =>
    intro n hn
    unfold natStrGo
    split
    · rename_i h10
      show natVal ([] ++ [digitChar n]) = n
      rw [natVal_append]
      unfold natVal
      simpa using digitChar_val h10
    · rename_i h10
      have hdiv : n / 10 < fuel := by omega
      rw [natVal_append, ih _ hdiv, digitChar_val (Nat.mod_lt _ (by omega))]
      omega

/-- `natVal` inverts `natStr`. -/
theorem natVal_natStr (n : Nat) : natVal (natStr n) = n :=
  natVal_natStrGo (n + 1) n (Nat.lt_succ_self n)

/-- Decimal printing is injective. -/
theorem natStr_inj {a b : Nat} (h : natStr a = natStr b) : a = b := by
  have := congrArg natVal h
  rwa [natVal_natStr, natVal_natStr] at this

/-- Citation keys are injective. -/
theorem citationKey_inj {a b : Nat} (h : citationKey a = citationKey b) :
    a = b := by
  unfold citationKey at h
  exact natStr_inj (List.append_cancel_left h)

/-! ### Infix decomposition -/

/-- A character absent from a string rules out any infix containing it. -/
theorem not_infix_of_not_mem {t X : Str} {c : Char} (hc : c ∈ t)
    (hX : c ∉ X) : ¬ t <:+: X :=
  fun h => hX (h.sublist.subset hc)

/-- An infix of a concatenation lies in the left part, in the right part,
or spans the border, splitting into a nonempty suffix of the left part
followed by a nonempty prefix of the right part. -/
theorem infix_append_split {t X Y : Str} (h : t <:+: X ++ Y) :
    t <:+: X ∨ t <:+: Y ∨
      ∃ t₁ t₂, t = t₁ ++ t₂ ∧ t₁ ≠ [] ∧ t₂ ≠ [] ∧ t₁ <:+ X ∧ t₂ <+: Y := by
  obtain ⟨l, r, hlr⟩ := h
  have hassoc : l ++ (t ++ r) = X ++ Y := by
    rw [← List.append_assoc]
    exact hlr
  by_cases h1 : l.length + t.length ≤ X.length
  · left
    have key : (l ++ (t ++ r)).take X.length =
        l ++ (t ++ r.take (X.length - l.length - t.length)) := by
      rw [List.take_append_eq_append_take,
        List.take_of_length_le (by omega : l.length ≤ X.length),
        List.take_append_eq_append_take,
        List.take_of_length_le (by omega : t.length ≤ X.length - l.length)]
    have hX' : X = l ++ (t ++ r.take (X.length - l.length - t.length)) := by
      rw [← key, hassoc, List.take_left]
    exact ⟨l, r.take (X.length - l.length - t.length), by
      rw [List.append_assoc]; exact hX'.symm⟩
  · by_cases h2 : X.length ≤ l.length
    · right; left
      have key : (l ++ (t ++ r)).drop X.length =
          l.drop X.length ++ (t ++ r) := by
        rw [List.drop_append_eq_append_drop, Nat.sub_eq_zero_of_le h2,
          List.drop_zero]
      have hY' : Y = l.drop X.length ++ (t ++ r) := by
        rw [← key, hassoc, List.drop_left]
      exact ⟨l.drop X.length, r, by
        rw [List.append_assoc]; exact hY'.symm⟩
    · right; right
      push_neg at h1 h2
      have keyX : (l ++ (t ++ r)).take X.length =
          l ++ t.take (X.length - l.length) := by
        rw [List.take_append_eq_append_take,
          List.take_of_length_le (le_of_lt h2),
          List.take_append_eq_append_take,
          Nat.sub_eq_zero_of_le
            (by omega : X.length - l.length ≤ t.length),
          List.take_zero, List.append_nil]
      have hX' : X = l ++ t.take (X.length - l.length) := by
        rw [← keyX, hassoc, List.take_left]
      have keyY : (l ++ (t ++ r)).drop X.length =
          t.drop (X.length - l.length) ++ r := by
        rw [List.drop_append_eq_append_drop,
          List.drop_eq_nil_of_le (le_of_lt h2), List.nil_append,
          List.drop_append_eq_append_drop,
          Nat.sub_eq_zero_of_le
            (by omega : X.length - l.length ≤ t.length),
          List.drop_zero]
      have hY' : Y = t.drop (X.length - l.length) ++ r := by
        rw [← keyY, hassoc, List.drop_left]
      refine ⟨t.take (X.length - l.length), t.drop (X.length - l.length),
        (List.take_append_drop _ t).symm, ?_, ?_, ⟨l, hX'.symm⟩,
        ⟨r, hY'.symm⟩⟩
      · intro hnil
        have := congrArg List.length hnil
        simp only [List.length_take, List.length_nil] at this
        omega
      · intro hnil
        have := congrArg List.length hnil
        simp only [List.length_drop, List.length_nil] at this
        omega

/-- A nonempty list prefixed by `c :: t` starts with `c`. -/
theorem cons_prefix_inv {c : Char} {t u : Str} (h : c :: t <+: u) :
    ∃ u', u = c :: u' ∧ t <+: u' := by
  obtain ⟨s, hs⟩ := h
  cases u with
  | nil => cases hs
  | cons b u' =>
    rw [List.cons_append] at hs
    injection hs with h1 h2
    exact ⟨u', by rw [h1], ⟨s, h2⟩⟩

/-- Cancelling a shared front of two prefixes. -/
theorem prefix_append_cancel {α : Type _} (u : List α) {a b : List α}
    (h : u ++ a <+: u ++ b) : a <+: b := by
  obtain ⟨s, hs⟩ := h
  rw [List.append_assoc] at hs
  exact ⟨s, List.append_cancel_left hs⟩

/-! ### Tokens inside tokens -/

/-- Two `']'`-closed digit strings that prefix one another are equal. -/
theorem prefix_digits_append {a : Str} :
    ∀ {b : Str}, (∀ c ∈ a, c ∈ digitsStr) → (∀ c ∈ b, c ∈ digitsStr) →
    a ++ [']'] <+: b ++ [']'] → a = b := by
  induction a with
  | nil =>
    intro b _ hb h
    cases b with
    | nil => rfl
    | cons d b' =>
      obtain ⟨u', hu, _⟩ := cons_prefix_inv h
      rw [List.cons_append] at hu
      injection hu with h1 _
      exact absurd h1 (digit_char_cases (hb d (List.mem_cons_self _ _))).2.1
  | cons c a' ih =>
    intro b ha hb h
    cases b with
    | nil =>
      rw [List.cons_append] at h
      obtain ⟨u', hu, _⟩ := cons_prefix_inv h
      rw [List.nil_append] at hu
      injection hu with h1 _
      exact absurd h1.symm (digit_char_cases (ha c (List.mem_cons_self _ _))).2.1
    | cons d b' =>
      rw [List.cons_append] at h
      obtain ⟨u', hu, htl⟩ := cons_prefix_inv h
      rw [List.cons_append] at hu
      injection hu with h1 h2
      have := ih (fun x hx => ha x (List.mem_cons_of_mem _ hx))
        (fun x hx => hb x (List.mem_cons_of_mem _ hx)) (h2 ▸ htl)
      rw [h1, this]

/-- A citation token prefixing a citation token forces equal keys. -/
theorem token_prefix_token {k k' : Nat} (h : tokenStr k <+: tokenStr k') :
    k = k' := by
  have h2 : ('[' :: "Citation-".data) ++ (natStr k ++ [']']) <+:
      ('[' :: "Citation-".data) ++ (natStr k' ++ [']']) := by
    simpa [tokenStr, citationKey, List.append_assoc] using h
  have h3 := prefix_append_cancel _ h2
  exact natStr_inj (prefix_digits_append
    (fun c hc => natStr_chars hc) (fun c hc => natStr_chars hc) h3)

/-- A citation token occurring inside a citation token forces equal
keys. -/
theorem token_infix_token {k k' : Nat} (h : tokenStr k <:+: tokenStr k') :
    k = k' := by
  obtain ⟨l, r, hlr⟩ := h
  cases l with
  | nil =>
    rw [List.nil_append] at hlr
    exact token_prefix_token ⟨r, hlr⟩
  | cons c l' =>
    exfalso
    rw [List.cons_append] at hlr
    have hform : tokenStr k' = '[' :: (citationKey k' ++ [']']) := rfl
    rw [hform] at hlr
    injection hlr with h1 h2
    apply bracket_not_mem_tokenTail k'
    rw [← h2]
    refine List.mem_append_left _ (List.mem_append_right _ ?_)
    exact List.mem_cons_self _ _

/-- A nonempty prefix of one token that is simultaneously a suffix of
another token is that whole other token. -/
theorem token_suffix_prefix {k k' : Nat} {t₁ : Str} (h1 : t₁ ≠ [])
    (hpre : t₁ <+: tokenStr k) (hsuf : t₁ <:+ tokenStr k') :
    t₁ = tokenStr k' := by
  obtain ⟨t', rfl⟩ : ∃ t', t₁ = '[' :: t' := by
    cases t₁ with
    | nil => exact absurd rfl h1
    | cons c t' =>
      obtain ⟨u', hu, _⟩ := cons_prefix_inv hpre
      have hform : tokenStr k = '[' :: (citationKey k ++ [']']) := rfl
      rw [hform] at hu
      injection hu with hc _
      exact ⟨t', by rw [hc]⟩
  obtain ⟨u, hu⟩ := hsuf
  cases u with
  | nil =>
    rw [List.nil_append] at hu
    exact hu
  | cons d u' =>
    exfalso
    rw [List.cons_append] at hu
    have hform : tokenStr k' = '[' :: (citationKey k' ++ [']']) := rfl
    rw [hform] at hu
    injection hu with _ h2
    apply bracket_not_mem_tokenTail k'
    rw [← h2]
    exact List.mem_append_right _ (List.mem_cons_self _ _)

/-! ### Tokens inside rendered documents -/

/-- `render` distributes over document concatenation. -/
theorem render_append (d₁ d₂ : Doc) :
    render (d₁ ++ d₂) = render d₁ ++ render d₂ := by
  simp [render]

/-- `render` on a cons. -/
theorem render_cons (a : Atom) (d : Doc) :
    render (a :: d) = renderAtom a ++ render d := by
  simp [render]

/-- A nonempty prefix of a citation token starts with `'['`. -/
theorem prefix_token_head {k : Nat} {t₁ : Str} (h1 : t₁ ≠ [])
    (hpre : t₁ <+: tokenStr k) : ∃ t', t₁ = '[' :: t' := by
  cases t₁ with
  | nil => exact absurd rfl h1
  | cons c t' =>
    obtain ⟨u', hu, _⟩ := cons_prefix_inv hpre
    have hform : tokenStr k = '[' :: (citationKey k ++ [']']) := rfl
    rw [hform] at hu
    injection hu with hc _
    exact ⟨t', by rw [hc]⟩

/-- Inversion: in a document whose ordinary chunks are bracket-free, a
citation token can occur in the rendered text only by being one of the
document's token atoms. -/
theorem tok_of_infix_render {d : Doc} {k : Nat}
    (hfree : chunksBracketFree d) (h : tokenStr k <:+: render d) :
    Atom.tok k ∈ d := by
  induction d with
  | nil =>
    exact absurd h (not_infix_of_not_mem (List.mem_cons_self _ _)
      (by simp [render]))
  | cons a d' ih =>
    rw [render_cons] at h
    have hfree' : chunksBracketFree d' :=
      fun s hs => hfree s (List.mem_cons_of_mem _ hs)
    rcases infix_append_split h with h | h | h
    · cases a with
      | chunk s =>
        exact absurd h (not_infix_of_not_mem (List.mem_cons_self _ _)
          (hfree s (List.mem_cons_self _ _)))
      | tok k' =>
        rw [token_infix_token h]
        exact List.mem_cons_self _ _
    · exact List.mem_cons_of_mem _ (ih hfree' h)
    · obtain ⟨t₁, t₂, ht, h1, h2, hsuf, hpre⟩ := h
      exfalso
      have hpre₁ : t₁ <+: tokenStr k := ⟨t₂, ht.symm⟩
      cases a with
      | chunk s =>
        obtain ⟨t', rfl⟩ := prefix_token_head h1 hpre₁
        exact hfree s (List.mem_cons_self _ _)
          (hsuf.sublist.subset (List.mem_cons_self _ _))
      | tok k' =>
        have heq : t₁ = tokenStr k' := token_suffix_prefix h1 hpre₁ hsuf
        have hk : k' = k := token_prefix_token (heq ▸ hpre₁)
        have h3 : tokenStr k = t₁ ++ t₂ := ht
        rw [heq, hk] at h3
        have hlen := congrArg List.length h3
        rw [List.length_append] at hlen
        exact h2 (List.eq_nil_of_length_eq_zero (by omega))

/-! ### Tokens and separator joins -/

/-- A citation token occurring in a `sep.join` of parts occurs in one of
the parts, provided the separator is bracket-free and starts with a
character that no token contains. -/
theorem tok_infix_joinSep {c0 : Char} {sepT : Str} {sep : Str}
    (hsep : sep = c0 :: sepT) (hbr : '[' ∉ sep)
    (hc0 : ∀ k', c0 ∉ tokenStr k') {k : Nat} :
    ∀ {parts : List Str}, tokenStr k <:+: joinSep sep parts →
      ∃ p ∈ parts, tokenStr k <:+: p := by
  intro parts
  induction parts with
  | nil =>
    intro h
    exact absurd h (not_infix_of_not_mem (List.mem_cons_self _ _)
      (by simp [joinSep]))
  | cons p ps ih =>
    intro h
    cases ps with
    | nil =>
      exact ⟨p, List.mem_cons_self _ _, h⟩
    | cons q ps' =>
      have hj : joinSep sep (p :: q :: ps') =
          (p ++ sep) ++ joinSep sep (q :: ps') := by
        simp [joinSep, List.append_assoc]
      rw [hj] at h
      rcases infix_append_split h with h | h | h
      · rcases infix_append_split h with h | h | h
        · exact ⟨p, List.mem_cons_self _ _, h⟩
        · exact absurd h (not_infix_of_not_mem
            (List.mem_cons_self '[' (citationKey k ++ [']'])) hbr)
        · obtain ⟨t₁, t₂, ht, h1, h2, _, hpre⟩ := h
          exfalso
          cases t₂ with
          | nil => exact h2 rfl
          | cons d t₂' =>
            obtain ⟨u', hu, _⟩ := cons_prefix_inv hpre
            rw [hsep] at hu
            injection hu with hd _
            apply hc0 k
            rw [hd]
            exact (ht ▸ List.mem_append_right t₁ (List.mem_cons_self _ _))
      · obtain ⟨p', hp', hinf⟩ := ih h
        exact ⟨p', List.mem_cons_of_mem _ hp', hinf⟩
      · obtain ⟨t₁, t₂, ht, h1, h2, hsuf, _⟩ := h
        exfalso
        have hS : sep <:+ p ++ sep := ⟨p, rfl⟩
        have hpre₁ : t₁ <+: tokenStr k := ⟨t₂, ht.symm⟩
        rcases List.suffix_or_suffix_of_suffix hsuf hS with hss | hss
        · obtain ⟨t', rfl⟩ := prefix_token_head h1 hpre₁
          exact hbr (hss.sublist.subset (List.mem_cons_self _ _))
        · apply hc0 k
          refine hpre₁.sublist.subset (hss.sublist.subset ?_)
          rw [hsep]
          exact List.mem_cons_self _ _

/-- Unfolding equation of the fuelled splitter at zero fuel. -/
theorem splitOnGo_zero (sep s acc : Str) :
    splitOnGo sep 0 s acc = [acc.reverse ++ s] := rfl

/-- Unfolding equation of the fuelled splitter on exhausted input. -/
theorem splitOnGo_succ_nil (sep : Str) (fuel : Nat) (acc : Str) :
    splitOnGo sep (fuel + 1) [] acc = [acc.reverse] := rfl

/-- Unfolding equation of the fuelled splitter on a cons. -/
theorem splitOnGo_succ_cons (sep : Str) (fuel : Nat) (c : Char)
    (rest acc : Str) :
    splitOnGo sep (fuel + 1) (c :: rest) acc =
      if sep <+: (c :: rest) then
        acc.reverse :: splitOnGo sep fuel ((c :: rest).drop sep.length) []
      else splitOnGo sep fuel rest (c :: acc) := rfl

/-- Every part produced by the fuelled splitter is an infix of the
accumulated input. -/
theorem infix_of_mem_splitOnGo (sep : Str) :
    ∀ (fuel : Nat) (s acc p : Str), p ∈ splitOnGo sep fuel s acc →
      p <:+: acc.reverse ++ s := by
  intro fuel
  induction fuel with
  | zero =>
    intro s acc p hp
    rw [splitOnGo_zero] at hp
    rcases List.mem_singleton.mp hp with rfl
    exact List.infix_refl _
  | succ fuel ih =>
    intro s acc p hp
    cases s with
    | nil =>
      rw [splitOnGo_succ_nil] at hp
      rcases List.mem_singleton.mp hp with rfl
      exact ⟨[], [], by simp⟩
    | cons c rest =>
      rw [splitOnGo_succ_cons] at hp
      by_cases hsp : sep <+: (c :: rest)
      · rw [if_pos hsp] at hp
        rcases List.mem_cons.mp hp with rfl | hp
        · exact ⟨[], c :: rest, by simp⟩
        · have h1 := ih _ _ _ hp
          rw [List.reverse_nil, List.nil_append] at h1
          exact (h1.trans (List.drop_suffix _ _).isInfix).trans
            (List.suffix_append acc.reverse (c :: rest)).isInfix
      · rw [if_neg hsp] at hp
        have h1 := ih _ _ _ hp
        rw [List.reverse_cons, List.append_assoc, List.singleton_append]
          at h1
        exact h1

/-- Every part of `splitOnStr` is an infix of the input. -/
theorem infix_of_mem_splitOnStr {sep s p : Str} (hp : p ∈ splitOnStr sep s) :
    p <:+: s := by
  unfold splitOnStr at hp
  by_cases hsep : sep = []
  · rw [if_pos hsep] at hp
    rcases List.mem_singleton.mp hp with rfl
    exact List.infix_refl _
  · rw [if_neg hsep] at hp
    have := infix_of_mem_splitOnGo sep s.length s [] p hp
    rwa [List.reverse_nil, List.nil_append] at this

/-! ### Tokens through truncation -/

/-- Every part kept by the truncation loop is a whole input part or the
clipped front of an input part with the marker attached. -/
theorem truncate_go_parts (maxLen : Nat) :
    ∀ (l : List Str) (i current : Nat) (p : Str),
      p ∈ truncate_go maxLen l i current →
      p ∈ l ∨ ∃ sec ∈ l, ∃ m, p = sec.take m ++ truncMarker := by
  intro l
  induction l with
  | nil =>
    intro i current p hp
    cases hp
  | cons sec rest ih =>
    intro i current p hp
    unfold truncate_go at hp
    split at hp
    · rcases List.mem_cons.mp hp with rfl | hp
      · exact Or.inl (List.mem_cons_self _ _)
      · rcases ih _ _ _ hp with h | ⟨sec', hs, m, hm⟩
        · exact Or.inl (List.mem_cons_of_mem _ h)
        · exact Or.inr ⟨sec', List.mem_cons_of_mem _ hs, m, hm⟩
    · split at hp
      · rcases List.mem_cons.mp hp with rfl | hp
        · exact Or.inl (List.mem_cons_self _ _)
        · rcases ih _ _ _ hp with h | ⟨sec', hs, m, hm⟩
          · exact Or.inl (List.mem_cons_of_mem _ h)
          · exact Or.inr ⟨sec', List.mem_cons_of_mem _ hs, m, hm⟩
      · split at hp
        · rcases List.mem_singleton.mp hp with rfl
          exact Or.inr ⟨sec, List.mem_cons_self _ _, _, rfl⟩
        · cases hp

/-- The hyphen of `Citation-` sits in every token but not in the
truncation marker. -/
theorem hyphen_mem_token (k : Nat) : '-' ∈ tokenStr k :=
  List.mem_cons_of_mem _ (List.mem_append_left _
    (List.mem_append_left _ (by decide)))

/-- A citation token cannot occur inside the truncation marker. -/
theorem token_not_infix_marker (k : Nat) :
    ¬ tokenStr k <:+: truncMarker :=
  not_infix_of_not_mem (hyphen_mem_token k) (by decide)

/-- Truncation introduces no citation token: a token of the truncated
text already occurs in the original text. -/
theorem tok_infix_truncate {maxLen : Nat} {text : Str} {k : Nat}
    (h : tokenStr k <:+: truncate_context maxLen text) :
    tokenStr k <:+: text := by
  unfold truncate_context at h
  split at h
  · exact h
  · obtain ⟨p, hp, hinf⟩ := tok_infix_joinSep
      (show sectionSep = '=' :: "==".data from rfl) (by decide)
      eqsign_not_mem_token h
    rcases truncate_go_parts maxLen _ _ _ _ hp with hmem | ⟨sec, hs, m, hm⟩
    · exact hinf.trans (infix_of_mem_splitOnStr hmem)
    · rw [hm] at hinf
      rcases infix_append_split hinf with h' | h' | h'
      · exact (h'.trans (List.take_prefix m sec).isInfix).trans
          (infix_of_mem_splitOnStr hs)
      · exact absurd h' (token_not_infix_marker k)
      · obtain ⟨t₁, t₂, ht, h1, h2, _, hpre⟩ := h'
        exfalso
        cases t₂ with
        | nil => exact h2 rfl
        | cons d t₂' =>
          obtain ⟨u', hu, _⟩ := cons_prefix_inv hpre
          have hform : truncMarker =
              '\n' :: "\n[Context truncated due to length limits]".data :=
            rfl
          rw [hform] at hu
          injection hu with hd _
          apply newline_not_mem_token k
          rw [hd]
          exact (ht ▸ List.mem_append_right t₁ (List.mem_cons_self _ _))

/-! ### Tokens through audience post-processing -/

/-- `str.replace` with a bracket-free replacement that starts with a
character foreign to tokens introduces no citation token. -/
theorem tok_infix_replace {needle repl s : Str} {c0 : Char} {replT : Str}
    (hrepl : repl = c0 :: replT) (hbr : '[' ∉ repl)
    (hc0 : ∀ k', c0 ∉ tokenStr k') {k : Nat}
    (h : tokenStr k <:+: replaceStr needle repl s) :
    tokenStr k <:+: s := by
  obtain ⟨p, hp, hinf⟩ :=
    tok_infix_joinSep hrepl hbr hc0 h
  exact hinf.trans (infix_of_mem_splitOnStr hp)

/-- `_simplify_for_citizens` introduces no citation token. -/
theorem tok_infix_simplify {s : Str} {k : Nat}
    (h : tokenStr k <:+: simplify_for_citizens s) : tokenStr k <:+: s := by
  unfold simplify_for_citizens at h
  exact tok_infix_replace rfl (by decide) eqsign_not_mem_token
    (tok_infix_replace rfl (by decide) eqsign_not_mem_token
      (tok_infix_replace rfl (by decide) eqsign_not_mem_token h))

/-- `_enhance_for_lawyers` introduces no citation token, provided the
citation keys and values of the map are bracket-free. -/
theorem tok_infix_lawyers {s : Str} {cits : List (Str × Str)} {k : Nat}
    (hc : ∀ kv ∈ cits, '[' ∉ kv.1 ∧ '[' ∉ kv.2)
    (h : tokenStr k <:+: enhance_for_lawyers s cits) :
    tokenStr k <:+: s := by
  unfold enhance_for_lawyers at h
  split at h
  · exact h
  · rw [List.append_assoc] at h
    have hbrA : '[' ∉ "\n\n=== CITATION SUMMARY ===\n".data ++
        (cits.map (fun kc => kc.1 ++ ": ".data ++ kc.2 ++ "\n".data)).flatten := by
      intro hmem
      rcases List.mem_append.mp hmem with hmem | hmem
      · revert hmem
        decide
      · obtain ⟨line, hline, hmem⟩ := List.mem_flatten.mp hmem
        obtain ⟨kv, hkv, rfl⟩ := List.mem_map.mp hline
        rcases List.mem_append.mp hmem with hmem | hmem
        · rcases List.mem_append.mp hmem with hmem | hmem
          · rcases List.mem_append.mp hmem with hmem | hmem
            · exact (hc kv hkv).1 hmem
            · revert hmem
              decide
          · exact (hc kv hkv).2 hmem
        · revert hmem
          decide
    rcases infix_append_split h with h' | h' | h'
    · exact h'
    · exact absurd h'
        (not_infix_of_not_mem (List.mem_cons_self _ _) hbrA)
    · obtain ⟨t₁, t₂, ht, h1, h2, _, hpre⟩ := h'
      exfalso
      cases t₂ with
      | nil => exact h2 rfl
      | cons d t₂' =>
        obtain ⟨u', hu, _⟩ := cons_prefix_inv hpre
        have hform : "\n\n=== CITATION SUMMARY ===\n".data ++
            (cits.map (fun kc => kc.1 ++ ": ".data ++ kc.2 ++ "\n".data)).flatten =
            '\n' :: ("\n=== CITATION SUMMARY ===\n".data ++
              (cits.map (fun kc => kc.1 ++ ": ".data ++ kc.2 ++ "\n".data)).flatten) :=
          rfl
        rw [hform] at hu
        injection hu with hd _
        apply newline_not_mem_token k
        rw [hd]
        exact (ht ▸ List.mem_append_right t₁ (List.mem_cons_self _ _))

/-- `_enhance_for_judges` introduces no citation token. -/
theorem tok_infix_judges {s : Str} {k : Nat}
    (h : tokenStr k <:+: enhance_for_judges s) : tokenStr k <:+: s := by
  unfold enhance_for_judges at h
  rcases infix_append_split h with h' | h' | h'
  · exact absurd h'
      (not_infix_of_not_mem (List.mem_cons_self _ _) (by decide))
  · exact h'
  · obtain ⟨t₁, t₂, ht, h1, h2, hsuf, _⟩ := h'
    exfalso
    obtain ⟨t', rfl⟩ := prefix_token_head h1 ⟨t₂, ht.symm⟩
    have : '[' ∈ "=== JUDICIAL CONTEXT ===\nThe following provisions are relevant for judicial consideration:\n\n".data :=
      hsuf.sublist.subset (List.mem_cons_self _ _)
    revert this
    decide

/-- `format_for_audience` introduces no citation token, for every
audience, provided keys and values of the citation map are
bracket-free. -/
theorem tok_infix_format_for_audience {ctx : LLMContext} {audience : Str}
    {k : Nat} (hc : ∀ kv ∈ ctx.citations, '[' ∉ kv.1 ∧ '[' ∉ kv.2)
    (h : tokenStr k <:+: (format_for_audience ctx audience).formatted_text) :
    tokenStr k <:+: ctx.formatted_text := by
  unfold format_for_audience at h
  simp only at h
  split at h
  · exact tok_infix_simplify h
  · split at h
    · exact tok_infix_lawyers hc h
    · split at h
      · exact tok_infix_judges h
      · exact h

/-! ### Bracket-free node content -/

/-- No bracket in either half of a concatenation means none in the
whole. -/
theorem brkFree_append {a b : Str} (ha : '[' ∉ a) (hb : '[' ∉ b) :
    '[' ∉ a ++ b :=
  fun h => (List.mem_append.mp h).elim ha hb

/-- All string fields of a node that the context builder ever prints are
free of `'['` (the reserved citation-token opener). -/
def nodeBracketFree (n : GraphNode) : Prop :=
  ∀ f ∈ [n.node_id, n.content.section_number, n.content.title,
    n.content.text, n.content.term, n.content.definition,
    n.content.description, n.content.scope,
    n.content.enforcement_mechanism, n.content.right_type,
    n.content.chapter_title, n.content.act, n.content.parent_section,
    n.content.label, n.content.defined_in, n.content.granted_by],
    '[' ∉ f

/-- `str.upper` can only produce a bracket from a bracket. -/
theorem upperChar_bracket {c : Char} (h : upperChar c = '[') : c = '[' := by
  unfold upperChar at h
  split at h <;> first
    | exact absurd h (by decide)
    | exact h

/-- `str.lower` can only produce a bracket from a bracket. -/
theorem lowerCharM_bracket {c : Char} (h : lowerCharM c = '[') : c = '[' := by
  unfold lowerCharM at h
  split at h <;> first
    | exact absurd h (by decide)
    | exact h

/-- `str.upper` preserves bracket-freeness. -/
theorem brkFree_upperStr {s : Str} (hs : '[' ∉ s) : '[' ∉ upperStr s := by
  intro h
  obtain ⟨c, hc, hec⟩ := List.mem_map.mp h
  exact hs (upperChar_bracket hec ▸ hc)

/-- Every character of `str.title` output is the upper- or lower-cased
form of an input character. -/
theorem titleCaseGo_mem :
    ∀ (b : Bool) (s : Str) (c : Char), c ∈ titleCaseGo b s →
      ∃ c' ∈ s, c = upperChar c' ∨ c = lowerCharM c' := by
  intro b s
  induction s generalizing b with
  | nil =>
    intro c hc
    cases hc
  | cons d rest ih =>
    intro c hc
    rw [titleCaseGo] at hc
    rcases List.mem_cons.mp hc with rfl | hc
    · refine ⟨d, List.mem_cons_self _ _, ?_⟩
      cases hb : b <;> simp [hb]
    · obtain ⟨c', hc', he⟩ := ih _ _ hc
      exact ⟨c', List.mem_cons_of_mem _ hc', he⟩

/-- `str.title` preserves bracket-freeness. -/
theorem brkFree_titleCase {s : Str} (hs : '[' ∉ s) : '[' ∉ titleCase s := by
  intro h
  obtain ⟨c', hc', he⟩ := titleCaseGo_mem true s '[' h
  rcases he with he | he
  · exact hs (upperChar_bracket he.symm ▸ hc')
  · exact hs (lowerCharM_bracket he.symm ▸ hc')

/-- The underscore-to-space map preserves bracket-freeness. -/
theorem brkFree_underscore_map {s : Str} (hs : '[' ∉ s) :
    '[' ∉ s.map (fun ch => if ch = '_' then ' ' else ch) := by
  intro h
  obtain ⟨c, hc, hec⟩ := List.mem_map.mp h
  apply hs
  by_cases hu : c = '_'
  · rw [if_pos hu] at hec
    cases hec
  · rw [if_neg hu] at hec
    exact hec ▸ hc

/-- `get_citation` of a bracket-free node is bracket-free. -/
theorem brkFree_get_citation {n : GraphNode} (hn : nodeBracketFree n) :
    '[' ∉ n.get_citation := by
  unfold GraphNode.get_citation
  split
  · exact brkFree_append (brkFree_append (brkFree_append (by decide)
      (hn _ (by simp))) (by decide)) (hn _ (by simp))
  · split
    · exact brkFree_append (brkFree_append (hn _ (by simp)) (by decide))
        (hn _ (by simp))
    · split
      · exact brkFree_append (brkFree_append (brkFree_append (by decide)
          (hn _ (by simp))) (by decide)) (hn _ (by simp))
      · split
        · exact brkFree_append (by decide) (hn _ (by simp))
        · exact hn _ (by simp)

/-- The six fundamental rights of the hard-coded catalog are printed
bracket-free. -/
theorem brkFree_fundamental_rights :
    ∀ fr ∈ fundamental_rights, '[' ∉ fr.1 ∧ '[' ∉ fr.2 := by
  decide

/-- Chunks of `_format_section_node` output are bracket-free. -/
theorem cBF_format_section {n : GraphNode} {k : Nat} {b : Bool}
    (hn : nodeBracketFree n) :
    chunksBracketFree (format_section_node n k b) := by
  intro s hs
  unfold format_section_node at hs
  split at hs
  · rcases List.mem_cons.mp hs with he | hs
    · injection he with he
      rw [he]
      exact brkFree_append (brkFree_append (brkFree_append
        (brkFree_append (by decide) (hn _ (by simp))) (by decide))
        (hn _ (by simp))) (by decide)
    · rcases List.mem_cons.mp hs with he | hs
      · cases he
      · rcases List.mem_cons.mp hs with he | hs
        · injection he with he
          rw [he]
          intro hmem
          rcases List.mem_cons.mp hmem with he' | hmem
          · cases he'
          · split at hmem
            · rcases List.mem_append.mp hmem with hmem | hmem
              · exact hn _ (by simp) (List.take_subset _ _ hmem)
              · revert hmem
                decide
            · exact hn _ (by simp) hmem
        · cases hs
  · rcases List.mem_cons.mp hs with he | hs
    · injection he with he
      rw [he]
      exact brkFree_append (brkFree_append (brkFree_append
        (brkFree_append (by decide) (hn _ (by simp))) (by decide))
        (hn _ (by simp))) (by decide)
    · rcases List.mem_cons.mp hs with he | hs
      · cases he
      · rcases List.mem_cons.mp hs with he | hs
        · injection he with he
          rw [he]
          exact brkFree_append (by decide) (hn _ (by simp))
        · cases hs

/-- Chunks of `_format_definition_node` output are bracket-free. -/
theorem cBF_format_definition {n : GraphNode} {k : Nat}
    (hn : nodeBracketFree n) :
    chunksBracketFree (format_definition_node n k) := by
  intro s hs
  unfold format_definition_node at hs
  rcases List.mem_cons.mp hs with he | hs
  · injection he with he
    rw [he]
    exact brkFree_append (brkFree_append (by decide) (hn _ (by simp)))
      (by decide)
  · rcases List.mem_cons.mp hs with he | hs
    · cases he
    · rcases List.mem_cons.mp hs with he | hs
      · injection he with he
        rw [he]
        exact brkFree_append (by decide) (hn _ (by simp))
      · cases hs

/-- Chunks of `_format_right_node` output are bracket-free. -/
theorem cBF_format_right {n : GraphNode} {k : Nat}
    (hn : nodeBracketFree n) :
    chunksBracketFree (format_right_node n k) := by
  intro s hs
  unfold format_right_node at hs
  rcases List.mem_cons.mp hs with he | hs
  · injection he with he
    rw [he]
    decide
  · rcases List.mem_cons.mp hs with he | hs
    · cases he
    · rcases List.mem_cons.mp hs with he | hs
      · injection he with he
        rw [he]
        refine brkFree_append (brkFree_append
          (brkFree_append (by decide) (hn _ (by simp))) ?_) ?_
        · split
          · exact brkFree_append (by decide) (hn _ (by simp))
          · decide
        · split
          · exact brkFree_append (by decide) (hn _ (by simp))
          · decide
      · cases hs

/-! ### Sequential citation keys -/

/-- The keys `Citation-(c+1), …, Citation-(c+m)` issued by a run of the
counter starting at `c`. -/
def keySeq (c m : Nat) : List Str := (List.range' (c + 1) m).map citationKey

/-- No keys. -/
theorem keySeq_zero (c : Nat) : keySeq c 0 = [] := rfl

/-- One more key. -/
theorem keySeq_succ (c m : Nat) :
    keySeq c (m + 1) = citationKey (c + 1) :: keySeq (c + 1) m := by
  unfold keySeq
  rw [List.range'_succ, List.map_cons]

/-- Two consecutive runs concatenate. -/
theorem keySeq_append (m₁ : Nat) :
    ∀ (c m₂ : Nat), keySeq c m₁ ++ keySeq (c + m₁) m₂ = keySeq c (m₁ + m₂) := by
  induction m₁ with
  | zero =>
    intro c m₂
    rw [keySeq_zero, List.nil_append, Nat.add_zero, Nat.zero_add]
  | succ m₁ ih =>
    intro c m₂
    rw [keySeq_succ, List.cons_append,
      show c + (m₁ + 1) = (c + 1) + m₁ by omega, ih,
      show m₁ + 1 + m₂ = (m₁ + m₂) + 1 by omega, keySeq_succ]

/-- Membership in a key run. -/
theorem mem_keySeq {c m j : Nat} :
    citationKey j ∈ keySeq c m ↔ c < j ∧ j ≤ c + m := by
  unfold keySeq
  constructor
  · intro h
    obtain ⟨i, hi, he⟩ := List.mem_map.mp h
    have := citationKey_inj he
    rw [← this]
    have := List.mem_range'_1.mp hi
    omega
  · intro ⟨h1, h2⟩
    exact List.mem_map.mpr ⟨j, List.mem_range'_1.mpr ⟨by omega, by omega⟩, rfl⟩

/-- Keys of a run are pairwise distinct. -/
theorem keySeq_nodup (c m : Nat) : (keySeq c m).Nodup := by
  unfold keySeq
  refine List.Nodup.map (fun a b h => citationKey_inj h) ?_
  exact List.nodup_range' _ _

/-- A run is a sublist of any longer run with the same start. -/
theorem keySeq_sublist (c m M : Nat) (h : c + m ≤ M) :
    List.Sublist (keySeq c m) (keySeq 0 M) := by
  have h1 : keySeq 0 M = keySeq 0 c ++ keySeq c (M - c) := by
    rw [show keySeq c (M - c) = keySeq (0 + c) (M - c) by rw [Nat.zero_add],
      keySeq_append, show c + (M - c) = M by omega]
  have h2 : keySeq c (M - c) = keySeq c m ++ keySeq (c + m) (M - c - m) := by
    rw [keySeq_append, show m + (M - c - m) = M - c by omega]
  rw [h1, h2]
  exact (List.sublist_append_left _ _).trans (List.sublist_append_right _ _)

/-! ### Builder bookkeeping: issued keys and used tokens -/

/-- The single token of a section part carries the part's key. -/
theorem tok_mem_format_section {n : GraphNode} {j k : Nat} {b : Bool}
    (h : Atom.tok j ∈ format_section_node n k b) : j = k := by
  unfold format_section_node at h
  split at h <;> simp_all

/-- The single token of a definition part carries the part's key. -/
theorem tok_mem_format_definition {n : GraphNode} {j k : Nat}
    (h : Atom.tok j ∈ format_definition_node n k) : j = k := by
  unfold format_definition_node at h
  simp_all

/-- The single token of a right part carries the part's key. -/
theorem tok_mem_format_right {n : GraphNode} {j k : Nat}
    (h : Atom.tok j ∈ format_right_node n k) : j = k := by
  unfold format_right_node at h
  simp_all

/-- Group headers carry no token. -/
theorem tok_not_mem_rightGroupHeader {rt : Str} {j : Nat} :
    Atom.tok j ∉ rightGroupHeader rt := by
  unfold rightGroupHeader
  split
  · simp
  · split <;> simp

/-- A token of a `joinDoc` comes from one of the joined documents. -/
theorem tok_mem_joinDoc {sep : Str} {k : Nat} :
    ∀ {docs : List Doc}, Atom.tok k ∈ joinDoc sep docs →
      ∃ dd ∈ docs, Atom.tok k ∈ dd := by
  intro docs
  induction docs with
  | nil =>
    intro h
    cases h
  | cons d ds ih =>
    intro h
    cases ds with
    | nil => exact ⟨d, List.mem_cons_self _ _, h⟩
    | cons d' ds' =>
      have hj : joinDoc sep (d :: d' :: ds') =
          d ++ [Atom.chunk sep] ++ joinDoc sep (d' :: ds') := rfl
      rw [hj] at h
      rcases List.mem_append.mp h with h | h
      · rcases List.mem_append.mp h with h | h
        · exact ⟨d, List.mem_cons_self _ _, h⟩
        · rcases List.mem_singleton.mp h with h
          cases h
      · obtain ⟨dd, hdd, hmem⟩ := ih h
        exact ⟨dd, List.mem_cons_of_mem _ hdd, hmem⟩

/-- `joinDoc` of bracket-free documents with a bracket-free separator is
bracket-free. -/
theorem cBF_joinDoc {sep : Str} (hsep : '[' ∉ sep) :
    ∀ {docs : List Doc}, (∀ dd ∈ docs, chunksBracketFree dd) →
      chunksBracketFree (joinDoc sep docs) := by
  intro docs
  induction docs with
  | nil =>
    intro _ s hs
    cases hs
  | cons d ds ih =>
    intro hall s hs
    cases ds with
    | nil => exact hall d (List.mem_cons_self _ _) s hs
    | cons d' ds' =>
      have hj : joinDoc sep (d :: d' :: ds') =
          d ++ [Atom.chunk sep] ++ joinDoc sep (d' :: ds') := rfl
      rw [hj] at hs
      rcases List.mem_append.mp hs with hs | hs
      · rcases List.mem_append.mp hs with hs | hs
        · exact hall d (List.mem_cons_self _ _) s hs
        · rcases List.mem_singleton.mp hs with hs
          injection hs with hs
          rw [← hs] at hsep
          exact hsep
      · exact ih (fun dd hdd => hall dd (List.mem_cons_of_mem _ hdd)) s hs

/-- Unfolding `_build_primary_provisions`' loop on a cons. -/
theorem build_primary_go_cons (n : GraphNode) (rest : List GraphNode)
    (c : Nat) :
    build_primary_go (n :: rest) c =
      ((if n.node_type = "section".data then
          [format_section_node n (c + 1) false]
        else if n.node_type = "definition".data then
          [format_definition_node n (c + 1)]
        else if n.node_type = "right".data then
          [format_right_node n (c + 1)]
        else []) ++ (build_primary_go rest (c + 1)).1,
      (citationKey (c + 1), n.get_citation) ::
        (build_primary_go rest (c + 1)).2.1,
      (build_primary_go rest (c + 1)).2.2) := rfl

/-- The primary loop issues the keys `c+1 … c+len` in order, and every
token of its parts is one of those keys. -/
theorem build_primary_go_spec (nodes : List GraphNode) :
    ∀ c : Nat,
      ((build_primary_go nodes c).2.1.map Prod.fst =
          keySeq c nodes.length ∧
        (build_primary_go nodes c).2.2 = c + nodes.length) ∧
      ∀ dd ∈ (build_primary_go nodes c).1, ∀ j, Atom.tok j ∈ dd →
        citationKey j ∈ (build_primary_go nodes c).2.1.map Prod.fst := by
  induction nodes with
  | nil =>
    intro c
    refine ⟨⟨rfl, rfl⟩, ?_⟩
    intro dd hdd
    cases hdd
  | cons n rest ih =>
    intro c
    obtain ⟨⟨hkeys, hcnt⟩, htoks⟩ := ih (c + 1)
    rw [build_primary_go_cons]
    refine ⟨⟨?_, ?_⟩, ?_⟩
    · simp only [List.map_cons, hkeys, List.length_cons]
      rw [keySeq_succ]
    · simp only [hcnt, List.length_cons]
      omega
    · intro dd hdd j hj
      simp only [List.map_cons]
      rcases List.mem_append.mp hdd with hdd | hdd
      · split at hdd
        · rcases List.mem_singleton.mp hdd with rfl
          rw [tok_mem_format_section hj]
          exact List.mem_cons_self _ _
        · split at hdd
          · rcases List.mem_singleton.mp hdd with rfl
            rw [tok_mem_format_definition hj]
            exact List.mem_cons_self _ _
          · split at hdd
            · rcases List.mem_singleton.mp hdd with rfl
              rw [tok_mem_format_right hj]
              exact List.mem_cons_self _ _
            · cases hdd
      · exact List.mem_cons_of_mem _ (htoks dd hdd j hj)

/-- Unfolding `_build_definitions_section`'s loop on a cons. -/
theorem build_definitions_go_cons (n : GraphNode) (rest : List GraphNode)
    (c : Nat) :
    build_definitions_go (n :: rest) c =
      ([Atom.chunk ("**".data ++ upperStr n.content.term ++ "**: ".data ++
          n.content.definition ++ " ".data),
        Atom.tok (c + 1)] :: (build_definitions_go rest (c + 1)).1,
      (citationKey (c + 1), n.get_citation) ::
        (build_definitions_go rest (c + 1)).2.1,
      (build_definitions_go rest (c + 1)).2.2) := rfl

/-- The definitions loop issues the keys `c+1 … c+len` in order, and
every token of its lines is one of those keys. -/
theorem build_definitions_go_spec (defs : List GraphNode) :
    ∀ c : Nat,
      ((build_definitions_go defs c).2.1.map Prod.fst =
          keySeq c defs.length ∧
        (build_definitions_go defs c).2.2 = c + defs.length) ∧
      ∀ dd ∈ (build_definitions_go defs c).1, ∀ j, Atom.tok j ∈ dd →
        citationKey j ∈ (build_definitions_go defs c).2.1.map Prod.fst := by
  induction defs with
  | nil =>
    intro c
    refine ⟨⟨rfl, rfl⟩, ?_⟩
    intro dd hdd
    cases hdd
  | cons n rest ih =>
    intro c
    obtain ⟨⟨hkeys, hcnt⟩, htoks⟩ := ih (c + 1)
    rw [build_definitions_go_cons]
    refine ⟨⟨?_, ?_⟩, ?_⟩
    · simp only [List.map_cons, hkeys, List.length_cons]
      rw [keySeq_succ]
    · simp only [hcnt, List.length_cons]
      omega
    · intro dd hdd j hj
      simp only [List.map_cons]
      rcases List.mem_cons.mp hdd with rfl | hdd
      · rcases List.mem_cons.mp hj with he | hj
        · cases he
        · rcases List.mem_singleton.mp hj with he
          injection he with he
          rw [he]
          exact List.mem_cons_self _ _
      · exact List.mem_cons_of_mem _ (htoks dd hdd j hj)

/-- Unfolding the fundamental-rights loop on a cons. -/
theorem fundamental_lines_cons (fr : Str × Str) (rest : List (Str × Str))
    (i c : Nat) :
    fundamental_lines (fr :: rest) i c =
      ([Atom.chunk (natStr i ++ ". **".data ++ fr.1 ++ "**: ".data ++
          fr.2 ++ " ".data),
        Atom.tok (c + 1)] :: (fundamental_lines rest (i + 1) (c + 1)).1,
      (citationKey (c + 1), section2Citation) ::
        (fundamental_lines rest (i + 1) (c + 1)).2.1,
      (fundamental_lines rest (i + 1) (c + 1)).2.2) := rfl

/-- The fundamental-rights loop issues the keys `c+1 … c+len` in order,
and every token of its lines is one of those keys. -/
theorem fundamental_lines_spec (frs : List (Str × Str)) :
    ∀ i c : Nat,
      ((fundamental_lines frs i c).2.1.map Prod.fst =
          keySeq c frs.length ∧
        (fundamental_lines frs i c).2.2 = c + frs.length) ∧
      ∀ dd ∈ (fundamental_lines frs i c).1, ∀ j, Atom.tok j ∈ dd →
        citationKey j ∈ (fundamental_lines frs i c).2.1.map Prod.fst := by
  induction frs with
  | nil =>
    intro i c
    refine ⟨⟨rfl, rfl⟩, ?_⟩
    intro dd hdd
    cases hdd
  | cons fr rest ih =>
    intro i c
    obtain ⟨⟨hkeys, hcnt⟩, htoks⟩ := ih (i + 1) (c + 1)
    rw [fundamental_lines_cons]
    refine ⟨⟨?_, ?_⟩, ?_⟩
    · simp only [List.map_cons, hkeys, List.length_cons]
      rw [keySeq_succ]
    · simp only [hcnt, List.length_cons]
      omega
    · intro dd hdd j hj
      simp only [List.map_cons]
      rcases List.mem_cons.mp hdd with rfl | hdd
      · rcases List.mem_cons.mp hj with he | hj
        · cases he
        · rcases List.mem_singleton.mp hj with he
          injection he with he
          rw [he]
          exact List.mem_cons_self _ _
      · exact List.mem_cons_of_mem _ (htoks dd hdd j hj)

/-- Unfolding the additional-rights bullet loop on a cons. -/
theorem build_right_bullets_cons (n : GraphNode) (rest : List GraphNode)
    (c : Nat) :
    build_right_bullets (n :: rest) c =
      ([Atom.chunk ("• ".data ++ n.content.description ++
          (if n.content.scope ≠ [] then
            " (Scope: ".data ++ n.content.scope ++ ")".data
          else []) ++ " ".data),
        Atom.tok (c + 1)] :: (build_right_bullets rest (c + 1)).1,
      (citationKey (c + 1), n.get_citation) ::
        (build_right_bullets rest (c + 1)).2.1,
      (build_right_bullets rest (c + 1)).2.2) := rfl

/-- The bullet loop issues the keys `c+1 … c+len` in order, and every
token of its bullets is one of those keys. -/
theorem build_right_bullets_spec (rs : List GraphNode) :
    ∀ c : Nat,
      ((build_right_bullets rs c).2.1.map Prod.fst =
          keySeq c rs.length ∧
        (build_right_bullets rs c).2.2 = c + rs.length) ∧
      ∀ dd ∈ (build_right_bullets rs c).1, ∀ j, Atom.tok j ∈ dd →
        citationKey j ∈ (build_right_bullets rs c).2.1.map Prod.fst := by
  induction rs with
  | nil =>
    intro c
    refine ⟨⟨rfl, rfl⟩, ?_⟩
    intro dd hdd
    cases hdd
  | cons n rest ih =>
    intro c
    obtain ⟨⟨hkeys, hcnt⟩, htoks⟩ := ih (c + 1)
    rw [build_right_bullets_cons]
    refine ⟨⟨?_, ?_⟩, ?_⟩
    · simp only [List.map_cons, hkeys, List.length_cons]
      rw [keySeq_succ]
    · simp only [hcnt, List.length_cons]
      omega
    · intro dd hdd j hj
      simp only [List.map_cons]
      rcases List.mem_cons.mp hdd with rfl | hdd
      · rcases List.mem_cons.mp hj with he | hj
        · cases he
        · rcases List.mem_singleton.mp hj with he
          injection he with he
          rw [he]
          exact List.mem_cons_self _ _
      · exact List.mem_cons_of_mem _ (htoks dd hdd j hj)

/-- The grouped-rights loop issues a consecutive run of keys, and every
token of its parts is one of those keys. -/
theorem build_rights_groups_spec (groups : List (Str × List GraphNode)) :
    ∀ c : Nat,
      (∃ m, (build_rights_groups groups c).2.1.map Prod.fst =
          keySeq c m ∧
        (build_rights_groups groups c).2.2 = c + m) ∧
      ∀ dd ∈ (build_rights_groups groups c).1, ∀ j, Atom.tok j ∈ dd →
        citationKey j ∈ (build_rights_groups groups c).2.1.map Prod.fst := by
  induction groups with
  | nil =>
    intro c
    refine ⟨⟨0, rfl, rfl⟩, ?_⟩
    intro dd hdd
    cases hdd
  | cons g rest ih =>
    intro c
    unfold build_rights_groups
    by_cases hg : g.1 = "consumer_right".data
    · rw [if_pos hg]
      exact ih c
    · rw [if_neg hg]
      obtain ⟨⟨hbkeys, hbcnt⟩, hbtoks⟩ := build_right_bullets_spec g.2 c
      obtain ⟨⟨mr, hrkeys, hrcnt⟩, hrtoks⟩ :=
        ih (build_right_bullets g.2 c).2.2
      refine ⟨⟨g.2.length + mr, ?_, ?_⟩, ?_⟩
      · rw [List.map_append, hbkeys, hrkeys, hbcnt, ← keySeq_append]
      · rw [hrcnt, hbcnt]
        omega
      · intro dd hdd j hj
        rw [List.map_append]
        rcases List.mem_cons.mp hdd with rfl | hdd
        · exact absurd hj tok_not_mem_rightGroupHeader
        · rcases List.mem_append.mp hdd with hdd | hdd
          · rcases List.mem_append.mp hdd with hdd | hdd
            · exact List.mem_append_left _ (hbtoks dd hdd j hj)
            · rcases List.mem_singleton.mp hdd with rfl
              cases hj
          · exact List.mem_append_right _ (hrtoks dd hdd j hj)

/-- `_build_rights_section` issues a consecutive run of keys, and every
token of its document is one of those keys. -/
theorem build_rights_section_spec (rights : List GraphNode) (c : Nat) :
    (∃ m, (build_rights_section rights c).2.1.map Prod.fst =
        keySeq c m ∧
      (build_rights_section rights c).2.2 = c + m) ∧
    ∀ j, Atom.tok j ∈ (build_rights_section rights c).1 →
      citationKey j ∈ (build_rights_section rights c).2.1.map Prod.fst := by
  unfold build_rights_section
  by_cases hr : rights = []
  · rw [if_pos hr]
    refine ⟨⟨0, rfl, rfl⟩, ?_⟩
    intro j hj
    cases hj
  · rw [if_neg hr]
    obtain ⟨⟨hfkeys, hfcnt⟩, hftoks⟩ :=
      fundamental_lines_spec fundamental_rights 1 c
    obtain ⟨⟨mg, hgkeys, hgcnt⟩, hgtoks⟩ :=
      build_rights_groups_spec
        (dictGroup (fun n => n.content.right_type) rights)
        (fundamental_lines fundamental_rights 1 c).2.2
    refine ⟨⟨fundamental_rights.length + mg, ?_, ?_⟩, ?_⟩
    · rw [List.map_append, hfkeys, hgkeys, hfcnt, ← keySeq_append]
    · rw [hgcnt, hfcnt]
      omega
    · intro j hj
      rw [List.map_append]
      obtain ⟨dd, hdd, hmem⟩ := tok_mem_joinDoc hj
      simp only [List.append_assoc, List.mem_append, List.mem_cons,
        List.mem_singleton, List.not_mem_nil, or_false, false_or] at hdd
      rcases hdd with (rfl | rfl) | hdd | rfl | hdd
      · simp at hmem
      · cases hmem
      · exact List.mem_append_left _ (hftoks dd hdd j hmem)
      · cases hmem
      · exact List.mem_append_right _ (hgtoks dd hdd j hmem)

/-- The related-provisions loop issues a consecutive run of keys, and
every token of its parts is one of those keys. -/
theorem build_related_go_spec (nodes : List GraphNode)
    (referenced : List Str) :
    ∀ c : Nat,
      (∃ m, (build_related_go nodes referenced c).2.1.map Prod.fst =
          keySeq c m ∧
        (build_related_go nodes referenced c).2.2 = c + m) ∧
      ∀ dd ∈ (build_related_go nodes referenced c).1, ∀ j,
        Atom.tok j ∈ dd →
        citationKey j ∈
          (build_related_go nodes referenced c).2.1.map Prod.fst := by
  induction nodes with
  | nil =>
    intro c
    refine ⟨⟨0, rfl, rfl⟩, ?_⟩
    intro dd hdd
    cases hdd
  | cons n rest ih =>
    intro c
    unfold build_related_go
    by_cases hn : n.node_id ∈ referenced
    · rw [if_pos hn]
      obtain ⟨⟨mr, hrkeys, hrcnt⟩, hrtoks⟩ := ih (c + 1)
      refine ⟨⟨mr + 1, ?_, ?_⟩, ?_⟩
      · simp only [List.map_cons, hrkeys]
        rw [keySeq_succ]
      · rw [hrcnt]
        omega
      · intro dd hdd j hj
        simp only [List.map_cons]
        rcases List.mem_append.mp hdd with hdd | hdd
        · split at hdd
          · rcases List.mem_singleton.mp hdd with rfl
            rw [tok_mem_format_section hj]
            exact List.mem_cons_self _ _
          · cases hdd
        · exact List.mem_cons_of_mem _ (hrtoks dd hdd j hj)
    · rw [if_neg hn]
      exact ih c

/-! ### Chunk safety of the builder blocks -/

/-- Printed numbers are bracket-free. -/
theorem brkFree_natStr (n : Nat) : '[' ∉ natStr n :=
  fun h => (digit_char_cases (natStr_chars h)).1 rfl

/-- Grouping preserves any elementwise property: every group of
`dictGroup` is keyed by some element and contains only elements. -/
theorem foldl_dictPush_inv {α : Type _} (key : α → Str) (q : α → Prop) :
    ∀ (l : List α) (m : List (Str × List α)),
      (∀ x ∈ l, q x) →
      (∀ g ∈ m, (∃ a, q a ∧ g.1 = key a) ∧ ∀ x ∈ g.2, q x) →
      ∀ g ∈ l.foldl (fun m x => dictPush m (key x) x) m,
        (∃ a, q a ∧ g.1 = key a) ∧ ∀ x ∈ g.2, q x := by
  intro l
  induction l with
  | nil =>
    intro m _ hm g hg
    exact hm g hg
  | cons x l' ih =>
    intro m hl hm g hg
    rw [List.foldl_cons] at hg
    refine ih _ (fun y hy => hl y (List.mem_cons_of_mem _ hy)) ?_ g hg
    intro g' hg'
    unfold dictPush at hg'
    split at hg'
    · obtain ⟨p, hp, hpe⟩ := List.mem_map.mp hg'
      by_cases hpk : (p.1 == key x) = true
      · rw [if_pos hpk] at hpe
        obtain ⟨⟨a, hqa, hka⟩, hsnd⟩ := hm p hp
        refine ⟨⟨a, hqa, by rw [← hpe]; exact hka⟩, ?_⟩
        intro y hy
        rw [← hpe] at hy
        rcases List.mem_append.mp hy with hy | hy
        · exact hsnd y hy
        · rcases List.mem_singleton.mp hy with rfl
          exact hl _ (List.mem_cons_self _ _)
      · rw [if_neg hpk] at hpe
        exact hpe ▸ hm p hp
    · rcases List.mem_append.mp hg' with hg' | hg'
      · exact hm g' hg'
      · rcases List.mem_singleton.mp hg' with rfl
        refine ⟨⟨x, hl x (List.mem_cons_self _ _), rfl⟩, ?_⟩
        intro y hy
        rcases List.mem_singleton.mp hy with rfl
        exact hl _ (List.mem_cons_self _ _)

/-- Specialisation to membership: groups contain only list elements and
are keyed by an element's key. -/
theorem dictGroup_inv {α : Type _} (key : α → Str) (l : List α) :
    ∀ g ∈ dictGroup key l,
      (∃ a, a ∈ l ∧ g.1 = key a) ∧ ∀ x ∈ g.2, x ∈ l := by
  intro g hg
  exact foldl_dictPush_inv key (· ∈ l) l [] (fun x hx => hx)
    (fun g' hg' => absurd hg' (List.not_mem_nil _)) g hg

/-- Chunk safety of the primary-provisions loop. -/
theorem cBF_build_primary_go {nodes : List GraphNode}
    (hns : ∀ n ∈ nodes, nodeBracketFree n) :
    ∀ c, ∀ dd ∈ (build_primary_go nodes c).1, chunksBracketFree dd := by
  induction nodes with
  | nil =>
    intro c dd hdd
    cases hdd
  | cons n rest ih =>
    intro c dd hdd
    rw [build_primary_go_cons] at hdd
    rcases List.mem_append.mp hdd with hdd | hdd
    · have hn := hns n (List.mem_cons_self _ _)
      split at hdd
      · rcases List.mem_singleton.mp hdd with rfl
        exact cBF_format_section hn
      · split at hdd
        · rcases List.mem_singleton.mp hdd with rfl
          exact cBF_format_definition hn
        · split at hdd
          · rcases List.mem_singleton.mp hdd with rfl
            exact cBF_format_right hn
          · cases hdd
    · exact ih (fun x hx => hns x (List.mem_cons_of_mem _ hx)) _ dd hdd

/-- Chunk safety of the definitions loop. -/
theorem cBF_build_definitions_go {defs : List GraphNode}
    (hns : ∀ n ∈ defs, nodeBracketFree n) :
    ∀ c, ∀ dd ∈ (build_definitions_go defs c).1, chunksBracketFree dd := by
  induction defs with
  | nil =>
    intro c dd hdd
    cases hdd
  | cons n rest ih =>
    intro c dd hdd
    rw [build_definitions_go_cons] at hdd
    rcases List.mem_cons.mp hdd with rfl | hdd
    · have hn := hns n (List.mem_cons_self _ _)
      intro s hs
      rcases List.mem_cons.mp hs with he | hs
      · injection he with he
        rw [he]
        exact brkFree_append (brkFree_append (brkFree_append
          (brkFree_append (by decide) (brkFree_upperStr (hn _ (by simp))))
          (by decide)) (hn _ (by simp))) (by decide)
      · rcases List.mem_singleton.mp hs with he
        cases he
    · exact ih (fun x hx => hns x (List.mem_cons_of_mem _ hx)) _ dd hdd

/-- Chunk safety of the fundamental-rights loop. -/
theorem cBF_fundamental_lines {frs : List (Str × Str)}
    (hfrs : ∀ fr ∈ frs, '[' ∉ fr.1 ∧ '[' ∉ fr.2) :
    ∀ i c, ∀ dd ∈ (fundamental_lines frs i c).1, chunksBracketFree dd := by
  induction frs with
  | nil =>
    intro i c dd hdd
    cases hdd
  | cons fr rest ih =>
    intro i c dd hdd
    rw [fundamental_lines_cons] at hdd
    rcases List.mem_cons.mp hdd with rfl | hdd
    · have hf := hfrs fr (List.mem_cons_self _ _)
      intro s hs
      rcases List.mem_cons.mp hs with he | hs
      · injection he with he
        rw [he]
        exact brkFree_append (brkFree_append (brkFree_append
          (brkFree_append (brkFree_append (brkFree_natStr i) (by decide))
            hf.1) (by decide)) hf.2) (by decide)
      · rcases List.mem_singleton.mp hs with he
        cases he
    · exact ih (fun x hx => hfrs x (List.mem_cons_of_mem _ hx)) _ _ dd hdd

/-- Chunk safety of the additional-rights bullet loop. -/
theorem cBF_build_right_bullets {rs : List GraphNode}
    (hns : ∀ n ∈ rs, nodeBracketFree n) :
    ∀ c, ∀ dd ∈ (build_right_bullets rs c).1, chunksBracketFree dd := by
  induction rs with
  | nil =>
    intro c dd hdd
    cases hdd
  | cons n rest ih =>
    intro c dd hdd
    rw [build_right_bullets_cons] at hdd
    rcases List.mem_cons.mp hdd with rfl | hdd
    · have hn := hns n (List.mem_cons_self _ _)
      intro s hs
      rcases List.mem_cons.mp hs with he | hs
      · injection he with he
        rw [he]
        refine brkFree_append (brkFree_append
          (brkFree_append (by decide) (hn _ (by simp))) ?_) (by decide)
        split
        · exact brkFree_append (brkFree_append (by decide)
            (hn _ (by simp))) (by decide)
        · decide
      · rcases List.mem_singleton.mp hs with he
        cases he
    · exact ih (fun x hx => hns x (List.mem_cons_of_mem _ hx)) _ dd hdd

/-- Chunk safety of one group header. -/
theorem cBF_rightGroupHeader {rt : Str} (hrt : '[' ∉ rt) :
    chunksBracketFree (rightGroupHeader rt) := by
  intro s hs
  unfold rightGroupHeader at hs
  split at hs
  · rcases List.mem_singleton.mp hs with he
    injection he with he
    rw [he]
    decide
  · split at hs
    · rcases List.mem_singleton.mp hs with he
      injection he with he
      rw [he]
      decide
    · rcases List.mem_singleton.mp hs with he
      injection he with he
      rw [he]
      exact brkFree_append (brkFree_append (by decide)
        (brkFree_titleCase (brkFree_underscore_map hrt))) (by decide)

/-- Chunk safety of the grouped-rights loop. -/
theorem cBF_build_rights_groups {groups : List (Str × List GraphNode)}
    (hgs : ∀ g ∈ groups, '[' ∉ g.1 ∧ ∀ n ∈ g.2, nodeBracketFree n) :
    ∀ c, ∀ dd ∈ (build_rights_groups groups c).1, chunksBracketFree dd := by
  induction groups with
  | nil =>
    intro c dd hdd
    cases hdd
  | cons g rest ih =>
    intro c dd hdd
    unfold build_rights_groups at hdd
    split at hdd
    · exact ih (fun x hx => hgs x (List.mem_cons_of_mem _ hx)) _ dd hdd
    · have hg := hgs g (List.mem_cons_self _ _)
      rcases List.mem_cons.mp hdd with rfl | hdd
      · exact cBF_rightGroupHeader hg.1
      · rcases List.mem_append.mp hdd with hdd | hdd
        · rcases List.mem_append.mp hdd with hdd | hdd
          · exact cBF_build_right_bullets hg.2 _ dd hdd
          · rcases List.mem_singleton.mp hdd with rfl
            intro s hs
            cases hs
        · exact ih (fun x hx => hgs x (List.mem_cons_of_mem _ hx)) _ dd hdd

/-- Chunk safety of the whole rights section. -/
theorem cBF_build_rights_section {rights : List GraphNode}
    (hns : ∀ n ∈ rights, nodeBracketFree n) (c : Nat) :
    chunksBracketFree (build_rights_section rights c).1 := by
  unfold build_rights_section
  by_cases hr : rights = []
  · rw [if_pos hr]
    intro s hs
    cases hs
  · rw [if_neg hr]
    refine cBF_joinDoc (by decide) ?_
    intro dd hdd
    simp only [List.append_assoc, List.mem_append, List.mem_cons,
      List.mem_singleton, List.not_mem_nil, or_false, false_or] at hdd
    rcases hdd with (rfl | rfl) | hdd | rfl | hdd
    · intro s hs
      rcases List.mem_singleton.mp hs with he
      injection he with he
      rw [he]
      decide
    · intro s hs
      cases hs
    · exact cBF_fundamental_lines brkFree_fundamental_rights _ _ dd hdd
    · intro s hs
      cases hs
    · refine cBF_build_rights_groups ?_ _ dd hdd
      intro g hg
      obtain ⟨⟨a, ha, hka⟩, hsub⟩ :=
        dictGroup_inv (fun n => n.content.right_type) rights g hg
      refine ⟨?_, fun n hn => hns n (hsub n hn)⟩
      rw [hka]
      exact hns a ha _ (by simp)

/-- Chunk safety of the related-provisions loop. -/
theorem cBF_build_related_go {nodes : List GraphNode}
    (hns : ∀ n ∈ nodes, nodeBracketFree n) (referenced : List Str) :
    ∀ c, ∀ dd ∈ (build_related_go nodes referenced c).1,
      chunksBracketFree dd := by
  induction nodes with
  | nil =>
    intro c dd hdd
    cases hdd
  | cons n rest ih =>
    intro c dd hdd
    unfold build_related_go at hdd
    split at hdd
    · rcases List.mem_append.mp hdd with hdd | hdd
      · split at hdd
        · rcases List.mem_singleton.mp hdd with rfl
          exact cBF_format_section (hns n (List.mem_cons_self _ _))
        · cases hdd
      · exact ih (fun x hx => hns x (List.mem_cons_of_mem _ hx)) _ dd hdd
    · exact ih (fun x hx => hns x (List.mem_cons_of_mem _ hx)) _ dd hdd

/-- Chunk safety of the hierarchical-context groups. -/
theorem cBF_build_hier_groups {groups : List (Str × List GraphNode)}
    (hgs : ∀ g ∈ groups, '[' ∉ g.1 ∧ ∀ n ∈ g.2, nodeBracketFree n) :
    ∀ dd ∈ build_hier_groups groups, chunksBracketFree dd := by
  induction groups with
  | nil =>
    intro dd hdd
    cases hdd
  | cons g rest ih =>
    intro dd hdd
    unfold build_hier_groups at hdd
    split at hdd
    · have hg := hgs g (List.mem_cons_self _ _)
      rcases List.mem_append.mp hdd with hdd | hdd
      · rcases List.mem_append.mp hdd with hdd | hdd
        · rcases List.mem_cons.mp hdd with rfl | hdd
          · intro s hs
            rcases List.mem_singleton.mp hs with he
            injection he with he
            rw [he]
            exact brkFree_append (brkFree_append (by decide) hg.1)
              (by decide)
          · obtain ⟨nn, hnn, rfl⟩ := List.mem_map.mp hdd
            have hn := hg.2 nn (List.take_subset _ _ hnn)
            intro s hs
            rcases List.mem_singleton.mp hs with he
            injection he with he
            rw [he]
            exact brkFree_append (brkFree_append (brkFree_append
              (by decide) (hn _ (by simp))) (by decide)) (hn _ (by simp))
        · rcases List.mem_singleton.mp hdd with rfl
          intro s hs
          cases hs
      · exact ih (fun x hx => hgs x (List.mem_cons_of_mem _ hx)) dd hdd
    · exact ih (fun x hx => hgs x (List.mem_cons_of_mem _ hx)) dd hdd

/-- Chunk safety of the hierarchical context. -/
theorem cBF_build_hierarchical_context {sections : List GraphNode}
    (hns : ∀ n ∈ sections, nodeBracketFree n) :
    chunksBracketFree (build_hierarchical_context sections) := by
  unfold build_hierarchical_context
  split
  · intro s hs
    cases hs
  · refine cBF_joinDoc (by decide) ?_
    refine cBF_build_hier_groups ?_
    intro g hg
    obtain ⟨⟨a, ha, hka⟩, hsub⟩ :=
      dictGroup_inv (fun n => n.content.chapter_title) sections g hg
    refine ⟨?_, fun n hn => hns n (hsub n hn)⟩
    rw [hka]
    exact hns a ha _ (by simp)

/-! ### Citation values of the builder blocks -/

/-- Values of the primary loop's citation entries are bracket-free. -/
theorem vals_build_primary_go {nodes : List GraphNode}
    (hns : ∀ n ∈ nodes, nodeBracketFree n) :
    ∀ c, ∀ kv ∈ (build_primary_go nodes c).2.1,
      '[' ∉ kv.1 ∧ '[' ∉ kv.2 := by
  induction nodes with
  | nil =>
    intro c kv hkv
    cases hkv
  | cons n rest ih =>
    intro c kv hkv
    rw [build_primary_go_cons] at hkv
    rcases List.mem_cons.mp hkv with rfl | hkv
    · exact ⟨bracket_not_mem_citationKey _,
        brkFree_get_citation (hns n (List.mem_cons_self _ _))⟩
    · exact ih (fun x hx => hns x (List.mem_cons_of_mem _ hx)) _ kv hkv

/-- Values of the definitions loop's citation entries are bracket-free. -/
theorem vals_build_definitions_go {defs : List GraphNode}
    (hns : ∀ n ∈ defs, nodeBracketFree n) :
    ∀ c, ∀ kv ∈ (build_definitions_go defs c).2.1,
      '[' ∉ kv.1 ∧ '[' ∉ kv.2 := by
  induction defs with
  | nil =>
    intro c kv hkv
    cases hkv
  | cons n rest ih =>
    intro c kv hkv
    rw [build_definitions_go_cons] at hkv
    rcases List.mem_cons.mp hkv with rfl | hkv
    · exact ⟨bracket_not_mem_citationKey _,
        brkFree_get_citation (hns n (List.mem_cons_self _ _))⟩
    · exact ih (fun x hx => hns x (List.mem_cons_of_mem _ hx)) _ kv hkv

/-- Values of the fundamental-rights entries are bracket-free. -/
theorem vals_fundamental_lines (frs : List (Str × Str)) :
    ∀ i c, ∀ kv ∈ (fundamental_lines frs i c).2.1,
      '[' ∉ kv.1 ∧ '[' ∉ kv.2 := by
  induction frs with
  | nil =>
    intro i c kv hkv
    cases hkv
  | cons fr rest ih =>
    intro i c kv hkv
    rw [fundamental_lines_cons] at hkv
    rcases List.mem_cons.mp hkv with rfl | hkv
    · exact ⟨bracket_not_mem_citationKey _,
        show '[' ∉ section2Citation by decide⟩
    · exact ih _ _ kv hkv

/-- Values of the bullet loop's citation entries are bracket-free. -/
theorem vals_build_right_bullets {rs : List GraphNode}
    (hns : ∀ n ∈ rs, nodeBracketFree n) :
    ∀ c, ∀ kv ∈ (build_right_bullets rs c).2.1,
      '[' ∉ kv.1 ∧ '[' ∉ kv.2 := by
  induction rs with
  | nil =>
    intro c kv hkv
    cases hkv
  | cons n rest ih =>
    intro c kv hkv
    rw [build_right_bullets_cons] at hkv
    rcases List.mem_cons.mp hkv with rfl | hkv
    · exact ⟨bracket_not_mem_citationKey _,
        brkFree_get_citation (hns n (List.mem_cons_self _ _))⟩
    · exact ih (fun x hx => hns x (List.mem_cons_of_mem _ hx)) _ kv hkv

/-- Values of the grouped-rights citation entries are bracket-free. -/
theorem vals_build_rights_groups {groups : List (Str × List GraphNode)}
    (hgs : ∀ g ∈ groups, ∀ n ∈ g.2, nodeBracketFree n) :
    ∀ c, ∀ kv ∈ (build_rights_groups groups c).2.1,
      '[' ∉ kv.1 ∧ '[' ∉ kv.2 := by
  induction groups with
  | nil =>
    intro c kv hkv
    cases hkv
  | cons g rest ih =>
    intro c kv hkv
    unfold build_rights_groups at hkv
    split at hkv
    · exact ih (fun x hx => hgs x (List.mem_cons_of_mem _ hx)) _ kv hkv
    · rcases List.mem_append.mp hkv with hkv | hkv
      · exact vals_build_right_bullets (hgs g (List.mem_cons_self _ _))
          _ kv hkv
      · exact ih (fun x hx => hgs x (List.mem_cons_of_mem _ hx)) _ kv hkv

/-- Values of the rights-section citation entries are bracket-free. -/
theorem vals_build_rights_section {rights : List GraphNode}
    (hns : ∀ n ∈ rights, nodeBracketFree n) (c : Nat) :
    ∀ kv ∈ (build_rights_section rights c).2.1,
      '[' ∉ kv.1 ∧ '[' ∉ kv.2 := by
  unfold build_rights_section
  by_cases hr : rights = []
  · rw [if_pos hr]
    intro kv hkv
    cases hkv
  · rw [if_neg hr]
    intro kv hkv
    rcases List.mem_append.mp hkv with hkv | hkv
    · exact vals_fundamental_lines fundamental_rights _ _ kv hkv
    · refine vals_build_rights_groups ?_ _ kv hkv
      intro g hg
      obtain ⟨_, hsub⟩ :=
        dictGroup_inv (fun n => n.content.right_type) rights g hg
      exact fun n hn => hns n (hsub n hn)

/-- Values of the related-provisions citation entries are bracket-free. -/
theorem vals_build_related_go {nodes : List GraphNode}
    (hns : ∀ n ∈ nodes, nodeBracketFree n) (referenced : List Str) :
    ∀ c, ∀ kv ∈ (build_related_go nodes referenced c).2.1,
      '[' ∉ kv.1 ∧ '[' ∉ kv.2 := by
  induction nodes with
  | nil =>
    intro c kv hkv
    cases hkv
  | cons n rest ih =>
    intro c kv hkv
    unfold build_related_go at hkv
    split at hkv
    · rcases List.mem_cons.mp hkv with rfl | hkv
      · exact ⟨bracket_not_mem_citationKey _,
          brkFree_get_citation (hns n (List.mem_cons_self _ _))⟩
      · exact ih (fun x hx => hns x (List.mem_cons_of_mem _ hx)) _ kv hkv
    · exact ih (fun x hx => hns x (List.mem_cons_of_mem _ hx)) _ kv hkv

/-! ### The assembled context, block by block -/

/-- The primary block of `build_context` (counter starts at 0). -/
def bc_primary (gc : GraphContext) : Doc × List (Str × Str) × Nat :=
  build_primary_provisions gc.get_primary_nodes 0

/-- The definitions block of `build_context`. -/
def bc_defs (gc : GraphContext) : Doc × List (Str × Str) × Nat :=
  build_definitions_section
    (gc.nodes.filter (fun n => n.node_type = "definition".data))
    (bc_primary gc).2.2

/-- The right nodes of the context. -/
def bc_rightsNodes (gc : GraphContext) : List GraphNode :=
  gc.nodes.filter (fun n => n.node_type = "right".data)

/-- The rights block of `build_context` (built only on a rights query
with retrieved right nodes). -/
def bc_rights (gc : GraphContext) (intent : QueryIntent) :
    Doc × List (Str × Str) × Nat :=
  if intent.intent_type = IntentType.rights_query ∧ bc_rightsNodes gc ≠ []
  then build_rights_section (bc_rightsNodes gc) (bc_defs gc).2.2
  else ([], [], (bc_defs gc).2.2)

/-- The related-provisions block of `build_context`. -/
def bc_related (gc : GraphContext) (intent : QueryIntent) :
    Doc × List (Str × Str) × Nat :=
  build_related_provisions gc.get_related_nodes gc.edges
    (bc_rights gc intent).2.2

/-- The hierarchical block of `build_context` (no citations issued). -/
def bc_hier (gc : GraphContext) : Doc :=
  build_hierarchical_context
    (gc.nodes.filter (fun n => n.node_type = "section".data))

/-- The emitted parts of `build_context`, with the source's
`if <text>:` guards. -/
def bc_parts (gc : GraphContext) (intent : QueryIntent) : List Doc :=
  (if render (bc_primary gc).1 ≠ [] then
    [[Atom.chunk "=== PRIMARY LEGAL PROVISIONS ===".data],
      (bc_primary gc).1]
  else []) ++
  (if render (bc_defs gc).1 ≠ [] then
    [[Atom.chunk "\n=== LEGAL DEFINITIONS ===".data], (bc_defs gc).1]
  else []) ++
  (if intent.intent_type = IntentType.rights_query ∧
      bc_rightsNodes gc ≠ [] ∧ render (bc_rights gc intent).1 ≠ [] then
    [[Atom.chunk "\n=== CONSUMER RIGHTS ===".data],
      (bc_rights gc intent).1]
  else []) ++
  (if render (bc_related gc intent).1 ≠ [] then
    [[Atom.chunk "\n=== RELATED PROVISIONS ===".data],
      (bc_related gc intent).1]
  else []) ++
  (if render (bc_hier gc) ≠ [] then
    [[Atom.chunk "\n=== CONTEXTUAL INFORMATION ===".data], bc_hier gc]
  else [])

/-- The merged citation map of `build_context`. -/
def bc_cits (gc : GraphContext) (intent : QueryIntent) :
    List (Str × Str) :=
  (if render (bc_primary gc).1 ≠ [] then (bc_primary gc).2.1 else []) ++
  (if render (bc_defs gc).1 ≠ [] then (bc_defs gc).2.1 else []) ++
  (if intent.intent_type = IntentType.rights_query ∧
      bc_rightsNodes gc ≠ [] ∧ render (bc_rights gc intent).1 ≠ [] then
    (bc_rights gc intent).2.1
  else []) ++
  (if render (bc_related gc intent).1 ≠ [] then
    (bc_related gc intent).2.1
  else [])

/-- The flat text before truncation. -/
def bc_text0 (gc : GraphContext) (intent : QueryIntent) : Str :=
  render (joinDoc "\n".data (bc_parts gc intent))

set_option maxHeartbeats 2000000 in
/-- The formatted text of `build_context` is the flat text, truncated
when it exceeds the limit. -/
theorem build_context_formatted (maxLen : Nat) (gc : GraphContext)
    (intent : QueryIntent) :
    (build_context maxLen gc intent).formatted_text =
      if maxLen < (bc_text0 gc intent).length then
        truncate_context maxLen (bc_text0 gc intent)
      else bc_text0 gc intent := rfl

set_option maxHeartbeats 2000000 in
/-- The citation map of `build_context`, block by block. -/
theorem build_context_citations_eq (maxLen : Nat) (gc : GraphContext)
    (intent : QueryIntent) :
    (build_context maxLen gc intent).citations = bc_cits gc intent := rfl

/-- Membership in a guarded block. -/
theorem mem_if_nil {α : Type _} {g : Prop} [Decidable g] {L : List α}
    {x : α} (h : x ∈ if g then L else []) : g ∧ x ∈ L := by
  split at h
  · rename_i hg
    exact ⟨hg, h⟩
  · cases h

/-- The hierarchical context carries no citation token. -/
theorem tok_not_mem_hier_groups {j : Nat} :
    ∀ {groups : List (Str × List GraphNode)},
      ∀ dd ∈ build_hier_groups groups, Atom.tok j ∉ dd := by
  intro groups
  induction groups with
  | nil =>
    intro dd hdd
    cases hdd
  | cons g rest ih =>
    intro dd hdd
    unfold build_hier_groups at hdd
    split at hdd
    · rcases List.mem_append.mp hdd with hdd | hdd
      · rcases List.mem_append.mp hdd with hdd | hdd
        · rcases List.mem_cons.mp hdd with rfl | hdd
          · simp
          · obtain ⟨nn, _, rfl⟩ := List.mem_map.mp hdd
            simp [hier_section_line]
        · rcases List.mem_singleton.mp hdd with rfl
          simp
      · exact ih dd hdd
    · exact ih dd hdd

/-- No citation token in the whole hierarchical block. -/
theorem tok_not_mem_hier {sections : List GraphNode} {j : Nat} :
    Atom.tok j ∉ build_hierarchical_context sections := by
  intro h
  unfold build_hierarchical_context at h
  split at h
  · cases h
  · obtain ⟨dd, hdd, hmem⟩ := tok_mem_joinDoc h
    exact tok_not_mem_hier_groups dd hdd hmem

/-- Keys and tokens of the primary block. -/
theorem build_primary_provisions_spec (nodes : List GraphNode) (c : Nat) :
    (∃ m, (build_primary_provisions nodes c).2.1.map Prod.fst =
        keySeq c m ∧
      (build_primary_provisions nodes c).2.2 = c + m) ∧
    ∀ j, Atom.tok j ∈ (build_primary_provisions nodes c).1 →
      citationKey j ∈
        (build_primary_provisions nodes c).2.1.map Prod.fst := by
  unfold build_primary_provisions
  split
  · refine ⟨⟨0, rfl, rfl⟩, ?_⟩
    intro j hj
    cases hj
  · obtain ⟨⟨hkeys, hcnt⟩, htoks⟩ := build_primary_go_spec nodes c
    refine ⟨⟨nodes.length, hkeys, hcnt⟩, ?_⟩
    intro j hj
    obtain ⟨dd, hdd, hmem⟩ := tok_mem_joinDoc hj
    exact htoks dd hdd j hmem

/-- Keys and tokens of the definitions block. -/
theorem build_definitions_section_spec (defs : List GraphNode) (c : Nat) :
    (∃ m, (build_definitions_section defs c).2.1.map Prod.fst =
        keySeq c m ∧
      (build_definitions_section defs c).2.2 = c + m) ∧
    ∀ j, Atom.tok j ∈ (build_definitions_section defs c).1 →
      citationKey j ∈
        (build_definitions_section defs c).2.1.map Prod.fst := by
  unfold build_definitions_section
  split
  · refine ⟨⟨0, rfl, rfl⟩, ?_⟩
    intro j hj
    cases hj
  · obtain ⟨⟨hkeys, hcnt⟩, htoks⟩ := build_definitions_go_spec defs c
    refine ⟨⟨defs.length, hkeys, hcnt⟩, ?_⟩
    intro j hj
    obtain ⟨dd, hdd, hmem⟩ := tok_mem_joinDoc hj
    exact htoks dd hdd j hmem

/-- Keys and tokens of the related block. -/
theorem build_related_provisions_spec (nodes : List GraphNode)
    (edges : List GraphEdge) (c : Nat) :
    (∃ m, (build_related_provisions nodes edges c).2.1.map Prod.fst =
        keySeq c m ∧
      (build_related_provisions nodes edges c).2.2 = c + m) ∧
    ∀ j, Atom.tok j ∈ (build_related_provisions nodes edges c).1 →
      citationKey j ∈
        (build_related_provisions nodes edges c).2.1.map Prod.fst := by
  unfold build_related_provisions
  split
  · refine ⟨⟨0, rfl, rfl⟩, ?_⟩
    intro j hj
    cases hj
  · obtain ⟨⟨m, hkeys, hcnt⟩, htoks⟩ :=
      build_related_go_spec nodes (edges.map GraphEdge.to_node) c
    refine ⟨⟨m, hkeys, hcnt⟩, ?_⟩
    intro j hj
    obtain ⟨dd, hdd, hmem⟩ := tok_mem_joinDoc hj
    exact htoks dd hdd j hmem

/-- Keys and tokens of the rights block as placed in `build_context`. -/
theorem bc_rights_spec (gc : GraphContext) (intent : QueryIntent) :
    (∃ m, (bc_rights gc intent).2.1.map Prod.fst =
        keySeq (bc_defs gc).2.2 m ∧
      (bc_rights gc intent).2.2 = (bc_defs gc).2.2 + m) ∧
    ∀ j, Atom.tok j ∈ (bc_rights gc intent).1 →
      citationKey j ∈ (bc_rights gc intent).2.1.map Prod.fst := by
  unfold bc_rights
  split
  · exact build_rights_section_spec _ _
  · refine ⟨⟨0, rfl, rfl⟩, ?_⟩
    intro j hj
    cases hj

/-- Chunk safety of the primary block. -/
theorem cBF_bc_primary {gc : GraphContext}
    (hsafe : ∀ n ∈ gc.nodes, nodeBracketFree n) :
    chunksBracketFree (bc_primary gc).1 := by
  unfold bc_primary build_primary_provisions
  split
  · intro s hs
    cases hs
  · refine cBF_joinDoc (by decide) ?_
    refine cBF_build_primary_go ?_ _
    intro n hn
    exact hsafe n (List.mem_of_mem_filter hn)

/-- Chunk safety of the definitions block. -/
theorem cBF_bc_defs {gc : GraphContext}
    (hsafe : ∀ n ∈ gc.nodes, nodeBracketFree n) :
    chunksBracketFree (bc_defs gc).1 := by
  unfold bc_defs build_definitions_section
  split
  · intro s hs
    cases hs
  · refine cBF_joinDoc (by decide) ?_
    refine cBF_build_definitions_go ?_ _
    intro n hn
    exact hsafe n (List.mem_of_mem_filter hn)

/-- Chunk safety of the rights block. -/
theorem cBF_bc_rights {gc : GraphContext} {intent : QueryIntent}
    (hsafe : ∀ n ∈ gc.nodes, nodeBracketFree n) :
    chunksBracketFree (bc_rights gc intent).1 := by
  unfold bc_rights
  split
  · refine cBF_build_rights_section ?_ _
    intro n hn
    exact hsafe n (List.mem_of_mem_filter hn)
  · intro s hs
    cases hs

/-- Chunk safety of the related block. -/
theorem cBF_bc_related {gc : GraphContext} {intent : QueryIntent}
    (hsafe : ∀ n ∈ gc.nodes, nodeBracketFree n) :
    chunksBracketFree (bc_related gc intent).1 := by
  unfold bc_related build_related_provisions
  split
  · intro s hs
    cases hs
  · refine cBF_joinDoc (by decide) ?_
    refine cBF_build_related_go ?_ _ _
    intro n hn
    unfold GraphContext.get_related_nodes at hn
    exact hsafe n (List.mem_of_mem_filter hn)

/-- Chunk safety of the hierarchical block. -/
theorem cBF_bc_hier {gc : GraphContext}
    (hsafe : ∀ n ∈ gc.nodes, nodeBracketFree n) :
    chunksBracketFree (bc_hier gc) := by
  unfold bc_hier
  refine cBF_build_hierarchical_context ?_
  intro n hn
  exact hsafe n (List.mem_of_mem_filter hn)

/-- Chunk safety of every emitted part. -/
theorem cBF_bc_parts {gc : GraphContext} {intent : QueryIntent}
    (hsafe : ∀ n ∈ gc.nodes, nodeBracketFree n) :
    ∀ dd ∈ bc_parts gc intent, chunksBracketFree dd := by
  intro dd hdd
  unfold bc_parts at hdd
  have hchunk : ∀ (h : Str), '[' ∉ h →
      chunksBracketFree [Atom.chunk h] := by
    intro h hh s hs
    rcases List.mem_singleton.mp hs with he
    injection he with he
    rw [he]
    exact hh
  rcases List.mem_append.mp hdd with hdd | hdd
  rotate_left
  · obtain ⟨_, hdd⟩ := mem_if_nil hdd
    rcases List.mem_cons.mp hdd with rfl | hdd
    · exact hchunk _ (by decide)
    · rcases List.mem_singleton.mp hdd with rfl
      exact cBF_bc_hier hsafe
  rcases List.mem_append.mp hdd with hdd | hdd
  rotate_left
  · obtain ⟨_, hdd⟩ := mem_if_nil hdd
    rcases List.mem_cons.mp hdd with rfl | hdd
    · exact hchunk _ (by decide)
    · rcases List.mem_singleton.mp hdd with rfl
      exact cBF_bc_related hsafe
  rcases List.mem_append.mp hdd with hdd | hdd
  rotate_left
  · obtain ⟨_, hdd⟩ := mem_if_nil hdd
    rcases List.mem_cons.mp hdd with rfl | hdd
    · exact hchunk _ (by decide)
    · rcases List.mem_singleton.mp hdd with rfl
      exact cBF_bc_rights hsafe
  rcases List.mem_append.mp hdd with hdd | hdd
  · obtain ⟨_, hdd⟩ := mem_if_nil hdd
    rcases List.mem_cons.mp hdd with rfl | hdd
    · exact hchunk _ (by decide)
    · rcases List.mem_singleton.mp hdd with rfl
      exact cBF_bc_primary hsafe
  · obtain ⟨_, hdd⟩ := mem_if_nil hdd
    rcases List.mem_cons.mp hdd with rfl | hdd
    · exact hchunk _ (by decide)
    · rcases List.mem_singleton.mp hdd with rfl
      exact cBF_bc_defs hsafe

/-- Citation values of the primary block are bracket-free. -/
theorem vals_bc_primary {gc : GraphContext}
    (hsafe : ∀ n ∈ gc.nodes, nodeBracketFree n) :
    ∀ kv ∈ (bc_primary gc).2.1, '[' ∉ kv.1 ∧ '[' ∉ kv.2 := by
  unfold bc_primary build_primary_provisions
  split
  · intro kv hkv
    cases hkv
  · exact vals_build_primary_go
      (fun n hn => hsafe n (List.mem_of_mem_filter hn)) _

/-- Citation values of the definitions block are bracket-free. -/
theorem vals_bc_defs {gc : GraphContext}
    (hsafe : ∀ n ∈ gc.nodes, nodeBracketFree n) :
    ∀ kv ∈ (bc_defs gc).2.1, '[' ∉ kv.1 ∧ '[' ∉ kv.2 := by
  unfold bc_defs build_definitions_section
  split
  · intro kv hkv
    cases hkv
  · exact vals_build_definitions_go
      (fun n hn => hsafe n (List.mem_of_mem_filter hn)) _

/-- Citation values of the rights block are bracket-free. -/
theorem vals_bc_rights {gc : GraphContext} {intent : QueryIntent}
    (hsafe : ∀ n ∈ gc.nodes, nodeBracketFree n) :
    ∀ kv ∈ (bc_rights gc intent).2.1, '[' ∉ kv.1 ∧ '[' ∉ kv.2 := by
  unfold bc_rights
  split
  · exact vals_build_rights_section
      (fun n hn => hsafe n (List.mem_of_mem_filter hn)) _
  · intro kv hkv
    cases hkv

/-- Citation values of the related block are bracket-free. -/
theorem vals_bc_related {gc : GraphContext} {intent : QueryIntent}
    (hsafe : ∀ n ∈ gc.nodes, nodeBracketFree n) :
    ∀ kv ∈ (bc_related gc intent).2.1, '[' ∉ kv.1 ∧ '[' ∉ kv.2 := by
  unfold bc_related build_related_provisions
  split
  · intro kv hkv
    cases hkv
  · exact vals_build_related_go
      (fun n hn => hsafe n (List.mem_of_mem_filter hn)) _ _

/-- `bc_primary` issues a run of keys starting at 1 and uses only them. -/
theorem bc_primary_spec (gc : GraphContext) :
    (∃ m, (bc_primary gc).2.1.map Prod.fst = keySeq 0 m ∧
      (bc_primary gc).2.2 = 0 + m) ∧
    ∀ j, Atom.tok j ∈ (bc_primary gc).1 →
      citationKey j ∈ (bc_primary gc).2.1.map Prod.fst :=
  build_primary_provisions_spec _ _

/-- `bc_defs` issues the next run of keys and uses only them. -/
theorem bc_defs_spec (gc : GraphContext) :
    (∃ m, (bc_defs gc).2.1.map Prod.fst =
        keySeq (bc_primary gc).2.2 m ∧
      (bc_defs gc).2.2 = (bc_primary gc).2.2 + m) ∧
    ∀ j, Atom.tok j ∈ (bc_defs gc).1 →
      citationKey j ∈ (bc_defs gc).2.1.map Prod.fst :=
  build_definitions_section_spec _ _

/-- `bc_related` issues the next run of keys and uses only them. -/
theorem bc_related_spec (gc : GraphContext) (intent : QueryIntent) :
    (∃ m, (bc_related gc intent).2.1.map Prod.fst =
        keySeq (bc_rights gc intent).2.2 m ∧
      (bc_related gc intent).2.2 = (bc_rights gc intent).2.2 + m) ∧
    ∀ j, Atom.tok j ∈ (bc_related gc intent).1 →
      citationKey j ∈ (bc_related gc intent).2.1.map Prod.fst :=
  build_related_provisions_spec _ _ _

/-- Four consecutive key runs concatenate. -/
theorem keySeq_quad (c m₁ m₂ m₃ m₄ : Nat) :
    keySeq c m₁ ++ keySeq (c + m₁) m₂ ++ keySeq (c + m₁ + m₂) m₃ ++
      keySeq (c + m₁ + m₂ + m₃) m₄ = keySeq c (m₁ + m₂ + m₃ + m₄) := by
  rw [List.append_assoc, List.append_assoc, keySeq_append m₃,
    keySeq_append m₂, keySeq_append m₁,
    show m₁ + (m₂ + (m₃ + m₄)) = m₁ + m₂ + m₃ + m₄ by omega]

/-- **C4.** (Amended.)  For every context whose node fields are free of
the reserved `'['` character, every `[Citation-k]` token of the formatted
text — after truncation and after any audience post-processing — has the
matching key `Citation-k` in the returned citation map, and the key list
of the map is (in order) a sublist of the freshly numbered run
`Citation-1 … Citation-N`, reflecting the counter reset at the start of
the call.  (The original claim fails without the bracket-freeness
hypothesis, and blocks whose text is empty drop their keys, so the kept
keys may skip numbers: they are sequential-without-repetition but not
always contiguous from Citation-1.) -/
theorem build_context_citation_map (maxLen : Nat) (gc : GraphContext)
    (intent : QueryIntent) (audience : Str)
    (hsafe : ∀ n ∈ gc.nodes, nodeBracketFree n) :
    (∀ k, tokenStr k <:+:
        (format_for_audience (build_context maxLen gc intent)
          audience).formatted_text →
      citationKey k ∈
        (build_context maxLen gc intent).citations.map Prod.fst) ∧
    ∃ N, List.Sublist
      ((build_context maxLen gc intent).citations.map Prod.fst)
      (keySeq 0 N) := by
  have hvals : ∀ kv ∈ (build_context maxLen gc intent).citations,
      '[' ∉ kv.1 ∧ '[' ∉ kv.2 := by
    rw [build_context_citations_eq]
    intro kv hkv
    unfold bc_cits at hkv
    rcases List.mem_append.mp hkv with hkv | hkv
    rotate_left
    · exact vals_bc_related hsafe kv (mem_if_nil hkv).2
    rcases List.mem_append.mp hkv with hkv | hkv
    rotate_left
    · exact vals_bc_rights hsafe kv (mem_if_nil hkv).2
    rcases List.mem_append.mp hkv with hkv | hkv
    · exact vals_bc_primary hsafe kv (mem_if_nil hkv).2
    · exact vals_bc_defs hsafe kv (mem_if_nil hkv).2
  constructor
  · intro k h
    have h1 := tok_infix_format_for_audience hvals h
    rw [build_context_formatted] at h1
    have h2 : tokenStr k <:+: bc_text0 gc intent := by
      split at h1
      · exact tok_infix_truncate h1
      · exact h1
    have h3 : Atom.tok k ∈ joinDoc "\n".data (bc_parts gc intent) :=
      tok_of_infix_render (cBF_joinDoc (by decide) (cBF_bc_parts hsafe)) h2
    obtain ⟨dd, hdd, hmem⟩ := tok_mem_joinDoc h3
    rw [build_context_citations_eq]
    unfold bc_cits
    simp only [List.map_append]
    unfold bc_parts at hdd
    rcases List.mem_append.mp hdd with hdd | hdd
    rotate_left
    · obtain ⟨_, hdd⟩ := mem_if_nil hdd
      exfalso
      rcases List.mem_cons.mp hdd with rfl | hdd
      · simp at hmem
      · rcases List.mem_singleton.mp hdd with rfl
        exact tok_not_mem_hier hmem
    rcases List.mem_append.mp hdd with hdd | hdd
    rotate_left
    · obtain ⟨hg, hdd⟩ := mem_if_nil hdd
      rcases List.mem_cons.mp hdd with rfl | hdd
      · simp at hmem
      · rcases List.mem_singleton.mp hdd with rfl
        refine List.mem_append_right _ ?_
        rw [if_pos hg]
        exact (bc_related_spec gc intent).2 k hmem
    rcases List.mem_append.mp hdd with hdd | hdd
    rotate_left
    · obtain ⟨hg, hdd⟩ := mem_if_nil hdd
      rcases List.mem_cons.mp hdd with rfl | hdd
      · simp at hmem
      · rcases List.mem_singleton.mp hdd with rfl
        refine List.mem_append_left _ (List.mem_append_right _ ?_)
        rw [if_pos hg]
        exact (bc_rights_spec gc intent).2 k hmem
    rcases List.mem_append.mp hdd with hdd | hdd
    · obtain ⟨hg, hdd⟩ := mem_if_nil hdd
      rcases List.mem_cons.mp hdd with rfl | hdd
      · simp at hmem
      · rcases List.mem_singleton.mp hdd with rfl
        refine List.mem_append_left _ (List.mem_append_left _
          (List.mem_append_left _ ?_))
        rw [if_pos hg]
        exact (bc_primary_spec gc).2 k hmem
    · obtain ⟨hg, hdd⟩ := mem_if_nil hdd
      rcases List.mem_cons.mp hdd with rfl | hdd
      · simp at hmem
      · rcases List.mem_singleton.mp hdd with rfl
        refine List.mem_append_left _ (List.mem_append_left _
          (List.mem_append_right _ ?_))
        rw [if_pos hg]
        exact (bc_defs_spec gc).2 k hmem
  · obtain ⟨m₁, hk₁, hc₁⟩ := (bc_primary_spec gc).1
    obtain ⟨m₂, hk₂, hc₂⟩ := (bc_defs_spec gc).1
    obtain ⟨m₃, hk₃, hc₃⟩ := (bc_rights_spec gc intent).1
    obtain ⟨m₄, hk₄, _⟩ := (bc_related_spec gc intent).1
    rw [hc₁] at hk₂ hc₂
    rw [hc₂] at hk₃ hc₃
    rw [hc₃] at hk₄
    refine ⟨m₁ + m₂ + m₃ + m₄, ?_⟩
    rw [build_context_citations_eq]
    unfold bc_cits
    simp only [List.map_append]
    rw [← keySeq_quad 0 m₁ m₂ m₃ m₄]
    have t₁ : List.Sublist
        (List.map Prod.fst
          (if render (bc_primary gc).1 ≠ [] then (bc_primary gc).2.1
            else []))
        (keySeq 0 m₁) := by
      split
      · rw [hk₁]
      · exact List.nil_sublist _
    have t₂ : List.Sublist
        (List.map Prod.fst
          (if render (bc_defs gc).1 ≠ [] then (bc_defs gc).2.1 else []))
        (keySeq (0 + m₁) m₂) := by
      split
      · rw [hk₂]
      · exact List.nil_sublist _
    have t₃ : List.Sublist
        (List.map Prod.fst
          (if intent.intent_type = IntentType.rights_query ∧
              bc_rightsNodes gc ≠ [] ∧
              render (bc_rights gc intent).1 ≠ [] then
            (bc_rights gc intent).2.1
          else []))
        (keySeq (0 + m₁ + m₂) m₃) := by
      split
      · rw [hk₃]
      · exact List.nil_sublist _
    have t₄ : List.Sublist
        (List.map Prod.fst
          (if render (bc_related gc intent).1 ≠ [] then
            (bc_related gc intent).2.1
          else []))
        (keySeq (0 + m₁ + m₂ + m₃) m₄) := by
      split
      · rw [hk₄]
      · exact List.nil_sublist _
    exact ((t₁.append t₂).append t₃).append t₄

/-- A well-behaved one-node context for exercising the citation-map
invariant. -/
def c4WitnessGC : GraphContext :=
  { nodes := [{ node_id := "S1".data
                node_type := "section".data
                content := { section_number := "2".data
                             title := "Definitions".data
                             text := "In this Act a consumer is any person.".data
                             act := cpa2019 } }]
    edges := []
    citations := []
    confidence := 1
    traversal_path := ["S1".data] }

/-- A rights-query intent over the witness context. -/
def c4WitnessIntent : QueryIntent :=
  { intent_type := IntentType.rights_query
    entities := []
    section_numbers := []
    legal_terms := []
    confidence := 0.3
    original_query := [] }

/-- Witness: the citation-map invariant holds on a concrete context
(lawyer audience), its bracket-freeness hypothesis discharged by
computation. -/
theorem build_context_citation_map_witness :
    (∀ k, tokenStr k <:+:
        (format_for_audience (build_context 8000 c4WitnessGC c4WitnessIntent)
          "lawyer".data).formatted_text →
      citationKey k ∈
        (build_context 8000 c4WitnessGC c4WitnessIntent).citations.map
          Prod.fst) ∧
    ∃ N, List.Sublist
      ((build_context 8000 c4WitnessGC c4WitnessIntent).citations.map
        Prod.fst)
      (keySeq 0 N) :=
  build_context_citation_map 8000 c4WitnessGC c4WitnessIntent "lawyer".data
    (by
      intro n hn
      simp only [c4WitnessGC] at hn
      rcases List.mem_singleton.mp hn with rfl
      intro f hf
      simp only [List.mem_cons, List.not_mem_nil, or_false] at hf
      rcases hf with rfl | rfl | rfl | rfl | rfl | rfl | rfl | rfl | rfl |
        rfl | rfl | rfl | rfl | rfl | rfl | rfl <;> decide)

/-- A context whose node text itself contains the surface form of a
citation token. -/
def c4BadGC : GraphContext :=
  { nodes := [{ node_id := "S1".data
                node_type := "section".data
                content := { section_number := "2".data
                             title := "T".data
                             text := "see [Citation-7] here".data } }]
    edges := []
    citations := []
    confidence := 1
    traversal_path := ["S1".data] }

/-- A plain scenario intent over the bad context. -/
def c4BadIntent : QueryIntent :=
  { intent_type := IntentType.scenario_analysis
    entities := []
    section_numbers := []
    legal_terms := []
    confidence := 0.3
    original_query := [] }

set_option maxRecDepth 20000 in
set_option maxHeartbeats 2000000 in
/-- Counterexample to the claim as stated: a node whose text contains
the literal `[Citation-7]` puts that token into the formatted text, yet
the citation map holds no `Citation-7` key. -/
theorem build_context_citation_map_cex :
    tokenStr 7 <:+:
      (build_context 8000 c4BadGC c4BadIntent).formatted_text ∧
    citationKey 7 ∉
      (build_context 8000 c4BadGC c4BadIntent).citations.map Prod.fst := by
  constructor
  · decide
  · decide

/-! ### The shape of the rights block -/

/-- `render` of a document-level join is the string-level join of the
renders. -/
theorem render_joinDoc (sep : Str) :
    ∀ docs : List Doc,
      render (joinDoc sep docs) = joinSep sep (docs.map render) := by
  intro docs
  induction docs with
  | nil => rfl
  | cons d ds ih =>
    cases ds with
    | nil => rfl
    | cons d' ds' =>
      have hj : joinDoc sep (d :: d' :: ds') =
          d ++ [Atom.chunk sep] ++ joinDoc sep (d' :: ds') := rfl
      rw [hj, render_append, render_append, ih]
      simp only [List.map_cons]
      have hs : joinSep sep (render d :: render d' :: ds'.map render) =
          render d ++ sep ++ joinSep sep (render d' :: ds'.map render) :=
        rfl
      rw [hs]
      simp [render, renderAtom]

/-- Every part is an infix of the join. -/
theorem infix_of_mem_joinSep {sep p : Str} :
    ∀ {parts : List Str}, p ∈ parts → p <:+: joinSep sep parts := by
  intro parts
  induction parts with
  | nil =>
    intro h
    cases h
  | cons q ps ih =>
    intro h
    cases ps with
    | nil =>
      rcases List.mem_singleton.mp h with rfl
      exact List.infix_refl _
    | cons q' ps' =>
      have hj : joinSep sep (q :: q' :: ps') =
          q ++ sep ++ joinSep sep (q' :: ps') := rfl
      rw [hj]
      rcases List.mem_cons.mp h with rfl | h
      · exact ⟨[], sep ++ joinSep sep (q' :: ps'), by
          rw [List.nil_append, List.append_assoc]⟩
      · exact (ih h).trans
          (List.suffix_append (q ++ sep) (joinSep sep (q' :: ps'))).isInfix

/-- The render of every joined document is an infix of the joint
render. -/
theorem infix_of_mem_joinDoc {sep : Str} {docs : List Doc} {dd : Doc}
    (h : dd ∈ docs) : render dd <:+: render (joinDoc sep docs) := by
  rw [render_joinDoc]
  exact infix_of_mem_joinSep (List.mem_map_of_mem render h)

/-- A join of a longer part list extends the join of its front. -/
theorem joinSep_append_exists (sep : Str) :
    ∀ (X Y : List Str), X ≠ [] →
      ∃ tail, joinSep sep (X ++ Y) = joinSep sep X ++ tail := by
  intro X
  induction X with
  | nil =>
    intro Y h
    exact absurd rfl h
  | cons x X' ih =>
    intro Y _
    cases X' with
    | nil =>
      cases Y with
      | nil => exact ⟨[], by simp [joinSep]⟩
      | cons y Y' =>
        have hj : joinSep sep ([x] ++ y :: Y') =
            x ++ sep ++ joinSep sep (y :: Y') := rfl
        exact ⟨sep ++ joinSep sep (y :: Y'), by
          rw [hj, joinSep, List.append_assoc]⟩
    | cons x' X'' =>
      obtain ⟨tail, htail⟩ := ih Y (by simp)
      have hj1 : joinSep sep ((x :: x' :: X'') ++ Y) =
          x ++ sep ++ joinSep sep ((x' :: X'') ++ Y) := rfl
      have hj2 : joinSep sep (x :: x' :: X'') =
          x ++ sep ++ joinSep sep (x' :: X'') := rfl
      exact ⟨tail, by rw [hj1, htail, hj2, List.append_assoc,
        List.append_assoc, List.append_assoc]⟩

/-- The numbered six-right lines of the spec, with the keys they are
issued. -/
def enumeratedRightsLines : List (Str × Str) → Nat → Nat → List Str
  | [], _, _ => []
  | fr :: rest, i, c =>
      (natStr i ++ ". **".data ++ fr.1 ++ "**: ".data ++ fr.2 ++
        " ".data ++ tokenStr (c + 1)) ::
        enumeratedRightsLines rest (i + 1) (c + 1)

/-- The rendered fundamental-right lines are exactly the spec's numbered
lines. -/
theorem fundamental_lines_render (frs : List (Str × Str)) :
    ∀ i c, (fundamental_lines frs i c).1.map render =
      enumeratedRightsLines frs i c := by
  induction frs with
  | nil =>
    intro i c
    rfl
  | cons fr rest ih =>
    intro i c
    rw [fundamental_lines_cons, List.map_cons, ih, enumeratedRightsLines]
    congr 1
    simp [render, renderAtom, List.append_assoc]

/-- The fixed header line of the rights block. -/
def rightsHeaderLine : Str :=
  "**Fundamental Consumer Rights (Section 2(9) of Consumer Protection Act, 2019):**".data

/-- On a non-empty rights list, the rights block renders as the fixed
header, a blank line and the six numbered fundamental-right lines,
followed by the grouped procedural part. -/
theorem build_rights_section_render (rights : List GraphNode) (c : Nat)
    (hne : rights ≠ []) :
    ∃ tail, render (build_rights_section rights c).1 =
      joinSep "\n".data
        (rightsHeaderLine :: [] :: enumeratedRightsLines
          fundamental_rights 1 c) ++ tail := by
  unfold build_rights_section
  rw [if_neg hne, render_joinDoc,
    show "**Fundamental Consumer Rights (Section 2(9) of Consumer Protection Act, 2019):**".data = rightsHeaderLine from rfl]
  have hmap :
      ([[Atom.chunk rightsHeaderLine], []] ++
        (fundamental_lines fundamental_rights 1 c).1 ++ [[]] ++
        (build_rights_groups
          (dictGroup (fun n => n.content.right_type) rights)
          (fundamental_lines fundamental_rights 1 c).2.2).1).map render =
      (rightsHeaderLine :: [] :: enumeratedRightsLines
        fundamental_rights 1 c) ++
      ([] :: (build_rights_groups
        (dictGroup (fun n => n.content.right_type) rights)
        (fundamental_lines fundamental_rights 1 c).2.2).1.map render) := by
    rw [List.map_append, List.map_append, List.map_append,
      fundamental_lines_render]
    simp [render, renderAtom, List.append_assoc]
  rw [hmap]
  exact joinSep_append_exists _ _ _ (by simp)

/-- On a non-empty rights list, the rendered rights block is
non-empty. -/
theorem build_rights_section_render_ne (rights : List GraphNode) (c : Nat)
    (hne : rights ≠ []) :
    render (build_rights_section rights c).1 ≠ [] := by
  obtain ⟨tail, htail⟩ := build_rights_section_render rights c hne
  rw [htail]
  intro h
  rcases List.append_eq_nil.mp h with ⟨h1, _⟩
  have hj : joinSep "\n".data
      (rightsHeaderLine :: [] :: enumeratedRightsLines
        fundamental_rights 1 c) =
      rightsHeaderLine ++ "\n".data ++ joinSep "\n".data
        ([] :: enumeratedRightsLines fundamental_rights 1 c) := rfl
  rw [hj] at h1
  rcases List.append_eq_nil.mp h1 with ⟨h2, _⟩
  rcases List.append_eq_nil.mp h2 with ⟨h3, _⟩
  revert h3
  unfold rightsHeaderLine
  decide

/-- The six fundamental keys sit in the rights-block citation map. -/
theorem build_rights_section_keys (rights : List GraphNode) (c : Nat)
    (hne : rights ≠ []) (i : Nat) (hi : i < 6) :
    citationKey (c + i + 1) ∈
      (build_rights_section rights c).2.1.map Prod.fst := by
  unfold build_rights_section
  rw [if_neg hne]
  simp only [List.map_append]
  refine List.mem_append_left _ ?_
  obtain ⟨⟨hkeys, _⟩, _⟩ := fundamental_lines_spec fundamental_rights 1 c
  rw [hkeys]
  have h6 : fundamental_rights.length = 6 := rfl
  rw [h6]
  exact mem_keySeq.mpr ⟨by omega, by omega⟩

/-- **C3.** (Amended.)  On a rights query, the six-right enumeration is
emitted only when the retrieval produced at least one right node: under
that hypothesis (and without truncation), the formatted text contains —
contiguously, before the grouped procedurally-retrieved rights — the
fixed header and all six numbered fundamental-right lines, the i-th line
carrying its own fresh citation key `Citation-(c₀+i)`, and all six keys
are present in the citation map.  (The original claim fails when no right
nodes were retrieved: the whole rights block, six-right enumeration
included, is skipped.) -/
theorem build_context_rights_block (maxLen : Nat) (gc : GraphContext)
    (intent : QueryIntent)
    (hint : intent.intent_type = IntentType.rights_query)
    (hne : bc_rightsNodes gc ≠ [])
    (hlen : (bc_text0 gc intent).length ≤ maxLen) :
    ∃ c₀ l r tail,
      c₀ = (bc_defs gc).2.2 ∧
      (build_context maxLen gc intent).formatted_text =
        l ++ (joinSep "\n".data
          (rightsHeaderLine :: [] :: enumeratedRightsLines
            fundamental_rights 1 c₀) ++ tail) ++ r ∧
      ∀ i, i < 6 →
        citationKey (c₀ + i + 1) ∈
          (build_context maxLen gc intent).citations.map Prod.fst := by
  have hg : intent.intent_type = IntentType.rights_query ∧
      bc_rightsNodes gc ≠ [] := ⟨hint, hne⟩
  have hrights : bc_rights gc intent =
      build_rights_section (bc_rightsNodes gc) (bc_defs gc).2.2 := by
    unfold bc_rights
    rw [if_pos hg]
  have hrne : render (bc_rights gc intent).1 ≠ [] := by
    rw [hrights]
    exact build_rights_section_render_ne _ _ hne
  have hg3 : intent.intent_type = IntentType.rights_query ∧
      bc_rightsNodes gc ≠ [] ∧ render (bc_rights gc intent).1 ≠ [] :=
    ⟨hint, hne, hrne⟩
  obtain ⟨tail, htail⟩ :=
    build_rights_section_render (bc_rightsNodes gc) (bc_defs gc).2.2 hne
  have hmem : (bc_rights gc intent).1 ∈ bc_parts gc intent := by
    unfold bc_parts
    refine List.mem_append_left _ (List.mem_append_left _ ?_)
    refine List.mem_append_right _ ?_
    rw [if_pos hg3]
    exact List.mem_cons_of_mem _ (List.mem_singleton.mpr rfl)
  have hinf : render (bc_rights gc intent).1 <:+: bc_text0 gc intent :=
    infix_of_mem_joinDoc hmem
  obtain ⟨l, r, hlr⟩ := hinf
  refine ⟨(bc_defs gc).2.2, l, r, tail, rfl, ?_, ?_⟩
  · rw [build_context_formatted, if_neg (not_lt.mpr hlen), ← hlr,
      ← htail, ← hrights]
  · intro i hi
    rw [build_context_citations_eq]
    unfold bc_cits
    simp only [List.map_append]
    refine List.mem_append_left _ (List.mem_append_right _ ?_)
    rw [if_pos hg3, hrights]
    exact build_rights_section_keys _ _ hne i hi

/-- A context that retrieved exactly one right node. -/
def c3WitnessGC : GraphContext :=
  { nodes := [{ node_id := "R1".data
                node_type := "right".data
                content := { right_type := "procedural_right".data
                             description := "File a complaint with the District Commission.".data
                             granted_by := "Section 35, Consumer Protection Act, 2019".data } }]
    edges := []
    citations := []
    confidence := 1
    traversal_path := [] }

/-- A rights-query intent for the witness context. -/
def c3WitnessIntent : QueryIntent :=
  { intent_type := IntentType.rights_query
    entities := []
    section_numbers := []
    legal_terms := ["consumer rights".data]
    confidence := 0.9
    original_query := "what are my rights".data }

set_option maxRecDepth 20000 in
set_option maxHeartbeats 2000000 in
/-- Witness: on a concrete rights query with one retrieved right node
and no truncation, the six-right enumeration with its keys is emitted. -/
theorem build_context_rights_block_witness :
    ∃ c₀ l r tail,
      c₀ = (bc_defs c3WitnessGC).2.2 ∧
      (build_context 8000 c3WitnessGC c3WitnessIntent).formatted_text =
        l ++ (joinSep "\n".data
          (rightsHeaderLine :: [] :: enumeratedRightsLines
            fundamental_rights 1 c₀) ++ tail) ++ r ∧
      ∀ i, i < 6 →
        citationKey (c₀ + i + 1) ∈
          (build_context 8000 c3WitnessGC c3WitnessIntent).citations.map
            Prod.fst :=
  build_context_rights_block 8000 c3WitnessGC c3WitnessIntent rfl
    (by decide) (by decide)

/-- A rights query whose retrieval produced no right node. -/
def c3CexGC : GraphContext :=
  { nodes := [{ node_id := "S1".data
                node_type := "section".data
                content := { section_number := "2".data
                             title := "Definitions".data
                             text := "Terms used in this Act.".data
                             act := cpa2019 } }]
    edges := []
    citations := []
    confidence := 1
    traversal_path := ["S1".data] }

/-- The rights-query intent of the counterexample. -/
def c3CexIntent : QueryIntent :=
  { intent_type := IntentType.rights_query
    entities := []
    section_numbers := []
    legal_terms := []
    confidence := 0.9
    original_query := "rights".data }

set_option maxRecDepth 20000 in
set_option maxHeartbeats 2000000 in
/-- Counterexample to the claim as stated: a rights query that retrieved
no right node gets a context without the six-right enumeration (not even
the first right's title appears). -/
theorem build_context_rights_cex :
    c3CexIntent.intent_type = IntentType.rights_query ∧
    ¬ ("Right to Safety".data <:+:
      (build_context 8000 c3CexGC c3CexIntent).formatted_text) := by
  exact ⟨rfl, by decide⟩

/-! ### The shape of truncation -/

/-- The truncation loop keeps a prefix of the parts — the first three
unconditionally, then greedily while they fit — and, when it cuts, ends
with the clipped front of the next part plus the marker. -/
theorem truncate_go_shape (maxLen : Nat) :
    ∀ (l : List Str) (i current : Nat),
      ∃ j, j ≤ l.length ∧ (3 ≤ i + j ∨ j = l.length) ∧
        (truncate_go maxLen l i current = l.take j ∨
         ∃ m, j < l.length ∧
           truncate_go maxLen l i current =
             l.take j ++ [(l.getD j []).take m ++ truncMarker]) := by
  intro l
  induction l with
  | nil =>
    intro i current
    exact ⟨0, Nat.le_refl _, Or.inr rfl, Or.inl rfl⟩
  | cons sec rest ih =>
    intro i current
    unfold truncate_go
    by_cases h1 : i ≤ 2
    · rw [if_pos h1]
      obtain ⟨j', hle, hcond, hcase⟩ := ih (i + 1) (current + sec.length)
      refine ⟨j' + 1, by simpa using Nat.succ_le_succ hle, ?_, ?_⟩
      · rcases hcond with h | h
        · exact Or.inl (by omega)
        · exact Or.inr (by simp [h])
      · rcases hcase with h | ⟨m, hlt, h⟩
        · exact Or.inl (by rw [h, List.take_succ_cons])
        · exact Or.inr ⟨m, by simpa using Nat.succ_lt_succ hlt, by
            rw [h, List.take_succ_cons, List.getD_cons_succ,
              List.cons_append]⟩
    · rw [if_neg h1]
      by_cases h2 : current + sec.length < maxLen
      · rw [if_pos h2]
        obtain ⟨j', hle, hcond, hcase⟩ := ih (i + 1) (current + sec.length)
        refine ⟨j' + 1, by simpa using Nat.succ_le_succ hle, ?_, ?_⟩
        · rcases hcond with h | h
          · exact Or.inl (by omega)
          · exact Or.inr (by simp [h])
        · rcases hcase with h | ⟨m, hlt, h⟩
          · exact Or.inl (by rw [h, List.take_succ_cons])
          · exact Or.inr ⟨m, by simpa using Nat.succ_lt_succ hlt, by
              rw [h, List.take_succ_cons, List.getD_cons_succ,
                List.cons_append]⟩
      · rw [if_neg h2]
        by_cases h3 : current + 100 < maxLen
        · rw [if_pos h3]
          exact ⟨0, Nat.zero_le _, Or.inl (by omega),
            Or.inr ⟨maxLen - current - 100, by simp, by
              rw [List.take_zero, List.getD_cons_zero, List.nil_append]⟩⟩
        · rw [if_neg h3]
          exact ⟨0, Nat.zero_le _, Or.inl (by omega),
            Or.inl (by rw [List.take_zero])⟩

/-- **C8.** (Amended.)  On text longer than the limit, `_truncate_context`
splits on `"==="` and keeps a *prefix* of the parts (so trailing sections
are dropped first): the first three split parts — i.e. the first
structural section, not the first two — are kept unconditionally, further
parts are kept while their cumulative length stays below the limit, and
at the first part that does not fit, the clipped front of that part plus
the truncation marker is attached exactly when at least 101 characters of
budget remain — otherwise the output ends without any marker.  (The
original claim fails in both strengths: only the first structural
section, not two, is guaranteed, and the marker is not always
appended.) -/
theorem truncate_context_spec (maxLen : Nat) (text : Str)
    (hlong : maxLen < text.length) :
    ∃ j, j ≤ (splitOnStr sectionSep text).length ∧
      min 3 (splitOnStr sectionSep text).length ≤ j ∧
      (truncate_context maxLen text =
        joinSep sectionSep ((splitOnStr sectionSep text).take j) ∨
       ∃ m, j < (splitOnStr sectionSep text).length ∧
         truncate_context maxLen text =
           joinSep sectionSep ((splitOnStr sectionSep text).take j ++
             [((splitOnStr sectionSep text).getD j []).take m ++
               truncMarker])) := by
  unfold truncate_context
  rw [if_neg (by omega)]
  obtain ⟨j, hle, hcond, hcase⟩ :=
    truncate_go_shape maxLen (splitOnStr sectionSep text) 0 0
  refine ⟨j, hle, by omega, ?_⟩
  rcases hcase with h | ⟨m, hlt, h⟩
  · exact Or.inl (by rw [h])
  · exact Or.inr ⟨m, hlt, by rw [h]⟩

/-- The counterexample text: five `"==="`-separated four-character
sections. -/
def c8Text : Str := "aaaa===bbbb===cccc===dddd===eeee".data

set_option maxRecDepth 20000 in
/-- Counterexample to the claim as stated: at limit 20 the last section
is dropped but no truncation marker is appended (only 4 characters of
budget remained, fewer than the 100 the marker branch requires). -/
theorem truncate_context_no_marker :
    20 < c8Text.length ∧
    truncate_context 20 c8Text = "aaaa===bbbb===cccc===dddd".data ∧
    ¬ (truncMarker <:+: truncate_context 20 c8Text) := by
  refine ⟨by decide, by decide, by decide⟩

set_option maxRecDepth 20000 in
/-- Witness: the truncation shape theorem applied to the concrete
counterexample text at limit 20. -/
theorem truncate_context_spec_witness :
    ∃ j, j ≤ (splitOnStr sectionSep c8Text).length ∧
      min 3 (splitOnStr sectionSep c8Text).length ≤ j ∧
      (truncate_context 20 c8Text =
        joinSep sectionSep ((splitOnStr sectionSep c8Text).take j) ∨
       ∃ m, j < (splitOnStr sectionSep c8Text).length ∧
         truncate_context 20 c8Text =
           joinSep sectionSep ((splitOnStr sectionSep c8Text).take j ++
             [((splitOnStr sectionSep c8Text).getD j []).take m ++
               truncMarker])) :=
  truncate_context_spec 20 c8Text (by decide)

/-! ### Response validation (`validation.py`)

Regex scans over the response are oracles: `found_citations`,
`uncited_claims` and `section_refs` stand for the `re.findall` /
`re.finditer` results, `valid_kg_ref` for
`_is_valid_knowledge_graph_reference`.  The issue aggregation, the
fabricated-section check against the section index, validity
determination and auto-correction are concrete. -/

/-- `ValidationSeverity` from `validation.py`. -/
inductive ValidationSeverity where
  | error
  | warning
  | info
deriving DecidableEq

/-- `ValidationIssue` from `validation.py`. -/
structure ValidationIssue where
  severity : ValidationSeverity
  issue_type : Str
  message : Str
  location : Option Str := none
  suggestion : Option Str := none
  confidence_impact : ℚ := 0
deriving DecidableEq

/-- `ValidationResult` from `validation.py`. -/
structure ValidationResult where
  is_valid : Bool
  confidence_score : ℚ
  issues : List ValidationIssue
  citation_count : Nat
  unsupported_claims : List Str
  fabricated_references : List Str
  missing_disclaimers : List Str
  format_violations : List Str
  corrected_response : Option Str
  requires_human_review : Bool

/-- The citation-constraints knobs consulted by `validate_response`. -/
structure CitationConstraints where
  require_all_claims : Bool
  max_unsupported_claims : Nat

/-- `CitationValidator._find_fabricated_sections`: every scanned section
surface form whose number is in the section index neither bare nor as
`Section <n>` is fabricated. -/
def find_fabricated_sections (valid_sections : List Str)
    (section_refs : List (Str × Str)) : List Str :=
  (section_refs.filter (fun r =>
    !(valid_sections.contains r.1) &&
      !(valid_sections.contains ("Section ".data ++ r.1)))).map Prod.snd

/-- `CitationValidator.validate_citations`: invalid-citation errors, then
uncited-claim warnings, then fabricated-section errors. -/
def validate_citations (valid_sections : List Str)
    (valid_kg_ref : Str → Bool) (found_citations : List Str)
    (uncited_claims : List (Str × Str)) (section_refs : List (Str × Str))
    (ctx_citations : List (Str × Str)) : List ValidationIssue :=
  (found_citations.filterMap (fun citation =>
    let ck := stripStr citation
    if ck ∈ ctx_citations.map Prod.fst then none
    else if valid_kg_ref ck then none
    else some
      { severity := ValidationSeverity.error
        issue_type := "invalid_citation".data
        message := "Citation ".data ++ ck ++
          " not found in available context or knowledge graph".data
        location := some ("Citation: ".data ++ ck)
        suggestion := some "Use only citations provided in the context or valid knowledge graph references".data
        confidence_impact := -0.3 })) ++
  (uncited_claims.map (fun cl =>
    { severity := ValidationSeverity.warning
      issue_type := "uncited_claim".data
      message := "Legal claim ".data ++ cl.1 ++ " may need citation".data
      location := some ("Position ".data ++ cl.2)
      suggestion := some "Add appropriate citation for legal claims".data
      confidence_impact := -0.1 })) ++
  ((find_fabricated_sections valid_sections section_refs).map (fun full =>
    { severity := ValidationSeverity.error
      issue_type := "fabricated_section".data
      message := "Response mentions ".data ++ full ++
        " which does not exist in knowledge base".data
      suggestion := some "Only reference sections that exist in the Consumer Protection Act, 2019".data
      confidence_impact := -0.4 }))

/-- `ResponseValidator._determine_validity`. -/
def determine_validity (issues : List ValidationIssue) (confidence : ℚ)
    (fabricated : List Str) : Bool :=
  if fabricated ≠ [] then false
  else if issues.any (fun i =>
      i.severity == ValidationSeverity.error &&
        (i.issue_type == "fabricated_section".data ||
          i.issue_type == "hallucinated_content".data ||
          i.issue_type == "predictive_language".data)) then false
  else if confidence < 0.5 then false
  else true

/-- `ResponseValidator._can_auto_correct`: every error-severity issue
belongs to the enumerated correctable class. -/
def can_auto_correct (issues : List ValidationIssue) : Bool :=
  issues.all (fun i =>
    !(i.severity == ValidationSeverity.error) ||
      (i.issue_type == "missing_disclaimer".data ||
        i.issue_type == "formatting_issue".data))

/-- The fixed disclaimer text appended by `_attempt_auto_correction`. -/
def disclaimerText : Str :=
  "\n\nDisclaimer: This information is provided for educational purposes only and does not constitute legal advice. For legal advice specific to your situation, please consult a qualified lawyer.".data

/-- `ResponseValidator._attempt_auto_correction`: append one disclaimer
per missing-disclaimer issue. -/
def attempt_auto_correction (response : Str)
    (issues : List ValidationIssue) : Str :=
  issues.foldl (fun corrected i =>
    if i.issue_type = "missing_disclaimer".data then
      corrected ++ disclaimerText
    else corrected) response

/-- The unsupported-claims error issue appended by `validate_response`
under `require_all_claims`. -/
def unsupportedClaimsIssue (n : Nat) : ValidationIssue :=
  { severity := ValidationSeverity.error
    issue_type := "unsupported_claims".data
    message := "Found ".data ++ natStr n ++
      " unsupported legal claims".data
    suggestion := some "Ensure all legal claims have supporting citations".data
    confidence_impact := -0.4 }

/-- The confidence-review warnings added on the scorer path of
`validate_response`. -/
def review_issues_of (review_reasons : List Str) : List ValidationIssue :=
  review_reasons.map (fun reason =>
    { severity := ValidationSeverity.warning
      issue_type := "confidence_review".data
      message := "Human review required: ".data ++ reason
      confidence_impact := 0 })

/-- The `all_issues` accumulation of `validate_response`, in source
order: citation, content, knowledge-graph, citation-density, format and
confidence-review issues. -/
def vr_base_issues (valid_sections : List Str)
    (valid_kg_ref : Str → Bool) (found_citations : List Str)
    (uncited_claims : List (Str × Str)) (section_refs : List (Str × Str))
    (content_issues kg_issues density_issues format_issues :
      List ValidationIssue)
    (review_reasons : List Str) (ctx : LLMContext) :
    List ValidationIssue :=
  validate_citations valid_sections valid_kg_ref found_citations
      uncited_claims section_refs ctx.citations ++
    content_issues ++ kg_issues ++ density_issues ++ format_issues ++
    review_issues_of review_reasons

/-- `ResponseValidator.validate_response`: aggregate the issue lists in
source order, determine validity, apply the citation-constraint
overrides, and attempt auto-correction only on invalid responses whose
errors are all correctable. -/
def validate_response (valid_sections : List Str)
    (valid_kg_ref : Str → Bool) (found_citations : List Str)
    (uncited_claims : List (Str × Str)) (section_refs : List (Str × Str))
    (content_issues kg_issues density_issues format_issues :
      List ValidationIssue)
    (review_reasons : List Str) (unsupported_claims : List Str)
    (fabricated_references : List Str) (confidence_score : ℚ)
    (requires_review : Bool) (constraints : CitationConstraints)
    (response : Str) (ctx : LLMContext) : ValidationResult :=
  let all0 := vr_base_issues valid_sections valid_kg_ref found_citations
    uncited_claims section_refs content_issues kg_issues density_issues
    format_issues review_reasons ctx
  let is_valid0 :=
    determine_validity all0 confidence_score fabricated_references
  let override1 :=
    constraints.require_all_claims ∧ 0 < unsupported_claims.length
  let all1 :=
    if override1 then
      all0 ++ [unsupportedClaimsIssue unsupported_claims.length]
    else all0
  let is_valid1 := if override1 then false else is_valid0
  let is_valid2 :=
    if constraints.max_unsupported_claims < unsupported_claims.length
    then false else is_valid1
  let corrected :=
    if !is_valid2 && can_auto_correct all1 then
      some (attempt_auto_correction response all1)
    else none
  { is_valid := is_valid2
    confidence_score := confidence_score
    issues := all1
    citation_count := found_citations.length
    unsupported_claims := unsupported_claims
    fabricated_references := fabricated_references
    missing_disclaimers :=
      (all1.filter (fun i =>
        i.issue_type == "missing_disclaimer".data)).map
        ValidationIssue.message
    format_violations :=
      (all1.filter (fun i =>
        i.issue_type == "format_violation".data ||
          i.issue_type == "structure_issue".data)).map
        ValidationIssue.message
    corrected_response := corrected
    requires_human_review := requires_review }

/-- The issue list returned by `validate_response`. -/
theorem validate_response_issues (valid_sections : List Str)
    (valid_kg_ref : Str → Bool) (found_citations : List Str)
    (uncited_claims : List (Str × Str)) (section_refs : List (Str × Str))
    (content_issues kg_issues density_issues format_issues :
      List ValidationIssue)
    (review_reasons unsupported_claims fabricated_references : List Str)
    (confidence_score : ℚ) (requires_review : Bool)
    (constraints : CitationConstraints) (response : Str)
    (ctx : LLMContext) :
    (validate_response valid_sections valid_kg_ref found_citations
      uncited_claims section_refs content_issues kg_issues density_issues
      format_issues review_reasons unsupported_claims
      fabricated_references confidence_score requires_review constraints
      response ctx).issues =
      (if constraints.require_all_claims ∧ 0 < unsupported_claims.length
      then
        vr_base_issues valid_sections valid_kg_ref found_citations
          uncited_claims section_refs content_issues kg_issues
          density_issues format_issues review_reasons ctx ++
          [unsupportedClaimsIssue unsupported_claims.length]
      else
        vr_base_issues valid_sections valid_kg_ref found_citations
          uncited_claims section_refs content_issues kg_issues
          density_issues format_issues review_reasons ctx) := rfl

/-- The validity flag returned by `validate_response`. -/
theorem validate_response_is_valid (valid_sections : List Str)
    (valid_kg_ref : Str → Bool) (found_citations : List Str)
    (uncited_claims : List (Str × Str)) (section_refs : List (Str × Str))
    (content_issues kg_issues density_issues format_issues :
      List ValidationIssue)
    (review_reasons unsupported_claims fabricated_references : List Str)
    (confidence_score : ℚ) (requires_review : Bool)
    (constraints : CitationConstraints) (response : Str)
    (ctx : LLMContext) :
    (validate_response valid_sections valid_kg_ref found_citations
      uncited_claims section_refs content_issues kg_issues density_issues
      format_issues review_reasons unsupported_claims
      fabricated_references confidence_score requires_review constraints
      response ctx).is_valid =
      (if constraints.max_unsupported_claims < unsupported_claims.length
      then false
      else if constraints.require_all_claims ∧
          0 < unsupported_claims.length then false
      else determine_validity
        (vr_base_issues valid_sections valid_kg_ref found_citations
          uncited_claims section_refs content_issues kg_issues
          density_issues format_issues review_reasons ctx)
        confidence_score fabricated_references) := rfl

/-- The corrected response returned by `validate_response`. -/
theorem validate_response_corrected (valid_sections : List Str)
    (valid_kg_ref : Str → Bool) (found_citations : List Str)
    (uncited_claims : List (Str × Str)) (section_refs : List (Str × Str))
    (content_issues kg_issues density_issues format_issues :
      List ValidationIssue)
    (review_reasons unsupported_claims fabricated_references : List Str)
    (confidence_score : ℚ) (requires_review : Bool)
    (constraints : CitationConstraints) (response : Str)
    (ctx : LLMContext) :
    (validate_response valid_sections valid_kg_ref found_citations
      uncited_claims section_refs content_issues kg_issues density_issues
      format_issues review_reasons unsupported_claims
      fabricated_references confidence_score requires_review constraints
      response ctx).corrected_response =
      (if !(validate_response valid_sections valid_kg_ref found_citations
          uncited_claims section_refs content_issues kg_issues
          density_issues format_issues review_reasons unsupported_claims
          fabricated_references confidence_score requires_review
          constraints response ctx).is_valid &&
        can_auto_correct
          (validate_response valid_sections valid_kg_ref found_citations
            uncited_claims section_refs content_issues kg_issues
            density_issues format_issues review_reasons unsupported_claims
            fabricated_references confidence_score requires_review
            constraints response ctx).issues
      then
        some (attempt_auto_correction response
          (validate_response valid_sections valid_kg_ref found_citations
            uncited_claims section_refs content_issues kg_issues
            density_issues format_issues review_reasons unsupported_claims
            fabricated_references confidence_score requires_review
            constraints response ctx).issues)
      else none) := rfl

/-- An error issue of the fabricated-section type forces
`_determine_validity` to reject. -/
theorem determine_validity_false_of_fab {issues : List ValidationIssue}
    {conf : ℚ} {fab : List Str} (i : ValidationIssue) (hi : i ∈ issues)
    (hsev : i.severity = ValidationSeverity.error)
    (hty : i.issue_type = "fabricated_section".data) :
    determine_validity issues conf fab = false := by
  have hany : issues.any (fun i =>
      i.severity == ValidationSeverity.error &&
        (i.issue_type == "fabricated_section".data ||
          i.issue_type == "hallucinated_content".data ||
          i.issue_type == "predictive_language".data)) = true :=
    List.any_eq_true.mpr ⟨i, hi, by simp [hsev, hty]⟩
  unfold determine_validity
  by_cases hfab : fab ≠ []
  · rw [if_pos hfab]
  · rw [if_neg hfab, hany]
    simp

/-- The fabricated-section issue built by `validate_citations` sits in
the aggregated issue list. -/
theorem fab_issue_mem_base {valid_sections : List Str}
    {valid_kg_ref : Str → Bool} {found_citations : List Str}
    {uncited_claims : List (Str × Str)}
    {section_refs : List (Str × Str)}
    {content_issues kg_issues density_issues format_issues :
      List ValidationIssue}
    {review_reasons : List Str} {ctx : LLMContext} {ref full : Str}
    (href : (ref, full) ∈ section_refs)
    (habs1 : ref ∉ valid_sections)
    (habs2 : ("Section ".data ++ ref) ∉ valid_sections) :
    ∃ i ∈ vr_base_issues valid_sections valid_kg_ref found_citations
        uncited_claims section_refs content_issues kg_issues
        density_issues format_issues review_reasons ctx,
      i.severity = ValidationSeverity.error ∧
      i.issue_type = "fabricated_section".data := by
  have hfab : full ∈ find_fabricated_sections valid_sections section_refs := by
    unfold find_fabricated_sections
    refine List.mem_map.mpr ⟨(ref, full), List.mem_filter.mpr ⟨href, ?_⟩, rfl⟩
    simp only [Bool.and_eq_true, Bool.not_eq_true']
    constructor
    · simpa using habs1
    · simpa using habs2
  refine ⟨{ severity := ValidationSeverity.error
            issue_type := "fabricated_section".data
            message := "Response mentions ".data ++ full ++
              " which does not exist in knowledge base".data
            suggestion := some "Only reference sections that exist in the Consumer Protection Act, 2019".data
            confidence_impact := -0.4 }, ?_, rfl, rfl⟩
  unfold vr_base_issues
  refine List.mem_append_left _ (List.mem_append_left _
    (List.mem_append_left _ (List.mem_append_left _
      (List.mem_append_left _ ?_))))
  unfold validate_citations
  exact List.mem_append_right _ (List.mem_map.mpr ⟨full, hfab, rfl⟩)

/-- **C2.**  Whenever the section-number scan finds a surface form whose
number is in the section index neither bare nor as `Section <n>`,
`validate_response` records an error-severity `fabricated_section` issue
and returns `is_valid = false`, regardless of the citations, the other
issues, the confidence score and the constraint knobs. -/
theorem validate_response_fabricated_rejects (valid_sections : List Str)
    (valid_kg_ref : Str → Bool) (found_citations : List Str)
    (uncited_claims : List (Str × Str)) (section_refs : List (Str × Str))
    (content_issues kg_issues density_issues format_issues :
      List ValidationIssue)
    (review_reasons unsupported_claims fabricated_references : List Str)
    (confidence_score : ℚ) (requires_review : Bool)
    (constraints : CitationConstraints) (response : Str)
    (ctx : LLMContext) (ref full : Str)
    (href : (ref, full) ∈ section_refs)
    (habs1 : ref ∉ valid_sections)
    (habs2 : ("Section ".data ++ ref) ∉ valid_sections) :
    (∃ i ∈ (validate_response valid_sections valid_kg_ref found_citations
        uncited_claims section_refs content_issues kg_issues
        density_issues format_issues review_reasons unsupported_claims
        fabricated_references confidence_score requires_review constraints
        response ctx).issues,
      i.severity = ValidationSeverity.error ∧
      i.issue_type = "fabricated_section".data) ∧
    (validate_response valid_sections valid_kg_ref found_citations
      uncited_claims section_refs content_issues kg_issues density_issues
      format_issues review_reasons unsupported_claims
      fabricated_references confidence_score requires_review constraints
      response ctx).is_valid = false := by
  obtain ⟨i, hi, hsev, hty⟩ := @fab_issue_mem_base valid_sections
    valid_kg_ref found_citations uncited_claims section_refs
    content_issues kg_issues density_issues format_issues review_reasons
    ctx ref full href habs1 habs2
  constructor
  · rw [validate_response_issues]
    split
    · exact ⟨i, List.mem_append_left _ hi, hsev, hty⟩
    · exact ⟨i, hi, hsev, hty⟩
  · rw [validate_response_is_valid]
    split
    · rfl
    · split
      · rfl
      · exact determine_validity_false_of_fab i hi hsev hty

/-- The section index of the C2 witness knows only section 2. -/
def c2ValidSections : List Str := ["2".data]

/-- The scan of the C2 witness found the surface form `Section 9999`. -/
def c2SectionRefs : List (Str × Str) :=
  [("9999".data, "Section 9999".data)]

/-- An empty assembled context for the validation witnesses. -/
def emptyLLMContext : LLMContext :=
  { formatted_text := []
    citations := []
    metadata := { intent_type := IntentType.scenario_analysis
                  confidence := 0
                  node_count := 0
                  edge_count := 0 }
    primary_provisions := []
    related_provisions := []
    definitions := []
    hierarchical_context := [] }

/-- Witness: on a concrete response scan with a fabricated
`Section 9999`, validation records the error and rejects. -/
theorem validate_response_fabricated_witness :
    (∃ i ∈ (validate_response c2ValidSections (fun _ => false) [] []
        c2SectionRefs [] [] [] [] [] [] [] 0 false ⟨false, 5⟩ []
        emptyLLMContext).issues,
      i.severity = ValidationSeverity.error ∧
      i.issue_type = "fabricated_section".data) ∧
    (validate_response c2ValidSections (fun _ => false) [] []
      c2SectionRefs [] [] [] [] [] [] [] 0 false ⟨false, 5⟩ []
      emptyLLMContext).is_valid = false :=
  validate_response_fabricated_rejects c2ValidSections (fun _ => false)
    [] [] c2SectionRefs [] [] [] [] [] [] [] 0 false ⟨false, 5⟩ []
    emptyLLMContext "9999".data "Section 9999".data (by decide)
    (by decide) (by decide)

/-- One step of the auto-correction fold. -/
theorem attempt_cons (r : Str) (i : ValidationIssue)
    (rest : List ValidationIssue) :
    attempt_auto_correction r (i :: rest) =
      attempt_auto_correction
        (if i.issue_type = "missing_disclaimer".data then
          r ++ disclaimerText
        else r) rest := rfl

/-- The auto-correction appends exactly one disclaimer per
missing-disclaimer issue, after the untouched response. -/
theorem attempt_auto_correction_eq (issues : List ValidationIssue) :
    ∀ r, attempt_auto_correction r issues =
      r ++ ((issues.filter (fun i =>
        i.issue_type == "missing_disclaimer".data)).map
        (fun _ => disclaimerText)).flatten := by
  induction issues with
  | nil =>
    intro r
    simp [attempt_auto_correction]
  | cons i rest ih =>
    intro r
    rw [attempt_cons]
    by_cases hty : i.issue_type = "missing_disclaimer".data
    · rw [if_pos hty, ih, List.filter_cons, if_pos (by simpa using hty),
        List.map_cons, List.flatten_cons, ← List.append_assoc]
    · rw [if_neg hty, ih, List.filter_cons, if_neg (by simpa using hty)]

/-- **C5.**  Whenever `validate_response` produces a non-`none`
corrected response, the correction is the original response — preserved
unchanged as a prefix — followed by one copy of the fixed disclaimer per
missing-disclaimer issue and nothing else; it happens only on invalid
responses, and only when every error-severity issue is of the enumerated
correctable class (missing disclaimer / formatting). -/
theorem validate_response_correction_frame (valid_sections : List Str)
    (valid_kg_ref : Str → Bool) (found_citations : List Str)
    (uncited_claims : List (Str × Str)) (section_refs : List (Str × Str))
    (content_issues kg_issues density_issues format_issues :
      List ValidationIssue)
    (review_reasons unsupported_claims fabricated_references : List Str)
    (confidence_score : ℚ) (requires_review : Bool)
    (constraints : CitationConstraints) (response : Str)
    (ctx : LLMContext) (c : Str)
    (hc : (validate_response valid_sections valid_kg_ref found_citations
      uncited_claims section_refs content_issues kg_issues density_issues
      format_issues review_reasons unsupported_claims
      fabricated_references confidence_score requires_review constraints
      response ctx).corrected_response = some c) :
    response <+: c ∧
    c = response ++
      (((validate_response valid_sections valid_kg_ref found_citations
      uncited_claims section_refs content_issues kg_issues density_issues
      format_issues review_reasons unsupported_claims
      fabricated_references confidence_score requires_review constraints
      response ctx).issues.filter (fun i =>
        i.issue_type == "missing_disclaimer".data)).map
        (fun _ => disclaimerText)).flatten ∧
    (validate_response valid_sections valid_kg_ref found_citations
      uncited_claims section_refs content_issues kg_issues density_issues
      format_issues review_reasons unsupported_claims
      fabricated_references confidence_score requires_review constraints
      response ctx).is_valid = false ∧
    ∀ i ∈ (validate_response valid_sections valid_kg_ref found_citations
      uncited_claims section_refs content_issues kg_issues density_issues
      format_issues review_reasons unsupported_claims
      fabricated_references confidence_score requires_review constraints
      response ctx).issues,
      i.severity = ValidationSeverity.error →
        i.issue_type = "missing_disclaimer".data ∨
        i.issue_type = "formatting_issue".data := by
  rw [validate_response_corrected] at hc
  split at hc
  · rename_i h
    rw [Bool.and_eq_true] at h
    obtain ⟨hnv, hcan⟩ := h
    injection hc with hc
    have hceq : c = response ++
        (((validate_response valid_sections valid_kg_ref found_citations
      uncited_claims section_refs content_issues kg_issues density_issues
      format_issues review_reasons unsupported_claims
      fabricated_references confidence_score requires_review constraints
      response ctx).issues.filter (fun i =>
          i.issue_type == "missing_disclaimer".data)).map
          (fun _ => disclaimerText)).flatten := by
      rw [← hc, attempt_auto_correction_eq]
    refine ⟨⟨_, hceq.symm⟩, hceq, ?_, ?_⟩
    · rw [← Bool.not_eq_true']
      exact hnv
    · intro i hi hsev
      unfold can_auto_correct at hcan
      have h2 := List.all_eq_true.mp hcan i hi
      simp only [hsev, beq_self_eq_true, Bool.not_true, Bool.false_or,
        Bool.or_eq_true, beq_iff_eq] at h2
      exact h2
  · cases hc

/-- A correctable missing-disclaimer error issue. -/
def c5MDIssue : ValidationIssue :=
  { severity := ValidationSeverity.error
    issue_type := "missing_disclaimer".data
    message := "Response missing required disclaimer".data }

/-- The response of the C5 witness. -/
def c5Resp : Str :=
  "Consumers may approach the District Commission.".data

set_option maxRecDepth 20000 in
/-- Witness: a concrete invalid response whose only error is a missing
disclaimer is auto-corrected by appending the fixed disclaimer to the
untouched original. -/
theorem validate_response_correction_frame_witness :
    (validate_response [] (fun _ => false) [] [] [] [] [] [] [c5MDIssue]
      [] [] ["Section 99".data] 0 false ⟨false, 5⟩ c5Resp
      emptyLLMContext).corrected_response =
        some (c5Resp ++ disclaimerText) ∧
    (c5Resp <+: c5Resp ++ disclaimerText ∧
      c5Resp ++ disclaimerText = c5Resp ++
        ((((validate_response [] (fun _ => false) [] [] [] [] [] [] [c5MDIssue]
          [] [] ["Section 99".data] 0 false ⟨false, 5⟩ c5Resp
          emptyLLMContext).issues.filter (fun i =>
            i.issue_type == "missing_disclaimer".data)).map
            (fun _ => disclaimerText)).flatten) ∧
      (validate_response [] (fun _ => false) [] [] [] [] [] [] [c5MDIssue]
        [] [] ["Section 99".data] 0 false ⟨false, 5⟩ c5Resp
        emptyLLMContext).is_valid = false ∧
      ∀ i ∈ (validate_response [] (fun _ => false) [] [] [] [] [] []
          [c5MDIssue] [] [] ["Section 99".data] 0 false ⟨false, 5⟩ c5Resp
          emptyLLMContext).issues,
        i.severity = ValidationSeverity.error →
          i.issue_type = "missing_disclaimer".data ∨
          i.issue_type = "formatting_issue".data) := by
  have hsome : (validate_response [] (fun _ => false) [] [] [] [] [] []
      [c5MDIssue] [] [] ["Section 99".data] 0 false ⟨false, 5⟩ c5Resp
      emptyLLMContext).corrected_response =
        some (c5Resp ++ disclaimerText) := by decide
  exact ⟨hsome, validate_response_correction_frame [] (fun _ => false)
    [] [] [] [] [] [] [c5MDIssue] [] [] ["Section 99".data] 0 false
    ⟨false, 5⟩ c5Resp emptyLLMContext (c5Resp ++ disclaimerText) hsome⟩

end Nyaya
